import Mathlib

/-!
Verification development for the `mac-agent-gateway` repository.

The Python sources under `src/mag/` are shallowly embedded as executable Lean
definitions:

* `src/mag/services/contacts.py` — the `ContactCache` (contact store with
  phone/email lookup indices, merge-on-upsert, multi-tier resolution);
* `src/mag/services/pii.py` — the regex-based PII filter (six substitution
  rules applied in a fixed order);
* `src/mag/services/imsg.py` — the pure parts of the imsg CLI adapter
  (error classification, text cleaning, fast text search scan, URL
  extraction and link context windows).

Modelling conventions:

* Python strings are modelled as `List Char` (`Str`); character classes
  (`\d`, `\w`, `\s`, `str.lower`, `str.strip` ...) are modelled at the ASCII
  level, which is faithful for every input considered here.
* Python `dict`s (insertion ordered) are modelled as association lists with
  Python's assignment/pop semantics (`dictInsert`, `dictPop`, `dictGet`).
* Contact ids (UUID strings in Python) are modelled as naturals drawn from a
  fresh-id counter carried by the cache state; `datetime.now()` timestamps
  are modelled by an explicit `now : Nat` argument to the mutating call.
* Each `re` pattern of `pii.py` / `imsg.py` is hand-compiled to a
  deterministic backtracking matcher that mirrors the Python regex engine's
  preference order (leftmost start position; greedy quantifiers try the
  longest alternative first); `Pattern.sub` is modelled by `subAll`, which
  scans the original string left to right and replaces non-overlapping
  matches.
-/

/-! ## Strings as lists of characters, Python-style helpers -/

abbrev Str := List Char

def strOf (s : String) : Str := s.data

/-- ASCII model of Python `str.lower()`. -/
def lowerStr (s : Str) : Str := s.map Char.toLower

/-- Characters stripped by Python `str.strip()` (ASCII whitespace). -/
def isPySpace (c : Char) : Bool :=
  c = ' ' || c = '\t' || c = '\n' || c = '\x0d' || c = '\x0b' || c = '\x0c'

/-- Python `str.strip()`. -/
def pyStrip (s : Str) : Str :=
  ((s.dropWhile isPySpace).reverse.dropWhile isPySpace).reverse

/-- Python `needle in hay` substring test. -/
def strContains (hay needle : Str) : Bool :=
  (List.range (hay.length + 1)).any (fun i => needle.isPrefixOf (hay.drop i))

/-- Python truthiness of an optional string (`None` and `""` are falsy). -/
def pyTruthy : Option Str → Option Str
  | none => none
  | some s => if s = [] then none else some s

/-! ## Association lists with Python `dict` semantics

A Python `dict` keeps at most one entry per key; `dictInsert` overwrites the
entry in place when the key is present and appends otherwise, `dictPop`
removes the key, `dictGet` is `d.get(k)`, `dictValues` is `d.values()` in
insertion order. -/

def dictGet {α β : Type} [DecidableEq α] : List (α × β) → α → Option β
  | [], _ => none
  | p :: d, k => if p.1 = k then some p.2 else dictGet d k

def dictInsert {α β : Type} [DecidableEq α] : List (α × β) → α → β → List (α × β)
  | [], k, v => [(k, v)]
  | p :: d, k, v => if p.1 = k then (k, v) :: d else p :: dictInsert d k v

def dictPop {α β : Type} [DecidableEq α] : List (α × β) → α → List (α × β)
  | [], _ => []
  | p :: d, k => if p.1 = k then dictPop d k else p :: dictPop d k

def dictValues {α β : Type} (d : List (α × β)) : List β := d.map Prod.snd

theorem dictGet_insert {α β : Type} [DecidableEq α] (d : List (α × β)) (k : α) (v : β)
    (k' : α) : dictGet (dictInsert d k v) k' = if k' = k then some v else dictGet d k' := by
  induction d with
  | nil =>
    simp only [dictInsert, dictGet]
    by_cases h : k' = k
    · simp [h]
    · simp [h, Ne.symm h]
  | cons p d ih =>
    simp only [dictInsert]
    by_cases hp : p.1 = k
    · simp only [hp, if_true, dictGet]
      by_cases h : k' = k
      · simp [h]
      · simp [h, Ne.symm h, hp]
    · simp only [hp, if_false, dictGet]
      by_cases hpk : p.1 = k'
      · have h : ¬ (k' = k) := fun he => hp (hpk.trans he)
        simp [hpk, h]
      · simp [hpk, ih]

theorem dictGet_pop {α β : Type} [DecidableEq α] (d : List (α × β)) (k k' : α) :
    dictGet (dictPop d k) k' = if k' = k then none else dictGet d k' := by
  induction d with
  | nil => simp [dictPop, dictGet]
  | cons p d ih =>
    simp only [dictPop]
    by_cases hp : p.1 = k
    · by_cases h : k' = k
      · subst h
        simp [hp, ih]
      · have hpk : ¬ (k = k') := fun he => h he.symm
        simp [hp, ih, h, dictGet, hpk]
    · simp only [hp, if_false, dictGet]
      by_cases hpk : p.1 = k'
      · have h : ¬ (k' = k) := fun he => hp ((hpk.trans he))
        simp [hpk, h]
      · simp [hpk, ih]

/-! ## `src/mag/services/contacts.py` — the contact cache

`Contact` mirrors `mag.models.messages.Contact` (UUID ids become naturals,
`datetime` timestamps become naturals), `ContactUpsert` mirrors the request
model, `ContactResolveResult` mirrors the result model, and `ContactCache`
mirrors the in-memory state (`_contacts`, `_phone_index`, `_email_index`)
plus the fresh-id counter standing in for `uuid4()`.  File persistence
(`_load`/`_save`) is I/O and is not part of the state transitions. -/

structure Contact where
  id : Nat
  name : Option Str
  phones : List Str
  emails : List Str
  aliases : List Str
  updatedAt : Nat
  createdAt : Nat
deriving DecidableEq, Repr

structure ContactUpsert where
  name : Option Str
  phones : List Str
  emails : List Str
  aliases : List Str
deriving DecidableEq, Repr

/-- Resolution status strings of `ContactResolveResult.status`. -/
inductive ResolveStatus where
  | ok
  | ambiguous
  | notFound
deriving DecidableEq, Repr

structure ContactResolveResult where
  status : ResolveStatus
  contact : Option Contact
  candidates : List Contact
deriving DecidableEq, Repr

structure ContactCache where
  contacts : List (Nat × Contact)
  phoneIndex : List (Str × Nat)
  emailIndex : List (Str × Nat)
  nextId : Nat
deriving DecidableEq, Repr

/-- The state of a freshly constructed cache with no persisted file. -/
def emptyCache : ContactCache := ⟨[], [], [], 0⟩

/-- `ContactCache._normalize_phone`: strip, then keep digits, preserving one
leading `+`. -/
def normalizePhone (phone : Str) : Str :=
  let p := pyStrip phone
  match p with
  | [] => []
  | c :: rest =>
    if c = '+' then '+' :: rest.filter Char.isDigit
    else p.filter Char.isDigit

/-- `ContactCache._index_contact` (both index updates). -/
def indexContact (c : ContactCache) (ct : Contact) : ContactCache :=
  { c with
    phoneIndex := ct.phones.foldl (fun d ph => dictInsert d (normalizePhone ph) ct.id) c.phoneIndex
    emailIndex := ct.emails.foldl (fun d em => dictInsert d (lowerStr em) ct.id) c.emailIndex }

/-- `ContactCache._unindex_contact`. -/
def unindexContact (c : ContactCache) (ct : Contact) : ContactCache :=
  { c with
    phoneIndex := ct.phones.foldl (fun d ph => dictPop d (normalizePhone ph)) c.phoneIndex
    emailIndex := ct.emails.foldl (fun d em => dictPop d (lowerStr em)) c.emailIndex }

/-- The existing-contact lookup of `ContactCache.upsert`: first phone whose
normalized form is indexed, else first email whose lowercased form is
indexed. -/
def findExisting (c : ContactCache) (data : ContactUpsert) : Option Nat :=
  match data.phones.findSome? (fun ph => dictGet c.phoneIndex (normalizePhone ph)) with
  | some cid => some cid
  | none => data.emails.findSome? (fun em => dictGet c.emailIndex (lowerStr em))

/-- Python `data.name or contact.name` (`None` and `""` are falsy). -/
def pyOrName (new old : Option Str) : Option Str :=
  match new with
  | none => old
  | some s => if s = [] then old else some s

/-- `if existing_id and existing_id in self._contacts` of `upsert`: the id
found by `findExisting` together with the stored contact, when present. -/
def existingContact (c : ContactCache) (data : ContactUpsert) : Option (Nat × Contact) :=
  match findExisting c data with
  | some existingId =>
    match dictGet c.contacts existingId with
    | some old => some (existingId, old)
    | none => none
  | none => none

/-- The merged contact built by the update branch of `upsert`. -/
def mergeContact (old : Contact) (data : ContactUpsert) (now : Nat) : Contact :=
  { old with
    name := pyOrName data.name old.name
    phones := (old.phones ++ data.phones).dedup
    emails := (old.emails ++ data.emails).dedup
    aliases := (old.aliases ++ data.aliases).dedup
    updatedAt := now }

/-- `ContactCache.upsert`.  `now` models `datetime.now()`; the fresh-contact
branch draws `c.nextId` in place of `uuid4()`.  `list(set(a + b))` is
modelled as `(a ++ b).dedup`: the claims below only use its set of
elements, which is faithful regardless of Python hash order. -/
def ContactCache.upsert (c : ContactCache) (data : ContactUpsert) (now : Nat) :
    ContactCache × Contact :=
  match existingContact c data with
  | some (existingId, old) =>
    let c1 := unindexContact c old
    let merged := mergeContact old data now
    let c2 := { c1 with contacts := dictInsert c1.contacts existingId merged }
    (indexContact c2 merged, merged)
  | none =>
    let fresh : Contact := ⟨c.nextId, data.name, data.phones, data.emails, data.aliases, now, now⟩
    let c1 := { c with contacts := dictInsert c.contacts fresh.id fresh, nextId := c.nextId + 1 }
    (indexContact c1 fresh, fresh)

/-- A contact name matches the exact (case-insensitive) name query:
`contact.name and contact.name.lower() == name_lower`. -/
def nameExact (nameLower : Str) (ct : Contact) : Bool :=
  match ct.name with
  | none => false
  | some s => decide (s ≠ []) && decide (lowerStr s = nameLower)

/-- A contact matches the substring phase: `name_lower in contact.name.lower()`
or `name_lower in alias.lower()` for some alias (each contact appended at
most once). -/
def nameSubstring (nameLower : Str) (ct : Contact) : Bool :=
  (match ct.name with
   | none => false
   | some s => decide (s ≠ []) && strContains (lowerStr s) nameLower) ||
  ct.aliases.any (fun al => strContains (lowerStr al) nameLower)

/-- Step 1 of `ContactCache.resolve`: direct phone index hit (falls through
when the indexed id is absent from `_contacts`). -/
def phoneLookup (c : ContactCache) (phone : Option Str) : Option Contact :=
  match pyTruthy phone with
  | none => none
  | some p =>
    match dictGet c.phoneIndex (normalizePhone p) with
    | none => none
    | some cid => dictGet c.contacts cid

/-- Step 2 of `ContactCache.resolve`: email index hit. -/
def emailLookup (c : ContactCache) (email : Option Str) : Option Contact :=
  match pyTruthy email with
  | none => none
  | some e =>
    match dictGet c.emailIndex (lowerStr e) with
    | none => none
    | some cid => dictGet c.contacts cid

/-- Steps 3 and 4 of `ContactCache.resolve` (exact name match, then substring
fallback), in `self._contacts.values()` iteration order. -/
def nameResolve (c : ContactCache) (nameLower : Str) : ContactResolveResult :=
  match (dictValues c.contacts).filter (nameExact nameLower) with
  | [ct] => ⟨ResolveStatus.ok, some ct, []⟩
  | [] =>
    match (dictValues c.contacts).filter (nameSubstring nameLower) with
    | [ct] => ⟨ResolveStatus.ok, some ct, []⟩
    | [] => ⟨ResolveStatus.notFound, none, []⟩
    | subs => ⟨ResolveStatus.ambiguous, none, subs⟩
  | exact => ⟨ResolveStatus.ambiguous, none, exact⟩

/-- `ContactCache.resolve`. -/
def ContactCache.resolve (c : ContactCache) (phone email name : Option Str) :
    ContactResolveResult :=
  match phoneLookup c phone with
  | some ct => ⟨ResolveStatus.ok, some ct, []⟩
  | none =>
    match emailLookup c email with
    | some ct => ⟨ResolveStatus.ok, some ct, []⟩
    | none =>
      match pyTruthy name with
      | none => ⟨ResolveStatus.notFound, none, []⟩
      | some n => nameResolve c (lowerStr n)

/-- `ContactCache.delete`. -/
def ContactCache.delete (c : ContactCache) (contactId : Nat) : ContactCache × Bool :=
  match dictGet c.contacts contactId with
  | some ct => (unindexContact { c with contacts := dictPop c.contacts contactId } ct, true)
  | none => (c, false)

/-- `ContactCache.clear` (the fresh-id counter is not part of the Python
state and is simply kept). -/
def ContactCache.clear (c : ContactCache) : ContactCache :=
  { c with contacts := [], phoneIndex := [], emailIndex := [] }

/-- Cache states reachable from the empty cache by `upsert`, `delete` and
`clear`. -/
inductive Reachable : ContactCache → Prop where
  | empty : Reachable emptyCache
  | upsert {c : ContactCache} (data : ContactUpsert) (now : Nat) :
      Reachable c → Reachable (c.upsert data now).1
  | delete {c : ContactCache} (contactId : Nat) :
      Reachable c → Reachable (c.delete contactId).1
  | clear {c : ContactCache} : Reachable c → Reachable c.clear

/-! ## Index-consistency analysis (claim C1) -/

theorem dictGet_foldl_insert {α β γ : Type} [DecidableEq α] (xs : List γ) (f : γ → α)
    (v : β) (d : List (α × β)) (k : α) :
    dictGet (xs.foldl (fun d x => dictInsert d (f x) v) d) k =
      if k ∈ xs.map f then some v else dictGet d k := by
  induction xs generalizing d with
  | nil => simp
  | cons x xs ih =>
    simp only [List.foldl_cons, ih, List.map_cons, List.mem_cons, dictGet_insert]
    by_cases hmem : k ∈ xs.map f
    · simp [hmem]
    · by_cases hx : k = f x
      · simp [hx, hmem]
      · simp [hx, hmem]

theorem dictGet_foldl_pop {α β γ : Type} [DecidableEq α] (xs : List γ) (f : γ → α)
    (d : List (α × β)) (k : α) :
    dictGet (xs.foldl (fun d x => dictPop d (f x)) d) k =
      if k ∈ xs.map f then none else dictGet d k := by
  induction xs generalizing d with
  | nil => simp
  | cons x xs ih =>
    simp only [List.foldl_cons, ih, List.map_cons, List.mem_cons, dictGet_pop]
    by_cases hmem : k ∈ xs.map f
    · simp [hmem]
    · by_cases hx : k = f x
      · simp [hx, hmem]
      · simp [hx, hmem]

/-- The internal well-formedness invariant of a reachable `ContactCache`:
entries of `_contacts` are keyed by their own id and ids are below the
fresh-id counter, and every index entry points to a stored contact that
actually lists the indexed phone/email. -/
def CacheInv (c : ContactCache) : Prop :=
  (∀ i ct, dictGet c.contacts i = some ct → ct.id = i ∧ i < c.nextId) ∧
  (∀ k i, dictGet c.phoneIndex k = some i →
    ∃ ct, dictGet c.contacts i = some ct ∧ k ∈ ct.phones.map normalizePhone) ∧
  (∀ k i, dictGet c.emailIndex k = some i →
    ∃ ct, dictGet c.contacts i = some ct ∧ k ∈ ct.emails.map lowerStr)

theorem cacheInv_empty : CacheInv emptyCache := by
  refine ⟨?_, ?_, ?_⟩ <;> intro k i h <;> simp [emptyCache, dictGet] at h


theorem existingContact_get (c : ContactCache) (data : ContactUpsert) (eid : Nat)
    (old : Contact) (h : existingContact c data = some (eid, old)) :
    dictGet c.contacts eid = some old := by
  unfold existingContact at h
  split at h
  · split at h
    · simp only [Option.some.injEq, Prod.mk.injEq] at h
      rename_i cid hf ct hg
      rw [← h.1, hg, h.2]
    · exact absurd h (by simp)
  · exact absurd h (by simp)

/-- The contact created by the fresh branch of `upsert`. -/
def freshContact (c : ContactCache) (data : ContactUpsert) (now : Nat) : Contact :=
  ⟨c.nextId, data.name, data.phones, data.emails, data.aliases, now, now⟩

theorem upsert_eq_fresh (c : ContactCache) (data : ContactUpsert) (now : Nat)
    (hex : existingContact c data = none) :
    c.upsert data now =
      (indexContact
        { c with
          contacts := dictInsert c.contacts c.nextId (freshContact c data now)
          nextId := c.nextId + 1 } (freshContact c data now),
       freshContact c data now) := by
  simp [ContactCache.upsert, hex, freshContact]

theorem upsert_eq_merge (c : ContactCache) (data : ContactUpsert) (now : Nat)
    (eid : Nat) (old : Contact) (hex : existingContact c data = some (eid, old)) :
    c.upsert data now =
      (indexContact
        { unindexContact c old with
          contacts := dictInsert c.contacts eid (mergeContact old data now) }
        (mergeContact old data now),
       mergeContact old data now) := by
  simp only [ContactCache.upsert, hex]
  rfl

theorem cacheInv_upsert (c : ContactCache) (data : ContactUpsert) (now : Nat)
    (hinv : CacheInv c) : CacheInv (c.upsert data now).1 := by
  obtain ⟨hc, hp, he⟩ := hinv
  cases hex : existingContact c data with
  | none =>
    rw [upsert_eq_fresh c data now hex]
    have hnotold : ∀ i ct, dictGet c.contacts i = some ct → ¬ (i = c.nextId) :=
      fun i ct h hi => Nat.ne_of_lt (hc i ct h).2 hi
    simp only [CacheInv, indexContact, freshContact]
    refine ⟨?_, ?_, ?_⟩
    · intro i ct h
      rw [dictGet_insert] at h
      by_cases hi : i = c.nextId
      · subst hi
        rw [if_pos rfl] at h
        have hct := Option.some.inj h
        subst hct
        exact ⟨rfl, by omega⟩
      · rw [if_neg hi] at h
        have := hc i ct h
        exact ⟨this.1, by omega⟩
    · intro k i h
      rw [dictGet_foldl_insert] at h
      by_cases hmem : k ∈ data.phones.map normalizePhone
      · rw [if_pos hmem] at h
        have hi := Option.some.inj h
        subst hi
        refine ⟨⟨c.nextId, data.name, data.phones, data.emails, data.aliases, now, now⟩,
          ?_, hmem⟩
        rw [dictGet_insert, if_pos rfl]
      · rw [if_neg hmem] at h
        obtain ⟨ct, hct, hk⟩ := hp k i h
        refine ⟨ct, ?_, hk⟩
        rw [dictGet_insert, if_neg (hnotold i ct hct)]
        exact hct
    · intro k i h
      rw [dictGet_foldl_insert] at h
      by_cases hmem : k ∈ data.emails.map lowerStr
      · rw [if_pos hmem] at h
        have hi := Option.some.inj h
        subst hi
        refine ⟨⟨c.nextId, data.name, data.phones, data.emails, data.aliases, now, now⟩,
          ?_, hmem⟩
        rw [dictGet_insert, if_pos rfl]
      · rw [if_neg hmem] at h
        obtain ⟨ct, hct, hk⟩ := he k i h
        refine ⟨ct, ?_, hk⟩
        rw [dictGet_insert, if_neg (hnotold i ct hct)]
        exact hct
  | some pair =>
    obtain ⟨existingId, old⟩ := pair
    have hg : dictGet c.contacts existingId = some old :=
      existingContact_get c data existingId old hex
    obtain ⟨holdid, holdlt⟩ := hc existingId old hg
    rw [upsert_eq_merge c data now existingId old hex]
    have hmid : (mergeContact old data now).id = existingId := by
      simp only [mergeContact]; exact holdid
    simp only [CacheInv, indexContact, unindexContact]
    refine ⟨?_, ?_, ?_⟩
    · intro i ct h
      rw [dictGet_insert] at h
      by_cases hi : i = existingId
      · subst hi
        rw [if_pos rfl] at h
        have hct := Option.some.inj h
        subst hct
        exact ⟨hmid, holdlt⟩
      · rw [if_neg hi] at h
        exact hc i ct h
    · intro k i h
      rw [dictGet_foldl_insert] at h
      by_cases hmem : k ∈ (mergeContact old data now).phones.map normalizePhone
      · rw [if_pos hmem] at h
        have hi := Option.some.inj h
        rw [← hi, hmid]
        refine ⟨mergeContact old data now, ?_, hmem⟩
        rw [dictGet_insert, if_pos rfl]
      · rw [if_neg hmem] at h
        rw [dictGet_foldl_pop] at h
        by_cases hold : k ∈ old.phones.map normalizePhone
        · rw [if_pos hold] at h
          exact absurd h (by simp)
        · rw [if_neg hold] at h
          obtain ⟨ct, hct, hk⟩ := hp k i h
          have hine : ¬ (i = existingId) := by
            intro hie
            subst hie
            have : ct = old := Option.some.inj (hct.symm.trans hg)
            subst this
            exact hold hk
          refine ⟨ct, ?_, hk⟩
          rw [dictGet_insert, if_neg hine]
          exact hct
    · intro k i h
      rw [dictGet_foldl_insert] at h
      by_cases hmem : k ∈ (mergeContact old data now).emails.map lowerStr
      · rw [if_pos hmem] at h
        have hi := Option.some.inj h
        rw [← hi, hmid]
        refine ⟨mergeContact old data now, ?_, hmem⟩
        rw [dictGet_insert, if_pos rfl]
      · rw [if_neg hmem] at h
        rw [dictGet_foldl_pop] at h
        by_cases hold : k ∈ old.emails.map lowerStr
        · rw [if_pos hold] at h
          exact absurd h (by simp)
        · rw [if_neg hold] at h
          obtain ⟨ct, hct, hk⟩ := he k i h
          have hine : ¬ (i = existingId) := by
            intro hie
            subst hie
            have : ct = old := Option.some.inj (hct.symm.trans hg)
            subst this
            exact hold hk
          refine ⟨ct, ?_, hk⟩
          rw [dictGet_insert, if_neg hine]
          exact hct

theorem cacheInv_delete (c : ContactCache) (contactId : Nat)
    (hinv : CacheInv c) : CacheInv (c.delete contactId).1 := by
  obtain ⟨hc, hp, he⟩ := hinv
  unfold ContactCache.delete
  cases hg : dictGet c.contacts contactId with
  | none => exact ⟨hc, hp, he⟩
  | some ct0 =>
    refine ⟨?_, ?_, ?_⟩
    · intro i ct h
      simp only [unindexContact] at h
      rw [dictGet_pop] at h
      by_cases hi : i = contactId
      · simp [hi] at h
      · simp only [hi, if_false] at h
        exact hc i ct h
    · intro k i h
      simp only [unindexContact] at h
      rw [dictGet_foldl_pop] at h
      by_cases hmem : k ∈ ct0.phones.map normalizePhone
      · simp [hmem] at h
      · simp only [hmem, if_false] at h
        obtain ⟨ct, hct, hk⟩ := hp k i h
        have hine : ¬ (i = contactId) := by
          intro hie
          subst hie
          have : ct = ct0 := Option.some.inj (hct.symm.trans hg)
          subst this
          exact hmem hk
        refine ⟨ct, ?_, hk⟩
        simp only [unindexContact]
        rw [dictGet_pop]
        simp [hine, hct]
    · intro k i h
      simp only [unindexContact] at h
      rw [dictGet_foldl_pop] at h
      by_cases hmem : k ∈ ct0.emails.map lowerStr
      · simp [hmem] at h
      · simp only [hmem, if_false] at h
        obtain ⟨ct, hct, hk⟩ := he k i h
        have hine : ¬ (i = contactId) := by
          intro hie
          subst hie
          have : ct = ct0 := Option.some.inj (hct.symm.trans hg)
          subst this
          exact hmem hk
        refine ⟨ct, ?_, hk⟩
        simp only [unindexContact]
        rw [dictGet_pop]
        simp [hine, hct]

theorem cacheInv_clear (c : ContactCache) (_hinv : CacheInv c) : CacheInv c.clear := by
  refine ⟨?_, ?_, ?_⟩ <;> intro k i h <;> simp [ContactCache.clear, dictGet] at h

theorem reachable_cacheInv {c : ContactCache} (h : Reachable c) : CacheInv c := by
  induction h with
  | empty => exact cacheInv_empty
  | upsert data now _ ih => exact cacheInv_upsert _ data now ih
  | delete contactId _ ih => exact cacheInv_delete _ contactId ih
  | clear _ ih => exact cacheInv_clear _ ih

/-- The two-sided index-consistency property claimed for the cache: every
indexed phone/email points to a stored contact id, and every stored
contact's normalized phones / lowercased emails are indexed and map back to
that contact's id. -/
def indexConsistent (c : ContactCache) : Bool :=
  c.phoneIndex.all (fun p => (dictGet c.contacts p.2).isSome) &&
  c.emailIndex.all (fun p => (dictGet c.contacts p.2).isSome) &&
  c.contacts.all (fun e =>
    e.2.phones.all (fun ph => decide (dictGet c.phoneIndex (normalizePhone ph) = some e.2.id)) &&
    e.2.emails.all (fun em => decide (dictGet c.emailIndex (lowerStr em) = some e.2.id)))

/-- Upserts building the counterexample state for claim C1. -/
def upsertA : ContactUpsert := ⟨some (strOf "Alice"), [strOf "5550001"], [], []⟩

def upsertB : ContactUpsert := ⟨some (strOf "Bob"), [], [strOf "b@x.com"], []⟩

def upsertC : ContactUpsert := ⟨some (strOf "Carol"), [strOf "5550001"], [strOf "b@x.com"], []⟩

/-- After upserting Alice (phone only), Bob (email only) and Carol (Alice's
phone together with Bob's email), Carol merges into Alice's record and the
email index entry for Bob's email is re-pointed at Alice's id while Bob
still lists it. -/
def cexCache : ContactCache :=
  (((emptyCache.upsert upsertA 0).1.upsert upsertB 1).1.upsert upsertC 2).1

/-- C1 counterexample: a cache state reachable by three upserts in which the
claimed invariant fails — the email index maps Bob's email to the merged
contact (id 0), yet Bob (id 1) is stored with that email, so the email does
not map to its owner's id. -/
theorem contactCache_two_sided_index_invariant_fails :
    Reachable cexCache ∧ indexConsistent cexCache = false :=
  ⟨Reachable.upsert upsertC 2 (Reachable.upsert upsertB 1
    (Reachable.upsert upsertA 0 Reachable.empty)), by decide⟩

/-- C1 (amended): in every reachable cache state, every phone key in
`_phone_index` and every email key in `_email_index` maps to a contact id
present in `_contacts` (the reverse inclusion of the original claim does not
hold, see the counterexample). -/
theorem contactCache_reachable_index_forward_consistent (c : ContactCache)
    (h : Reachable c) :
    (∀ k i, dictGet c.phoneIndex k = some i → (dictGet c.contacts i).isSome = true) ∧
    (∀ k i, dictGet c.emailIndex k = some i → (dictGet c.contacts i).isSome = true) := by
  obtain ⟨_, hp, he⟩ := reachable_cacheInv h
  constructor
  · intro k i hk
    obtain ⟨ct, hct, _⟩ := hp k i hk
    simp [hct]
  · intro k i hk
    obtain ⟨ct, hct, _⟩ := he k i hk
    simp [hct]

/-- Witness for the amended C1 theorem at a concrete reachable state. -/
theorem contactCache_reachable_index_forward_consistent_witness :
    (dictGet (emptyCache.upsert upsertA 0).1.contacts 0).isSome = true :=
  (contactCache_reachable_index_forward_consistent (emptyCache.upsert upsertA 0).1
    (Reachable.upsert upsertA 0 Reachable.empty)).1
    (strOf "5550001") 0 (by decide)

/-! ## Resolve behaviour (claims C2 and C10) -/

theorem nameResolve_single (c : ContactCache) (nl : Str) (ct : Contact)
    (h : (dictValues c.contacts).filter (nameExact nl) = [ct]) :
    nameResolve c nl = ⟨ResolveStatus.ok, some ct, []⟩ := by
  unfold nameResolve
  rw [h]

theorem nameResolve_multi (c : ContactCache) (nl : Str)
    (h : 2 ≤ ((dictValues c.contacts).filter (nameExact nl)).length) :
    nameResolve c nl =
      ⟨ResolveStatus.ambiguous, none, (dictValues c.contacts).filter (nameExact nl)⟩ := by
  unfold nameResolve
  cases hm : (dictValues c.contacts).filter (nameExact nl) with
  | nil => rw [hm] at h; simp at h
  | cons a t =>
    cases t with
    | nil => rw [hm] at h; simp at h
    | cons b t2 => rfl

theorem nameResolve_noExact_single (c : ContactCache) (nl : Str) (ct : Contact)
    (he : (dictValues c.contacts).filter (nameExact nl) = [])
    (h : (dictValues c.contacts).filter (nameSubstring nl) = [ct]) :
    nameResolve c nl = ⟨ResolveStatus.ok, some ct, []⟩ := by
  unfold nameResolve
  rw [he, h]

theorem nameResolve_noExact_multi (c : ContactCache) (nl : Str)
    (he : (dictValues c.contacts).filter (nameExact nl) = [])
    (h : 2 ≤ ((dictValues c.contacts).filter (nameSubstring nl)).length) :
    nameResolve c nl =
      ⟨ResolveStatus.ambiguous, none, (dictValues c.contacts).filter (nameSubstring nl)⟩ := by
  unfold nameResolve
  rw [he]
  cases hm : (dictValues c.contacts).filter (nameSubstring nl) with
  | nil => rw [hm] at h; simp at h
  | cons a t =>
    cases t with
    | nil => rw [hm] at h; simp at h
    | cons b t2 => rfl

theorem nameResolve_noExact_none (c : ContactCache) (nl : Str)
    (he : (dictValues c.contacts).filter (nameExact nl) = [])
    (h : (dictValues c.contacts).filter (nameSubstring nl) = []) :
    nameResolve c nl = ⟨ResolveStatus.notFound, none, []⟩ := by
  unfold nameResolve
  rw [he, h]

/-- Two contacts whose names contain "John" as a substring without either
being an exact (case-insensitive) match for "John". -/
def johnCache : ContactCache :=
  ⟨[(0, ⟨0, some (strOf "Johnny Appleseed"), [], [], [], 0, 0⟩),
    (1, ⟨1, some (strOf "Big John Stud"), [], [], [], 0, 0⟩)], [], [], 2⟩

/-- A single contact named exactly "John Doe". -/
def johnDoeCache : ContactCache :=
  ⟨[(0, ⟨0, some (strOf "John Doe"), [], [], [], 0, 0⟩)], [], [], 1⟩

/-- C2: resolve precedence.  Phone index hit wins; otherwise email index hit;
otherwise exact case-insensitive name match (one hit: ok; several: ambiguous
with exactly the exact matches, no fall-through); only with zero exact
matches is the case-insensitive substring match over names and aliases used
(one hit: ok; several: ambiguous; none: not_found).  The final two conjuncts
are the claim's concrete instances: two substring-"John" contacts give
ambiguous with exactly 2 candidates, and "john doe" finds the contact named
"John Doe". -/
theorem resolve_precedence (c : ContactCache) (phone email name : Option Str) :
    (∀ ct, phoneLookup c phone = some ct →
      c.resolve phone email name = ⟨ResolveStatus.ok, some ct, []⟩) ∧
    (phoneLookup c phone = none → ∀ ct, emailLookup c email = some ct →
      c.resolve phone email name = ⟨ResolveStatus.ok, some ct, []⟩) ∧
    (phoneLookup c phone = none → emailLookup c email = none →
      ∀ n, pyTruthy name = some n →
        ((∀ ct, (dictValues c.contacts).filter (nameExact (lowerStr n)) = [ct] →
            c.resolve phone email name = ⟨ResolveStatus.ok, some ct, []⟩) ∧
         (2 ≤ ((dictValues c.contacts).filter (nameExact (lowerStr n))).length →
            c.resolve phone email name = ⟨ResolveStatus.ambiguous, none,
              (dictValues c.contacts).filter (nameExact (lowerStr n))⟩) ∧
         ((dictValues c.contacts).filter (nameExact (lowerStr n)) = [] →
           ((∀ ct, (dictValues c.contacts).filter (nameSubstring (lowerStr n)) = [ct] →
               c.resolve phone email name = ⟨ResolveStatus.ok, some ct, []⟩) ∧
            (2 ≤ ((dictValues c.contacts).filter (nameSubstring (lowerStr n))).length →
               c.resolve phone email name = ⟨ResolveStatus.ambiguous, none,
                 (dictValues c.contacts).filter (nameSubstring (lowerStr n))⟩) ∧
            ((dictValues c.contacts).filter (nameSubstring (lowerStr n)) = [] →
               c.resolve phone email name = ⟨ResolveStatus.notFound, none, []⟩))))) ∧
    ((johnCache.resolve none none (some (strOf "John"))).status = ResolveStatus.ambiguous ∧
     (johnCache.resolve none none (some (strOf "John"))).candidates.length = 2) ∧
    (johnDoeCache.resolve none none (some (strOf "john doe"))).status = ResolveStatus.ok := by
  refine ⟨?_, ?_, ?_, by decide, by decide⟩
  · intro ct h
    simp [ContactCache.resolve, h]
  · intro hp ct h
    simp [ContactCache.resolve, hp, h]
  · intro hp hem n hn
    have hres : c.resolve phone email name = nameResolve c (lowerStr n) := by
      simp [ContactCache.resolve, hp, hem, hn]
    rw [hres]
    exact ⟨fun ct h => nameResolve_single c _ ct h,
      fun h => nameResolve_multi c _ h,
      fun he => ⟨fun ct h => nameResolve_noExact_single c _ ct he h,
        fun h => nameResolve_noExact_multi c _ he h,
        fun h => nameResolve_noExact_none c _ he h⟩⟩

/-- Witness for C2 at concrete inputs: the "John" cache goes through the
substring phase (no phone, no email, no exact match, two substring
matches). -/
theorem resolve_precedence_witness :
    johnCache.resolve none none (some (strOf "John")) =
      ⟨ResolveStatus.ambiguous, none,
        [⟨0, some (strOf "Johnny Appleseed"), [], [], [], 0, 0⟩,
         ⟨1, some (strOf "Big John Stud"), [], [], [], 0, 0⟩]⟩ := by
  have h := ((resolve_precedence johnCache none none
    (some (strOf "John"))).2.2.1 rfl rfl (strOf "John") (by decide)).2.2 (by decide)
  have h2 := h.2.1 (by decide)
  rw [h2]
  decide

/-- C10: resolving with no identifier at all (all three arguments `None`, or
all three empty strings — both falsy in Python) returns `not_found` with no
contact and no candidates.  In this embedding `resolve` is a total pure
function of the cache state, so it can neither raise nor mutate
`_contacts`/`_phone_index`/`_email_index`. -/
theorem resolve_no_identifier_not_found (c : ContactCache) :
    c.resolve none none none = ⟨ResolveStatus.notFound, none, []⟩ ∧
    c.resolve (some []) (some []) (some []) = ⟨ResolveStatus.notFound, none, []⟩ := by
  constructor <;> simp [ContactCache.resolve, phoneLookup, emailLookup, pyTruthy]

/-! ## Upsert merge semantics (claim C3) -/

theorem findSome?_mem {α β : Type} (xs : List α) (f : α → Option β) (b : β)
    (h : xs.findSome? f = some b) : ∃ a ∈ xs, f a = some b := by
  induction xs with
  | nil => simp [List.findSome?] at h
  | cons x xs ih =>
    rw [List.findSome?] at h
    cases hf : f x with
    | some b0 =>
      rw [hf] at h
      exact ⟨x, List.mem_cons_self x xs, hf.trans h⟩
    | none =>
      rw [hf] at h
      obtain ⟨a, ha, hfa⟩ := ih h
      exact ⟨a, List.mem_cons_of_mem x ha, hfa⟩

/-- In a reachable cache, an id found by `findExisting` is stored in
`_contacts`. -/
theorem findExisting_stored (c : ContactCache) (hc : Reachable c)
    (data : ContactUpsert) (eid : Nat) (h : findExisting c data = some eid) :
    ∃ old, dictGet c.contacts eid = some old ∧ old.id = eid := by
  obtain ⟨hids, hp, he⟩ := reachable_cacheInv hc
  unfold findExisting at h
  cases hf : data.phones.findSome? (fun ph => dictGet c.phoneIndex (normalizePhone ph)) with
  | some cid =>
    rw [hf] at h
    have hcid : cid = eid := Option.some.inj h
    subst hcid
    obtain ⟨ph, _, hk⟩ := findSome?_mem _ _ _ hf
    obtain ⟨old, hold, _⟩ := hp _ _ hk
    exact ⟨old, hold, (hids _ _ hold).1⟩
  | none =>
    rw [hf] at h
    obtain ⟨em, _, hk⟩ := findSome?_mem _ _ _ h
    obtain ⟨old, hold, _⟩ := he _ _ hk
    exact ⟨old, hold, (hids _ _ hold).1⟩

/-- C3: upsert merge semantics on a reachable cache.  When a supplied phone
(or, failing that, a supplied email) matches the index, the returned contact
keeps the matched contact's id; its name is the new value exactly when the
new value is non-empty, and the old name otherwise; its phones, emails and
aliases are the set unions of the old and new lists; and its updated-at
timestamp is set to the time of the call.  When nothing matches, the
returned contact carries a fresh id not present in `_contacts` before the
call. -/
theorem upsert_merge_semantics (c : ContactCache) (hc : Reachable c)
    (data : ContactUpsert) (now : Nat) :
    (∀ eid, findExisting c data = some eid →
      ∃ old, dictGet c.contacts eid = some old ∧ old.id = eid ∧
        (c.upsert data now).2.id = eid ∧
        (∀ s, data.name = some s → s ≠ [] → (c.upsert data now).2.name = some s) ∧
        ((data.name = none ∨ data.name = some []) → (c.upsert data now).2.name = old.name) ∧
        (∀ x, x ∈ (c.upsert data now).2.phones ↔ x ∈ old.phones ∨ x ∈ data.phones) ∧
        (∀ x, x ∈ (c.upsert data now).2.emails ↔ x ∈ old.emails ∨ x ∈ data.emails) ∧
        (∀ x, x ∈ (c.upsert data now).2.aliases ↔ x ∈ old.aliases ∨ x ∈ data.aliases) ∧
        (c.upsert data now).2.updatedAt = now) ∧
    (findExisting c data = none →
      (c.upsert data now).2.id = c.nextId ∧
      dictGet c.contacts (c.upsert data now).2.id = none ∧
      (c.upsert data now).2.name = data.name ∧
      (c.upsert data now).2.phones = data.phones ∧
      (c.upsert data now).2.emails = data.emails ∧
      (c.upsert data now).2.updatedAt = now) := by
  constructor
  · intro eid hfind
    obtain ⟨old, hold, holdid⟩ := findExisting_stored c hc data eid hfind
    have hex : existingContact c data = some (eid, old) := by
      simp [existingContact, hfind, hold]
    refine ⟨old, hold, holdid, ?_⟩
    rw [upsert_eq_merge c data now eid old hex]
    refine ⟨?_, ?_, ?_, ?_, ?_, ?_, ?_⟩
    · simp only [mergeContact]
      exact holdid
    · intro s hs hne
      simp [mergeContact, pyOrName, hs, hne]
    · intro hs
      cases hs with
      | inl hnone => simp [mergeContact, pyOrName, hnone]
      | inr hempty => simp [mergeContact, pyOrName, hempty]
    · intro x
      simp [mergeContact, List.mem_dedup]
    · intro x
      simp [mergeContact, List.mem_dedup]
    · intro x
      simp [mergeContact, List.mem_dedup]
    · simp [mergeContact]
  · intro hfind
    have hex : existingContact c data = none := by
      simp [existingContact, hfind]
    rw [upsert_eq_fresh c data now hex]
    obtain ⟨hids, _, _⟩ := reachable_cacheInv hc
    have hfresh : dictGet c.contacts c.nextId = none := by
      cases hg : dictGet c.contacts c.nextId with
      | none => rfl
      | some ct =>
        have := (hids _ _ hg).2
        omega
    exact ⟨rfl, by simpa [freshContact] using hfresh, rfl, rfl, rfl, rfl⟩

/-- Witness for C3: upserting Carol's data (sharing Alice's phone) into the
one-contact cache obtained by upserting Alice merges into contact 0 and
stamps the new time; upserting Alice into the empty cache creates id 0. -/
theorem upsert_merge_semantics_witness :
    ((emptyCache.upsert upsertA 0).1.upsert upsertC 5).2.id = 0 ∧
    ((emptyCache.upsert upsertA 0).1.upsert upsertC 5).2.updatedAt = 5 ∧
    ((emptyCache.upsert upsertA 0).1.upsert upsertC 5).2.name = some (strOf "Carol") ∧
    (emptyCache.upsert upsertA 0).2.id = 0 := by
  have h := upsert_merge_semantics (emptyCache.upsert upsertA 0).1
    (Reachable.upsert upsertA 0 Reachable.empty) upsertC 5
  obtain ⟨old, _, _, hid, hname, _, _, _, _, hupd⟩ := h.1 0 (by decide)
  have h2 := upsert_merge_semantics emptyCache Reachable.empty upsertA 0
  obtain ⟨hid2, _, _, _, _, _⟩ := h2.2 (by decide)
  exact ⟨hid, hupd, hname (strOf "Carol") rfl (by decide), hid2⟩

/-! ## `src/mag/services/pii.py` — regex PII filter

Each pattern of `_PII_PATTERNS` is hand-compiled into a matcher
`Str → Nat → Option Nat` returning the end position of the match found at a
given start position, following the regex engine's backtracking preference
order.  Character classes are ASCII (`\d` = `Char.isDigit`, `\w` =
alphanumeric or underscore, `\s` = ASCII whitespace, `\S` its complement);
`re.IGNORECASE` keywords are compared through `lowerStr`. -/

/-- `\w` (ASCII). -/
def isWordChar (c : Char) : Bool := c.isAlphanum || c = '_'

def isWordAt (cs : Str) (i : Nat) : Bool :=
  match cs.get? i with
  | some c => isWordChar c
  | none => false

/-- `\b`: a word boundary between positions `i-1` and `i` (out-of-range
counts as non-word). -/
def wordBoundary (cs : Str) (i : Nat) : Bool :=
  (if i = 0 then false else isWordAt cs (i - 1)) != isWordAt cs i

def isDigitAt (cs : Str) (i : Nat) : Bool :=
  match cs.get? i with
  | some c => c.isDigit
  | none => false

/-- The character at position `i` is exactly `c`. -/
def chAt (cs : Str) (i : Nat) (c : Char) : Bool := cs.get? i == some c

/-- Case-insensitive literal keyword at a position (`kw` given lowercase). -/
def keywordAt (cs : Str) (pos : Nat) (kw : Str) : Bool :=
  lowerStr ((cs.drop pos).take kw.length) = kw

def spaceRunFrom (cs : Str) (i : Nat) : Nat :=
  ((cs.drop i).takeWhile isPySpace).length

def nonSpaceRunFrom (cs : Str) (i : Nat) : Nat :=
  ((cs.drop i).takeWhile (fun c => !isPySpace c)).length

def digitRunFrom (cs : Str) (i : Nat) : Nat :=
  ((cs.drop i).takeWhile Char.isDigit).length

/-- `[:\s]` run (the `[:\s]+` separator of the password / api-key rules). -/
def sepRunFrom (cs : Str) (i : Nat) : Nat :=
  ((cs.drop i).takeWhile (fun c => c = ':' || isPySpace c)).length

/-- `[A-Za-z0-9_\-]` (api-key value class). -/
def isKeyChar (c : Char) : Bool := c.isAlphanum || c = '_' || c = '-'

def keyRunFrom (cs : Str) (i : Nat) : Nat :=
  ((cs.drop i).takeWhile isKeyChar).length

/-- `\d{minK,maxK}\b` with the greedy engine: longest `k` in
`[minK, maxK]` such that `k` digits start here and a word boundary
follows. -/
def digitsRangeTail (cs : Str) (pos minK maxK : Nat) : Option Nat :=
  (List.range (maxK - minK + 1)).findSome? (fun d =>
    let k := maxK - d
    if (List.range k).all (fun j => isDigitAt cs (pos + j)) && wordBoundary cs (pos + k)
    then some (pos + k) else none)

/-- The six matchers are written in suffix-passing style: a matcher takes
`prevw` — whether the character immediately preceding the current suffix is
a word character (`false` at the very start of the string) — and the suffix
itself, and returns the length of the match anchored at the suffix start
that the backtracking engine finds (`none` when the pattern cannot match
here).  The leading `\b` is `prevw != isWordAt s 0`; a `\b` at offset
`j ≥ 1` is `wordBoundary s j`. -/
def ssnShaped (prevw : Bool) (s : Str) : Bool :=
  (prevw != isWordAt s 0) &&
  isDigitAt s 0 && isDigitAt s 1 && isDigitAt s 2 &&
  chAt s 3 '-' &&
  isDigitAt s 4 && isDigitAt s 5 &&
  chAt s 6 '-' &&
  isDigitAt s 7 && isDigitAt s 8 && isDigitAt s 9 && isDigitAt s 10 &&
  wordBoundary s 11

/-- Matcher for the `ssn` pattern `\b\d{3}-\d{2}-\d{4}\b` (matches have
length 11). -/
def ssnF (prevw : Bool) (s : Str) : Option Nat :=
  if ssnShaped prevw s then some 11 else none

/-- The SSN shape at an absolute position of a string (used to state claim
C4). -/
def ssnShapedAt (cs : Str) (i : Nat) : Bool :=
  ssnShaped (decide (0 < i) && isWordAt cs (i - 1)) (cs.drop i)

/-- One group `\d{4}[- ]?` of the credit-card pattern, in CPS so the greedy
`[- ]?` can backtrack through the continuation (positions are relative to
the suffix start). -/
def ccGroup (s : Str) (pos : Nat) (cont : Nat → Option Nat) : Option Nat :=
  if isDigitAt s pos && isDigitAt s (pos + 1) && isDigitAt s (pos + 2) &&
     isDigitAt s (pos + 3) then
    if chAt s (pos + 4) '-' || chAt s (pos + 4) ' ' then
      (cont (pos + 5)).orElse (fun _ => cont (pos + 4))
    else cont (pos + 4)
  else none

/-- The greedy `{3,4}` repetition of the credit-card group: `remaining` is
the number of groups that may still be matched (starting from 4); stopping
is allowed once at least 3 groups are done (`remaining ≤ 1`), and
extending is preferred. -/
def ccReps (s : Str) (cont : Nat → Option Nat) : Nat → Nat → Option Nat
  | 0, pos => cont pos
  | remaining + 1, pos =>
    match ccGroup s pos (fun p => ccReps s cont remaining p) with
    | some e => some e
    | none => if remaining + 1 ≤ 1 then cont pos else none

/-- Matcher for the `credit_card` pattern `\b(?:\d{4}[- ]?){3,4}\d{1,4}\b`. -/
def ccF (prevw : Bool) (s : Str) : Option Nat :=
  if prevw != isWordAt s 0 then
    ccReps s (fun pos => digitsRangeTail s pos 1 4) 4 0
  else none

/-- The shared shape of the `bank_account` and `routing_number` patterns:
`\b(?:kw1|kw2)\.?\s*#?\s*\d{minK,maxK}\b` (IGNORECASE).  `\.?`, `\s*` and
`#?` are deterministic here: a character given back by backtracking can
never be matched by the following pieces of the pattern. -/
def labeledNumberF (kws : List Str) (minK maxK : Nat) (prevw : Bool) (s : Str) :
    Option Nat :=
  if prevw != isWordAt s 0 then
    match kws.findSome? (fun kw =>
        if keywordAt s 0 kw then some kw.length else none) with
    | none => none
    | some p1 =>
      let p2 := if chAt s p1 '.' then p1 + 1 else p1
      let p3 := p2 + spaceRunFrom s p2
      let p4 := if chAt s p3 '#' then p3 + 1 else p3
      let p5 := p4 + spaceRunFrom s p4
      digitsRangeTail s p5 minK maxK
  else none

/-- Matcher for the `bank_account` pattern. -/
def accountF (prevw : Bool) (s : Str) : Option Nat :=
  labeledNumberF [strOf "account", strOf "acct"] 8 17 prevw s

/-- Matcher for the `routing_number` pattern. -/
def routingF (prevw : Bool) (s : Str) : Option Nat :=
  labeledNumberF [strOf "routing", strOf "aba"] 9 9 prevw s

/-- Matcher for the `password` pattern
`\b(?:password|passwd|pwd|pin|passcode)[:\s]+\S+` (IGNORECASE).  The
greedy `[:\s]+` backtracks (descending run length `k`) until the required
`\S+` can match at least one character; no two keywords can match at the
same position, so the alternation is deterministic. -/
def passwordF (prevw : Bool) (s : Str) : Option Nat :=
  if prevw != isWordAt s 0 then
    match [strOf "password", strOf "passwd", strOf "pwd", strOf "pin",
        strOf "passcode"].findSome? (fun kw =>
        if keywordAt s 0 kw then some kw.length else none) with
    | none => none
    | some p1 =>
      let m := sepRunFrom s p1
      (List.range m).findSome? (fun d =>
        let k := m - d
        let r := nonSpaceRunFrom s (p1 + k)
        if 1 ≤ r then some (p1 + k + r) else none)
  else none

/-- The `api[_-]?key` alternative of the api-key pattern. -/
def apiKeyKeyword (s : Str) : Option Nat :=
  if keywordAt s 0 (strOf "api") then
    let p1 := if chAt s 3 '_' || chAt s 3 '-' then 4 else 3
    if keywordAt s p1 (strOf "key") then some (p1 + 3) else none
  else none

/-- Matcher for the `api_key` pattern
`\b(?:api[_-]?key|token|secret|bearer)[:\s]+[A-Za-z0-9_\-]{20,}\b`
(IGNORECASE).  `[:\s]+` is deterministic here (a given-back `:`/space is
never in the value class); the greedy `{20,}` backtracks from the full
class run down to 20 looking for a trailing word boundary. -/
def apiKeyF (prevw : Bool) (s : Str) : Option Nat :=
  if prevw != isWordAt s 0 then
    match (match apiKeyKeyword s with
           | some p => some p
           | none =>
             [strOf "token", strOf "secret", strOf "bearer"].findSome? (fun kw =>
               if keywordAt s 0 kw then some kw.length else none)) with
    | none => none
    | some p1 =>
      let m := sepRunFrom s p1
      if m = 0 then none
      else
        let p2 := p1 + m
        let r := keyRunFrom s p2
        if r < 20 then none
        else
          (List.range (r - 20 + 1)).findSome? (fun d =>
            if wordBoundary s (p2 + (r - d)) then some (p2 + (r - d)) else none)
  else none

/-- `Pattern.sub(repl, text)` in suffix-passing style: walk the original
string left to right; on a match of length `len`, emit the replacement and
resume after the match, remembering the wordness of the last consumed
original character (Python's `re.sub` matches against the original string,
so `\b` right after a replaced span still sees the original characters).
None of the six matchers can produce an empty match, so the zero-width
special case of `re.sub` never arises and the fuel is enough for any walk
consuming at least one character per step. -/
def subF (F : Bool → Str → Option Nat) (repl : Str) : Nat → Bool → Str → Str
  | 0, _, s => s
  | fuel + 1, prevw, s =>
    match s with
    | [] => []
    | c :: rest =>
      match F prevw (c :: rest) with
      | some len =>
        repl ++ subF F repl fuel (isWordAt (c :: rest) (len - 1)) ((c :: rest).drop len)
      | none => c :: subF F repl fuel (isWordChar c) rest

def subAllF (F : Bool → Str → Option Nat) (repl : Str) (s : Str) : Str :=
  subF F repl (s.length + 1) false s

/-- `_PII_PATTERNS`: the six rules in source order. -/
def piiPatterns : List ((Bool → Str → Option Nat) × Str) :=
  [(ssnF, strOf "[REDACTED-SSN]"),
   (ccF, strOf "[REDACTED-CC]"),
   (accountF, strOf "[REDACTED-ACCOUNT]"),
   (routingF, strOf "[REDACTED-ROUTING]"),
   (passwordF, strOf "[REDACTED-PASSWORD]"),
   (apiKeyF, strOf "[REDACTED-KEY]")]

/-- `_filter_regex`: fold the pattern list over the text. -/
def filterRegex (t : Str) : Str :=
  piiPatterns.foldl (fun r p => subAllF p.1 p.2 r) t

/-- `filter_pii`: `None` passes through; filtering only happens in mode
`"regex"`; unknown or empty modes return the text unchanged. -/
def filterPii (piiFilterMode : Str) (t : Option Str) : Option Str :=
  match t with
  | none => none
  | some s =>
    if piiFilterMode = [] then some s
    else if piiFilterMode = strOf "regex" then some (filterRegex s)
    else some s

/-! ## PII filter properties (claims C4 and C5) -/

/-- A matcher applied at an absolute position of a string. -/
def matchAtIx (F : Bool → Str → Option Nat) (cs : Str) (i : Nat) : Option Nat :=
  F (decide (0 < i) && isWordAt cs (i - 1)) (cs.drop i)

theorem isWordAt_zero_lt (cs : Str) (i : Nat) (hi : i < cs.length) :
    isWordAt cs i = isWordChar cs[i] := by
  unfold isWordAt
  rw [List.get?_eq_getElem?, List.getElem?_eq_getElem hi]

theorem matchAtIx_succ_prev (cs : Str) (i : Nat) (hi : i < cs.length) (F : Bool → Str → Option Nat) :
    matchAtIx F cs (i + 1) = F (isWordChar cs[i]) (cs.drop (i + 1)) := by
  unfold matchAtIx
  rw [Nat.add_sub_cancel]
  rw [isWordAt_zero_lt cs i hi]
  simp

theorem subF_id_of_no_match (F : Bool → Str → Option Nat) (repl cs : Str)
    (h : ∀ i, matchAtIx F cs i = none) :
    ∀ fuel i, cs.length ≤ fuel + i →
      subF F repl fuel (decide (0 < i) && isWordAt cs (i - 1)) (cs.drop i) = cs.drop i := by
  intro fuel
  induction fuel with
  | zero => intro i _; rfl
  | succ fuel ih =>
    intro i hle
    by_cases hi : i < cs.length
    · rw [List.drop_eq_getElem_cons hi]
      simp only [subF]
      have hm := h i
      unfold matchAtIx at hm
      rw [List.drop_eq_getElem_cons hi] at hm
      rw [hm]
      have hstep := ih (i + 1) (by omega)
      have hprev : (decide (0 < i + 1) && isWordAt cs (i + 1 - 1)) = isWordChar cs[i] := by
        rw [Nat.add_sub_cancel, isWordAt_zero_lt cs i hi]
        simp
      rw [hprev] at hstep
      rw [hstep]
    · rw [List.drop_eq_nil_of_le (Nat.le_of_not_lt hi)]
      cases fuel with
      | zero => rfl
      | succ fuel2 => rfl

/-- A text matched nowhere by a pattern passes through its substitution
byte-identically. -/
theorem subAllF_id_of_no_match (F : Bool → Str → Option Nat) (repl cs : Str)
    (h : ∀ i, matchAtIx F cs i = none) : subAllF F repl cs = cs := by
  unfold subAllF
  have := subF_id_of_no_match F repl cs h (cs.length + 1) 0 (by omega)
  simpa using this

theorem subF_contains_repl (F : Bool → Str → Option Nat) (repl cs : Str)
    (j : Nat) (hj : j < cs.length) (hm : (matchAtIx F cs j).isSome) :
    ∀ fuel i, i ≤ j → cs.length ≤ fuel + i →
      ∃ pre post,
        subF F repl fuel (decide (0 < i) && isWordAt cs (i - 1)) (cs.drop i) =
          pre ++ repl ++ post := by
  intro fuel
  induction fuel with
  | zero => intro i hij hle; omega
  | succ fuel ih =>
    intro i hij hle
    have hi : i < cs.length := Nat.lt_of_le_of_lt hij hj
    rw [List.drop_eq_getElem_cons hi]
    simp only [subF]
    cases hma : F (decide (0 < i) && isWordAt cs (i - 1)) (cs[i] :: cs.drop (i + 1)) with
    | some len =>
      exact ⟨[], _, rfl⟩
    | none =>
      have hne : ¬ (i = j) := by
        intro hij2
        subst hij2
        unfold matchAtIx at hm
        rw [List.drop_eq_getElem_cons hi, hma] at hm
        simp at hm
      obtain ⟨pre, post, hrec⟩ := ih (i + 1) (by omega) (by omega)
      have hprev : (decide (0 < i + 1) && isWordAt cs (i + 1 - 1)) = isWordChar cs[i] := by
        rw [Nat.add_sub_cancel, isWordAt_zero_lt cs i hi]
        simp
      rw [hprev] at hrec
      exact ⟨cs[i] :: pre, post, by rw [hrec]; rfl⟩

/-- A pattern with a match somewhere leaves its replacement token in the
substitution output. -/
theorem subAllF_contains_repl (F : Bool → Str → Option Nat) (repl cs : Str)
    (j : Nat) (hj : j < cs.length) (hm : (matchAtIx F cs j).isSome) :
    ∃ pre post, subAllF F repl cs = pre ++ repl ++ post := by
  unfold subAllF
  have := subF_contains_repl F repl cs j hj hm (cs.length + 1) 0 (Nat.zero_le j) (by omega)
  simpa using this

theorem ssnShapedAt_lt_length (cs : Str) (i : Nat) (h : ssnShapedAt cs i = true) :
    i < cs.length := by
  by_contra hge
  have hnone : (cs.drop i) = [] := List.drop_eq_nil_of_le (Nat.le_of_not_lt hge)
  unfold ssnShapedAt ssnShaped isDigitAt at h
  rw [hnone] at h
  simp [List.get?] at h

/-- C4 (amended): the PII filter is the cumulative composition of the six
rules in the fixed source order (SSN, credit card, bank account, routing
number, password, API key), each later rule operating on the output of the
earlier ones; and whenever the input contains an SSN-shaped substring on
word boundaries, the output of the SSN rule — the first stage — contains
`[REDACTED-SSN]`.  (The original claim's guarantees about the *final*
output are refuted by the counterexample: a later rule may swallow the
token, and the digits may survive at a non-boundary occurrence.) -/
theorem pii_rule_order_and_ssn_stage_redaction (t : Str) (i : Nat)
    (h : ssnShapedAt t i = true) :
    filterRegex t =
      subAllF apiKeyF (strOf "[REDACTED-KEY]")
        (subAllF passwordF (strOf "[REDACTED-PASSWORD]")
          (subAllF routingF (strOf "[REDACTED-ROUTING]")
            (subAllF accountF (strOf "[REDACTED-ACCOUNT]")
              (subAllF ccF (strOf "[REDACTED-CC]")
                (subAllF ssnF (strOf "[REDACTED-SSN]") t))))) ∧
    ∃ pre post,
      subAllF ssnF (strOf "[REDACTED-SSN]") t =
        pre ++ strOf "[REDACTED-SSN]" ++ post := by
  constructor
  · simp only [filterRegex, piiPatterns, List.foldl]
  · have hm : (matchAtIx ssnF t i).isSome := by
      unfold matchAtIx ssnF
      unfold ssnShapedAt at h
      rw [if_pos h]
      rfl
    exact subAllF_contains_repl ssnF (strOf "[REDACTED-SSN]") t i
      (ssnShapedAt_lt_length t i h) hm

/-- Witness for the amended C4 at a concrete input. -/
theorem pii_rule_order_and_ssn_stage_redaction_witness :
    ∃ pre post,
      subAllF ssnF (strOf "[REDACTED-SSN]") (strOf "a 111-22-3333") =
        pre ++ strOf "[REDACTED-SSN]" ++ post :=
  (pii_rule_order_and_ssn_stage_redaction (strOf "a 111-22-3333") 2 (by decide)).2

set_option maxHeartbeats 4000000 in
/-- C4 counterexample: for `"pin: 111-22-3333"` (an SSN-shaped substring on
word boundaries at position 5) the password rule swallows the freshly
produced SSN token, so the final output contains no `[REDACTED-SSN]`; and
for `"111-22-3333 A111-22-3333"` the final output still contains the SSN
digits `111-22-3333` (at the non-boundary occurrence). -/
theorem pii_ssn_redaction_containment_fails :
    ssnShapedAt (strOf "pin: 111-22-3333") 5 = true ∧
    filterRegex (strOf "pin: 111-22-3333") = strOf "[REDACTED-PASSWORD]" ∧
    strContains (filterRegex (strOf "pin: 111-22-3333")) (strOf "[REDACTED-SSN]") = false ∧
    ssnShapedAt (strOf "111-22-3333 A111-22-3333") 0 = true ∧
    strContains (filterRegex (strOf "111-22-3333 A111-22-3333"))
      (strOf "111-22-3333") = true := by
  refine ⟨by decide, by decide, by decide, by decide, by decide⟩

/-! ## `src/mag/services/imsg.py` — CLI adapter (pure parts)

The subprocess plumbing of `_run_imsg` / `_run_imsg_raw` is I/O; what is
embedded is the pure classification applied to an exited process: given the
return code and the captured streams, the `ImsgError` raised on non-zero
exit, and `ImsgError.to_dict`. -/

/-- Python `str(n)` for naturals. -/
def natToStr (n : Nat) : Str := Nat.toDigits 10 n

/-- Python `str(i)` for ints. -/
def intToStr (i : Int) : Str :=
  if i < 0 then '-' :: natToStr i.natAbs else natToStr i.natAbs

/-- Python `a or b` on ints (`0` is falsy). -/
def pyIntOr (v d : Int) : Int := if v = 0 then d else v

/-- Python `a or b` on strings (`""` is falsy). -/
def pyOrStr (a b : Str) : Str := if a = [] then b else a

structure ImsgError where
  message : Str
  code : Int
  stderr : Str
  command : Option Str
deriving DecidableEq, Repr

/-- The error raised by the structured (NDJSON) runner `_run_imsg` on
non-zero exit: `stderr=stderr_str.strip()` — no stdout fallback. -/
def runImsgFailure (rc : Int) (stdoutStr stderrStr cmd : Str) : ImsgError :=
  { message := strOf "imsg failed with exit code " ++ intToStr rc
    code := pyIntOr rc (-1)
    stderr := pyStrip stderrStr
    command := some cmd }

/-- The error raised by the raw-text runner `_run_imsg_raw` on non-zero
exit: `stderr=stderr_str.strip() or stdout_str.strip()`. -/
def runImsgRawFailure (rc : Int) (stdoutStr stderrStr cmd : Str) : ImsgError :=
  { message := strOf "imsg failed with exit code " ++ intToStr rc
    code := pyIntOr rc (-1)
    stderr := pyOrStr (pyStrip stderrStr) (pyStrip stdoutStr)
    command := some cmd }

/-- The user-visible error shape built by `ImsgError.to_dict` (`stderr` and
`hint` keys are present only under the source's conditions). -/
structure ImsgErrorDict where
  error : Str
  code : Int
  stderr : Option Str
  hint : Option Str
deriving DecidableEq, Repr

def imsgErrorToDict (e : ImsgError) : ImsgErrorDict :=
  let stderrField := if e.stderr = [] then none else some (e.stderr.take 500)
  let sl := lowerStr e.stderr
  let hint :=
    if strContains sl (strOf "full disk access") || strContains sl (strOf "permission") then
      some (strOf "imsg requires Full Disk Access. Go to System Settings > Privacy & Security > Full Disk Access and enable your terminal.")
    else if strContains sl (strOf "automation") then
      some (strOf "imsg requires Automation permission to control Messages.app. Grant permission when prompted or check System Settings.")
    else none
  { error := e.message, code := e.code, stderr := stderrField, hint := hint }

/-- C6 (amended): on non-zero exit both runners raise an error carrying the
exit code; the raw runner's diagnostic text is the stripped stderr when
non-empty and otherwise the stripped stdout, while the structured (NDJSON)
runner's diagnostic is always the stripped stderr (no stdout fallback); the
`stderr` excerpt in the user-visible `to_dict` shape is present only when
non-empty and is truncated to at most 500 characters. -/
theorem imsg_toolfailed_error_content (rc : Int) (hrc : rc ≠ 0)
    (stdoutStr stderrStr cmd : Str) :
    (runImsgFailure rc stdoutStr stderrStr cmd).code = rc ∧
    (runImsgFailure rc stdoutStr stderrStr cmd).stderr = pyStrip stderrStr ∧
    (runImsgRawFailure rc stdoutStr stderrStr cmd).code = rc ∧
    (runImsgRawFailure rc stdoutStr stderrStr cmd).stderr =
      (if pyStrip stderrStr = [] then pyStrip stdoutStr else pyStrip stderrStr) ∧
    (∀ e : ImsgError, (imsgErrorToDict e).stderr =
      if e.stderr = [] then none else some (e.stderr.take 500)) ∧
    (∀ e : ImsgError, ∀ s, (imsgErrorToDict e).stderr = some s → s.length ≤ 500) := by
  refine ⟨?_, rfl, ?_, rfl, fun e => rfl, ?_⟩
  · simp [runImsgFailure, pyIntOr, hrc]
  · simp [runImsgRawFailure, pyIntOr, hrc]
  · intro e s hs
    simp only [imsgErrorToDict] at hs
    by_cases h : e.stderr = []
    · simp [h] at hs
    · simp only [h, if_false, Option.some.injEq] at hs
      rw [← hs]
      have := List.length_take 500 e.stderr
      omega

/-- Witness for C6 at a concrete non-zero exit. -/
theorem imsg_toolfailed_error_content_witness :
    (runImsgRawFailure 1 (strOf "boom") (strOf "  ") (strOf "imsg chats")).stderr =
      strOf "boom" := by
  have h := imsg_toolfailed_error_content 1 (by decide) (strOf "boom") (strOf "  ")
    (strOf "imsg chats")
  rw [h.2.2.2.1]
  decide

/-- C6 counterexample: with empty stderr and non-empty stdout, the
structured (NDJSON) runner's error carries an empty diagnostic — it does
not fall back to stdout as claimed (only the raw runner does). -/
theorem imsg_structured_failure_no_stdout_fallback :
    (runImsgFailure 1 (strOf "boom") [] (strOf "imsg chats")).stderr = [] ∧
    (runImsgRawFailure 1 (strOf "boom") [] (strOf "imsg chats")).stderr = strOf "boom" := by
  constructor <;> decide

/-! ## Fast text search (`search_messages_fast`, claim C7)

`_TEXT_LINE_PATTERN` is
`^(\d{4}-\d{2}-\d{2}T[\d:.]+Z)\s+\[(sent|recv)\]\s+([^:]+):\s*(.*)$`; the
hand-compiled parser below follows the greedy engine ( `[\d:.]+Z`,
`\s+\[`, `([^:]+):` are deterministic because the give-back character can
never match what follows; the `\s+` before the sender group backtracks,
because `[^:]` also matches whitespace). -/

/-- `_STRIP_CHARS`: Apple object-replacement chars, null bytes, zero-width
characters and the BOM. -/
def stripChars : Str :=
  ['\x00', '￼', '�', '​', '‌', '‍', '﻿']

/-- `_clean_text`: remove `_STRIP_CHARS`, then strip whitespace. -/
def cleanText (text : Str) : Str :=
  if text = [] then []
  else pyStrip (text.filter (fun c => !stripChars.contains c))

/-- `[\d:.]` (the time-of-day class of the timestamp group). -/
def dateClassRunFrom (cs : Str) (i : Nat) : Nat :=
  ((cs.drop i).takeWhile (fun c => c.isDigit || c = ':' || c = '.')).length

def nonColonRunFrom (cs : Str) (i : Nat) : Nat :=
  ((cs.drop i).takeWhile (fun c => !(c = ':'))).length

/-- `_TEXT_LINE_PATTERN.match(line)`: the four groups
(timestamp, direction, sender, text). -/
def parseTextLine (cs : Str) : Option (Str × Str × Str × Str) :=
  if isDigitAt cs 0 && isDigitAt cs 1 && isDigitAt cs 2 && isDigitAt cs 3 &&
     chAt cs 4 '-' && isDigitAt cs 5 && isDigitAt cs 6 && chAt cs 7 '-' &&
     isDigitAt cs 8 && isDigitAt cs 9 && chAt cs 10 'T' then
    let r := dateClassRunFrom cs 11
    if 1 ≤ r && chAt cs (11 + r) 'Z' then
      let dateEnd := 11 + r + 1
      let s1 := spaceRunFrom cs dateEnd
      if 1 ≤ s1 && chAt cs (dateEnd + s1) '[' then
        let p := dateEnd + s1 + 1
        match (if (cs.drop p).take 4 = strOf "sent" then some (strOf "sent")
               else if (cs.drop p).take 4 = strOf "recv" then some (strOf "recv")
               else none) with
        | none => none
        | some dir =>
          if chAt cs (p + 4) ']' then
            let s2 := spaceRunFrom cs (p + 5)
            (List.range s2).findSome? (fun d =>
              let k := s2 - d
              let sStart := p + 5 + k
              let sr := nonColonRunFrom cs sStart
              if 1 ≤ sr && chAt cs (sStart + sr) ':' then
                let tStart := sStart + sr + 1
                let s3 := spaceRunFrom cs tStart
                some (cs.take dateEnd, dir, (cs.drop sStart).take sr,
                  cs.drop (tStart + s3))
              else none)
          else none
      else none
    else none
  else none

/-- The subset of the `Message` model reached by the pure code under
verification (`created_at` keeps the raw timestamp group: `datetime`
parsing with its "now" fallback is not observed by any claim). -/
structure PyMessage where
  id : Option Int
  chatId : Int
  guid : Str
  sender : Option Str
  text : Option Str
  createdAt : Str
  isFromMe : Bool
deriving DecidableEq, Repr

/-- `_parse_text_message`: parse one text-format line into a message,
cleaning the text and applying the PII filter. -/
def parseTextMessage (line : Str) (chatId : Int) (lineIdx : Nat) (piiMode : Str) :
    Option PyMessage :=
  match parseTextLine line with
  | none => none
  | some (dateStr, dir, sender, text) =>
    some
      { id := some (Int.ofNat lineIdx)
        chatId := chatId
        guid := strOf "search-" ++ intToStr chatId ++ strOf "-" ++ natToStr lineIdx
        sender := some (pyStrip sender)
        text := filterPii piiMode (some (cleanText text))
        createdAt := dateStr
        isFromMe := decide (dir = strOf "sent") }

/-- Python `str.splitlines()` (modelled for `\n` line terminators, the only
terminator occurring in the adapter's data). -/
def pySplitLines (s : Str) : List Str :=
  if s = [] then []
  else
    let parts := s.splitOn '\n'
    if s.getLast? == some '\n' then parts.dropLast else parts

/-- `if not line or line.startswith("("):` on the stripped line. -/
def isSkippedLine (l : Str) : Bool :=
  decide (l = []) || (match l with | c :: _ => decide (c = '(') | [] => false)

/-- `msg and msg.text and query_lower in msg.text.lower()` (the part about
`msg.text`; `msg` itself is matched on separately). -/
def textMatches (queryLower : Str) : Option Str → Bool
  | some t => !(decide (t = [])) && strContains (lowerStr t) queryLower
  | none => false

/-- The scan loop of `search_messages_fast` over the split lines:
`lineIdx` is the running pseudo-id (not incremented on skipped blank /
attachment lines), `needed` is how many more matches may be collected
before the post-append `len(matches) >= result_limit` break fires. -/
def searchScanGo (piiMode queryLower : Str) (chatId : Int) :
    List Str → Nat → Nat → List PyMessage
  | [], _, _ => []
  | line :: rest, lineIdx, needed =>
    let l := pyStrip line
    if isSkippedLine l then
      searchScanGo piiMode queryLower chatId rest lineIdx needed
    else if !(strContains (lowerStr l) queryLower) then
      searchScanGo piiMode queryLower chatId rest (lineIdx + 1) needed
    else
      match parseTextMessage l chatId lineIdx piiMode with
      | some msg =>
        if textMatches queryLower msg.text then
          msg :: (if needed ≤ 1 then []
                  else searchScanGo piiMode queryLower chatId rest (lineIdx + 1) (needed - 1))
        else searchScanGo piiMode queryLower chatId rest (lineIdx + 1) needed
      | none => searchScanGo piiMode queryLower chatId rest (lineIdx + 1) needed

/-- The same scan without the `result_limit` break (used to state that the
bounded scan is a prefix of the unbounded one). -/
def searchScanAll (piiMode queryLower : Str) (chatId : Int) :
    List Str → Nat → List PyMessage
  | [], _ => []
  | line :: rest, lineIdx =>
    let l := pyStrip line
    if isSkippedLine l then
      searchScanAll piiMode queryLower chatId rest lineIdx
    else if !(strContains (lowerStr l) queryLower) then
      searchScanAll piiMode queryLower chatId rest (lineIdx + 1)
    else
      match parseTextMessage l chatId lineIdx piiMode with
      | some msg =>
        if textMatches queryLower msg.text then
          msg :: searchScanAll piiMode queryLower chatId rest (lineIdx + 1)
        else searchScanAll piiMode queryLower chatId rest (lineIdx + 1)
      | none => searchScanAll piiMode queryLower chatId rest (lineIdx + 1)

/-- `search_messages_fast` applied to the raw text `output` captured from
the CLI (the subprocess call itself is I/O). -/
def searchMessagesFastScan (piiMode query : Str) (chatId : Int) (resultLimit : Nat)
    (output : Str) : List PyMessage :=
  searchScanGo piiMode (lowerStr query) chatId (pySplitLines output) 0 resultLimit

theorem searchScanGo_eq_take (piiMode q : Str) (chatId : Int) (lines : List Str) :
    ∀ (idx needed : Nat), 1 ≤ needed →
      searchScanGo piiMode q chatId lines idx needed =
        (searchScanAll piiMode q chatId lines idx).take needed := by
  induction lines with
  | nil => intro idx needed _; simp [searchScanGo, searchScanAll]
  | cons line rest ih =>
    intro idx needed hneed
    simp only [searchScanGo, searchScanAll]
    by_cases h1 : isSkippedLine (pyStrip line) = true
    · rw [if_pos h1, if_pos h1]
      exact ih idx needed hneed
    · rw [if_neg h1, if_neg h1]
      by_cases h2 : strContains (lowerStr (pyStrip line)) q = true
      · have hpre : ¬ ((!(strContains (lowerStr (pyStrip line)) q)) = true) := by simp [h2]
        rw [if_neg hpre, if_neg hpre]
        cases hp : parseTextMessage (pyStrip line) chatId idx piiMode with
        | none =>
          dsimp only
          exact ih (idx + 1) needed hneed
        | some msg =>
          dsimp only
          by_cases h3 : textMatches q msg.text = true
          · rw [if_pos h3, if_pos h3]
            obtain ⟨m, rfl⟩ : ∃ m, needed = m + 1 := ⟨needed - 1, by omega⟩
            rw [List.take_succ_cons]
            cases m with
            | zero => simp
            | succ m2 =>
              have hle : ¬ (m2 + 1 + 1 ≤ 1) := by omega
              rw [if_neg hle]
              simp only [Nat.add_sub_cancel]
              exact congrArg (List.cons msg) (ih (idx + 1) (m2 + 1) (by omega))
          · rw [if_neg h3, if_neg h3]
            exact ih (idx + 1) needed hneed
      · have hpre : (!(strContains (lowerStr (pyStrip line)) q)) = true := by simp [h2]
        rw [if_pos hpre, if_pos hpre]
        exact ih (idx + 1) needed hneed

theorem searchScanGo_skip_junk (piiMode q : Str) (chatId : Int) (junk : Str)
    (hj : isSkippedLine (pyStrip junk) = true) (l1 l2 : List Str) :
    ∀ (idx needed : Nat),
      searchScanGo piiMode q chatId (l1 ++ junk :: l2) idx needed =
        searchScanGo piiMode q chatId (l1 ++ l2) idx needed := by
  induction l1 with
  | nil =>
    intro idx needed
    conv_lhs => rw [List.nil_append, searchScanGo]
    rw [if_pos hj, List.nil_append]
  | cons line rest ih =>
    intro idx needed
    simp only [List.cons_append, searchScanGo]
    by_cases h1 : isSkippedLine (pyStrip line) = true
    · rw [if_pos h1, if_pos h1]
      exact ih idx needed
    · rw [if_neg h1, if_neg h1]
      by_cases h2 : strContains (lowerStr (pyStrip line)) q = true
      · have hpre : ¬ ((!(strContains (lowerStr (pyStrip line)) q)) = true) := by simp [h2]
        rw [if_neg hpre, if_neg hpre]
        cases hp : parseTextMessage (pyStrip line) chatId idx piiMode with
        | none =>
          dsimp only
          exact ih (idx + 1) needed
        | some msg =>
          dsimp only
          by_cases h3 : textMatches q msg.text = true
          · rw [if_pos h3, if_pos h3]
            by_cases h4 : needed ≤ 1
            · rw [if_pos h4, if_pos h4]
            · rw [if_neg h4, if_neg h4]
              exact congrArg (List.cons msg) (ih (idx + 1) (needed - 1))
          · rw [if_neg h3, if_neg h3]
            exact ih (idx + 1) needed
      · have hpre : (!(strContains (lowerStr (pyStrip line)) q)) = true := by simp [h2]
        rw [if_pos hpre, if_pos hpre]
        exact ih (idx + 1) needed

theorem searchScanGo_members_match (piiMode q : Str) (chatId : Int) (lines : List Str) :
    ∀ (idx needed : Nat) (msg : PyMessage),
      msg ∈ searchScanGo piiMode q chatId lines idx needed →
      ∃ t, msg.text = some t ∧ strContains (lowerStr t) q = true := by
  induction lines with
  | nil => intro idx needed msg h; simp [searchScanGo] at h
  | cons line rest ih =>
    intro idx needed msg h
    simp only [searchScanGo] at h
    by_cases h1 : isSkippedLine (pyStrip line) = true
    · rw [if_pos h1] at h
      exact ih idx needed msg h
    · rw [if_neg h1] at h
      by_cases h2 : strContains (lowerStr (pyStrip line)) q = true
      · have hpre : ¬ ((!(strContains (lowerStr (pyStrip line)) q)) = true) := by simp [h2]
        rw [if_neg hpre] at h
        cases hp : parseTextMessage (pyStrip line) chatId idx piiMode with
        | none =>
          rw [hp] at h
          exact ih (idx + 1) needed msg h
        | some m0 =>
          rw [hp] at h
          dsimp only at h
          by_cases h3 : textMatches q m0.text = true
          · rw [if_pos h3] at h
            rcases List.mem_cons.mp h with hm | hm
            · subst hm
              unfold textMatches at h3
              cases ht : msg.text with
              | none => rw [ht] at h3; exact absurd h3 (by simp)
              | some t =>
                rw [ht] at h3
                simp only [Bool.and_eq_true] at h3
                exact ⟨t, rfl, h3.2⟩
            · by_cases h4 : needed ≤ 1
              · rw [if_pos h4] at hm
                simp at hm
              · rw [if_neg h4] at hm
                exact ih (idx + 1) (needed - 1) msg hm
          · rw [if_neg h3] at h
            exact ih (idx + 1) needed msg h
      · have hpre : (!(strContains (lowerStr (pyStrip line)) q)) = true := by simp [h2]
        rw [if_pos hpre] at h
        exact ih (idx + 1) needed msg h

/-- A synthetic history line in the imsg text output format, matched by the
query "hi". -/
def scanLine : Str := strOf "2026-01-31T12:25:21.879Z [recv] +13106999664: hello hi"

theorem parseTextMessage_scanLine (idx : Nat) :
    parseTextMessage (pyStrip scanLine) 7 idx [] =
      some { id := some (Int.ofNat idx), chatId := 7,
             guid := strOf "search-" ++ intToStr 7 ++ strOf "-" ++ natToStr idx,
             sender := some (strOf "+13106999664"),
             text := some (strOf "hello hi"),
             createdAt := strOf "2026-01-31T12:25:21.879Z",
             isFromMe := false } := by
  have hline : parseTextLine (pyStrip scanLine) =
      some (strOf "2026-01-31T12:25:21.879Z", strOf "recv", strOf "+13106999664",
        strOf "hello hi") := by decide
  simp only [parseTextMessage, hline]
  refine congrArg some ?_
  refine PyMessage.mk.injEq _ _ _ _ _ _ _ _ _ _ _ _ _ _ |>.mpr ?_
  refine ⟨rfl, rfl, rfl, by decide, by decide, rfl, by decide⟩

theorem searchScanAll_replicate_len : ∀ (n idx : Nat),
    (searchScanAll [] (strOf "hi") 7 (List.replicate n scanLine) idx).length = n := by
  intro n
  induction n with
  | zero => intro idx; simp [searchScanAll]
  | succ n ih =>
    intro idx
    rw [List.replicate_succ]
    simp only [searchScanAll]
    rw [if_neg (by decide : ¬ (isSkippedLine (pyStrip scanLine) = true))]
    rw [if_neg (by decide :
      ¬ ((!(strContains (lowerStr (pyStrip scanLine)) (strOf "hi"))) = true))]
    rw [parseTextMessage_scanLine idx]
    dsimp only
    rw [if_pos (by decide : textMatches (strOf "hi") (some (strOf "hello hi")) = true)]
    simp [ih]

/-- C7: fast search scan behaviour.  (1) The bounded scan result is exactly
the `result_limit`-prefix of the unbounded scan in scan order (the order
lines were emitted, never re-sorted); (2) hence at most `result_limit`
messages are returned; (3) every returned message's text (cleaned and
PII-filtered) contains the query case-insensitively; (4) inserting a blank
or parenthesized attachment-marker line anywhere changes nothing; (5) for a
synthetic history of 1000 matching lines and `result_limit = 5`, exactly 5
matches are returned. -/
theorem search_fast_scan_behaviour (piiMode query : Str) (chatId : Int)
    (resultLimit : Nat) (hlim : 1 ≤ resultLimit) :
    (∀ output, searchMessagesFastScan piiMode query chatId resultLimit output =
      (searchScanAll piiMode (lowerStr query) chatId (pySplitLines output) 0).take
        resultLimit) ∧
    (∀ output,
      (searchMessagesFastScan piiMode query chatId resultLimit output).length ≤
        resultLimit) ∧
    (∀ output msg, msg ∈ searchMessagesFastScan piiMode query chatId resultLimit output →
      ∃ t, msg.text = some t ∧ strContains (lowerStr t) (lowerStr query) = true) ∧
    (∀ (l1 l2 : List Str) (junk : Str) (idx needed : Nat),
      isSkippedLine (pyStrip junk) = true →
      searchScanGo piiMode (lowerStr query) chatId (l1 ++ junk :: l2) idx needed =
        searchScanGo piiMode (lowerStr query) chatId (l1 ++ l2) idx needed) ∧
    (searchScanGo [] (strOf "hi") 7 (List.replicate 1000 scanLine) 0 5).length = 5 := by
  refine ⟨?_, ?_, ?_, ?_, ?_⟩
  · intro output
    exact searchScanGo_eq_take piiMode (lowerStr query) chatId (pySplitLines output) 0
      resultLimit hlim
  · intro output
    unfold searchMessagesFastScan
    rw [searchScanGo_eq_take piiMode (lowerStr query) chatId (pySplitLines output) 0
      resultLimit hlim]
    rw [List.length_take]
    exact Nat.min_le_left _ _
  · intro output msg hmem
    exact searchScanGo_members_match piiMode (lowerStr query) chatId
      (pySplitLines output) 0 resultLimit msg hmem
  · intro l1 l2 junk idx needed hj
    exact searchScanGo_skip_junk piiMode (lowerStr query) chatId junk hj l1 l2 idx needed
  · rw [searchScanGo_eq_take [] (strOf "hi") 7 (List.replicate 1000 scanLine) 0 5
      (by omega)]
    rw [List.length_take, searchScanAll_replicate_len 1000 0]
    rfl

/-- Witness for C7 (the concrete 1000-line scan, extracted through the
theorem). -/
theorem search_fast_scan_behaviour_witness :
    (searchScanGo [] (strOf "hi") 7 (List.replicate 1000 scanLine) 0 5).length = 5 :=
  (search_fast_scan_behaviour [] (strOf "hi") 7 5 (by omega)).2.2.2.2

/-! ## Link extraction (`_URL_PATTERN`, `_get_link_context`,
`extract_links`; claims C8 and C9) -/

/-- `[\w-]` (URL host class). -/
def isHostChar (c : Char) : Bool := isWordChar c || c = '-'

def hostRunFrom (cs : Str) (i : Nat) : Nat :=
  ((cs.drop i).takeWhile isHostChar).length

/-- `[^\s<>\"'\)\]]` (URL path class). -/
def isPathChar (c : Char) : Bool :=
  !(isPySpace c || c = '<' || c = '>' || c = '"' || c = Char.ofNat 39 ||
    c = ')' || c = ']')

def pathRunFrom (cs : Str) (i : Nat) : Nat :=
  ((cs.drop i).takeWhile isPathChar).length

/-- The host part `(?:[\w-]+\.)+[\w-]+` after at least one dotted group has
been consumed: prefer another dotted group (greedy `+`), falling back to a
final label run at the current position. -/
def hostTail (cs : Str) : Nat → Nat → Option Nat
  | 0, _ => none
  | fuel + 1, pos =>
    match (let r := hostRunFrom cs pos
           if 1 ≤ r && chAt cs (pos + r) '.' then hostTail cs fuel (pos + r + 1)
           else none) with
    | some e => some e
    | none =>
      let f := hostRunFrom cs pos
      if 1 ≤ f then some (pos + f) else none

/-- Matcher for `_URL_PATTERN`
`https?://(?:[\w-]+\.)+[\w-]+(?:/[^\s<>\"'\)\]]*)?` (IGNORECASE). -/
def urlMatchAt (cs : Str) (i : Nat) : Option Nat :=
  if keywordAt cs i (strOf "http") then
    let p := if keywordAt cs (i + 4) (strOf "s") then i + 5 else i + 4
    if chAt cs p ':' && chAt cs (p + 1) '/' && chAt cs (p + 2) '/' then
      let h0 := p + 3
      let r := hostRunFrom cs h0
      if 1 ≤ r && chAt cs (h0 + r) '.' then
        match hostTail cs (cs.length + 1) (h0 + r + 1) with
        | none => none
        | some hEnd =>
          if chAt cs hEnd '/' then some (hEnd + 1 + pathRunFrom cs (hEnd + 1))
          else some hEnd
      else none
    else none
  else none

/-- `Pattern.findall`: all non-overlapping matches, scanning left to
right. -/
def findAllGo (matchAt : Str → Nat → Option Nat) (cs : Str) : Nat → Nat → List Str
  | 0, _ => []
  | fuel + 1, i =>
    if i < cs.length then
      match matchAt cs i with
      | some e => ((cs.drop i).take (e - i)) :: findAllGo matchAt cs fuel e
      | none => findAllGo matchAt cs fuel (i + 1)
    else []

/-- `_extract_urls`: clean the text, then find all URL matches. -/
def extractUrls (text : Str) : List Str :=
  if text = [] then []
  else
    let cleaned := cleanText text
    findAllGo urlMatchAt cleaned (cleaned.length + 1) 0

/-- Python `hay.find(needle)` (first index, `None` for not found). -/
def strFind (hay needle : Str) : Option Nat :=
  (List.range (hay.length + 1)).findSome? (fun i =>
    if needle.isPrefixOf (hay.drop i) then some i else none)

/-- `_get_link_context`: a window of `contextChars` characters each side of
the URL's first occurrence in the cleaned text, with `...` markers exactly
when text was cut off. -/
def getLinkContext (text url : Str) (contextChars : Nat) : Str :=
  if text = [] then []
  else
    let cleaned := cleanText text
    match strFind cleaned url with
    | none => if 100 < cleaned.length then cleaned.take 100 else cleaned
    | some idx =>
      let start := idx - contextChars
      let stop := min cleaned.length (idx + url.length + contextChars)
      let context := (cleaned.drop start).take (stop - start)
      let context1 := if 0 < start then strOf "..." ++ context else context
      if stop < cleaned.length then context1 ++ strOf "..." else context1

structure ExtractedLink where
  url : Str
  messageId : Option Int
  sender : Option Str
  sentAt : Str
  context : Str
deriving DecidableEq, Repr

/-- The message loop of `extract_links` (`remaining` is `limit` minus the
links collected so far; the loop breaks when it reaches zero, and the inner
URL loop stops at the limit too). -/
def linksFromMessages (fromMe : Option Bool) : List PyMessage → Nat → List ExtractedLink
  | [], _ => []
  | msg :: rest, remaining =>
    if remaining = 0 then []
    else if (fromMe == some true && !msg.isFromMe) ||
            (fromMe == some false && msg.isFromMe) then
      linksFromMessages fromMe rest remaining
    else
      match msg.text with
      | none => linksFromMessages fromMe rest remaining
      | some t =>
        if t = [] then linksFromMessages fromMe rest remaining
        else
          let urls := (extractUrls t).take remaining
          urls.map (fun url =>
            { url := url, messageId := msg.id,
              sender := if msg.isFromMe then some (strOf "me") else msg.sender,
              sentAt := msg.createdAt,
              context := getLinkContext t url 50 }) ++
            linksFromMessages fromMe rest (remaining - urls.length)

/-- The scope resolution shared by `search_messages` and `extract_links`:
use the supplied thread id; else, when a (truthy) recipient is supplied,
look its thread up. -/
def resolveScope (threadId : Option Int) (recipient : Option Str)
    (findThread : Str → Option Int) : Option Int :=
  match threadId with
  | some t => some t
  | none =>
    match pyTruthy recipient with
    | some r => findThread r
    | none => none

/-- `search_messages` with the subprocess interactions abstracted:
`findThread` models `find_thread_by_recipient`, `fetchHistory` models the
raw text obtained from the CLI for a thread. -/
def searchMessagesModel (piiMode : Str) (findThread : Str → Option Int)
    (fetchHistory : Int → Str) (query : Str) (threadId : Option Int)
    (recipient : Option Str) (resultLimit : Nat) : List PyMessage :=
  match resolveScope threadId recipient findThread with
  | none => []
  | some tid => searchMessagesFastScan piiMode query tid resultLimit (fetchHistory tid)

/-- `extract_links` with the subprocess interactions abstracted:
`fetchMessages` models the normalized messages returned by `get_messages`;
the loop iterates most-recent-first (`reversed(messages)`). -/
def extractLinksModel (findThread : Str → Option Int)
    (fetchMessages : Int → List PyMessage) (recipient : Option Str)
    (threadId : Option Int) (limit : Nat) (fromMe : Option Bool) :
    List ExtractedLink :=
  match resolveScope threadId recipient findThread with
  | none => []
  | some tid => linksFromMessages fromMe (fetchMessages tid).reverse limit

/-- C8: when no thread id is supplied and the recipient (when supplied and
non-empty) does not resolve to a thread, both `search_messages` and
`extract_links` return an empty list — the subprocess is never consulted
(the result is `[]` for every `fetchHistory` / `fetchMessages`), and no
error is raised (the model is a total function). -/
theorem unresolved_scope_returns_empty (piiMode : Str) (findThread : Str → Option Int)
    (fetchHistory : Int → Str) (fetchMessages : Int → List PyMessage)
    (query : Str) (recipient : Option Str) (resultLimit limit : Nat)
    (fromMe : Option Bool)
    (hrec : ∀ r, pyTruthy recipient = some r → findThread r = none) :
    searchMessagesModel piiMode findThread fetchHistory query none recipient
      resultLimit = [] ∧
    extractLinksModel findThread fetchMessages recipient none limit fromMe = [] := by
  have hscope : resolveScope none recipient findThread = none := by
    unfold resolveScope
    cases ht : pyTruthy recipient with
    | none => rfl
    | some r => exact hrec r ht
  constructor
  · unfold searchMessagesModel
    rw [hscope]
  · unfold extractLinksModel
    rw [hscope]

/-- Witness for C8 at a concrete unresolvable scope. -/
theorem unresolved_scope_returns_empty_witness :
    searchMessagesModel [] (fun _ => none) (fun _ => strOf "x") (strOf "hi") none
      (some (strOf "nobody")) 100 = [] ∧
    extractLinksModel (fun _ => none) (fun _ => []) (some (strOf "nobody")) none
      20 none = [] :=
  unresolved_scope_returns_empty [] (fun _ => none) (fun _ => strOf "x") (fun _ => [])
    (strOf "hi") (some (strOf "nobody")) 100 20 none (fun r _ => rfl)

theorem strFind_isPrefix (hay needle : Str) (idx : Nat)
    (h : strFind hay needle = some idx) :
    needle.isPrefixOf (hay.drop idx) = true := by
  obtain ⟨a, _, ha⟩ := findSome?_mem _ _ _ h
  by_cases hp : needle.isPrefixOf (hay.drop a) = true
  · rw [if_pos hp] at ha
    have : a = idx := Option.some.inj ha
    subst this
    exact hp
  · rw [if_neg hp] at ha
    exact Option.noConfusion ha

theorem strFind_le_length (hay needle : Str) (idx : Nat)
    (h : strFind hay needle = some idx) : idx ≤ hay.length := by
  obtain ⟨a, hmem, ha⟩ := findSome?_mem _ _ _ h
  have ha2 : a = idx := by
    by_cases hp : needle.isPrefixOf (hay.drop a) = true
    · rw [if_pos hp] at ha
      exact Option.some.inj ha
    · rw [if_neg hp] at ha
      exact Option.noConfusion ha
  have := List.mem_range.mp hmem
  omega

theorem strFind_occurrence_le (hay needle : Str) (idx : Nat)
    (h : strFind hay needle = some idx) : idx + needle.length ≤ hay.length := by
  have hp := strFind_isPrefix hay needle idx h
  have hpre : needle <+: hay.drop idx := List.isPrefixOf_iff_prefix.mp hp
  have h1 := hpre.length_le
  rw [List.length_drop] at h1
  have h2 := strFind_le_length hay needle idx h
  omega

/-- C9: bounded link context.  For a message text whose cleaned form
contains the (non-empty) URL first at position `idx`, the context computed
with the default width 50 is the slice of the cleaned text from
`idx - 50` to `min length (idx + |url| + 50)` — so at most 50 characters
each side of the URL occurrence, which the window always covers — prefixed
with `...` exactly when characters before the window were cut off
(`50 < idx`) and suffixed with `...` exactly when characters after it were
cut off. -/
theorem link_context_bounded (text url : Str) (idx : Nat) (hurl : url ≠ [])
    (hfind : strFind (cleanText text) url = some idx) :
    getLinkContext text url 50 =
      (if 0 < idx - 50 then strOf "..." else []) ++
      ((cleanText text).drop (idx - 50)).take
        (min (cleanText text).length (idx + url.length + 50) - (idx - 50)) ++
      (if min (cleanText text).length (idx + url.length + 50) < (cleanText text).length
       then strOf "..." else []) ∧
    (((cleanText text).drop (idx - 50)).take
        (min (cleanText text).length (idx + url.length + 50) - (idx - 50))).length ≤
      url.length + 100 ∧
    ((0 < idx - 50) ↔ (50 < idx)) ∧
    (idx - 50 ≤ idx ∧
      idx + url.length ≤ min (cleanText text).length (idx + url.length + 50)) := by
  have htext : ¬ (text = []) := by
    intro he
    subst he
    have hp := strFind_isPrefix (cleanText []) url idx hfind
    have : cleanText [] = [] := rfl
    rw [this] at hp
    simp only [List.drop_nil] at hp
    cases url with
    | nil => exact hurl rfl
    | cons c cs => simp [List.isPrefixOf] at hp
  have hocc := strFind_occurrence_le (cleanText text) url idx hfind
  refine ⟨?_, ?_, ?_, ?_⟩
  · simp only [getLinkContext, if_neg htext, hfind]
    by_cases h1 : 0 < idx - 50
    · rw [if_pos h1, if_pos h1]
      by_cases h2 : min (cleanText text).length (idx + url.length + 50) <
          (cleanText text).length
      · rw [if_pos h2, if_pos h2, List.append_assoc]
      · rw [if_neg h2, if_neg h2, List.append_nil]
    · rw [if_neg h1, if_neg h1]
      by_cases h2 : min (cleanText text).length (idx + url.length + 50) <
          (cleanText text).length
      · rw [if_pos h2, if_pos h2, List.nil_append]
      · rw [if_neg h2, if_neg h2, List.append_nil, List.nil_append]
  · have := List.length_take
      (min (cleanText text).length (idx + url.length + 50) - (idx - 50))
      ((cleanText text).drop (idx - 50))
    rw [this]
    have hmin : min (cleanText text).length (idx + url.length + 50) ≤
        idx + url.length + 50 := Nat.min_le_right _ _
    omega
  · omega
  · constructor
    · omega
    · have : idx + url.length ≤ idx + url.length + 50 := by omega
      exact Nat.le_min.mpr ⟨hocc, this⟩

/-- The concrete C9 instance: a text whose surroundings both exceed the
50-character window. -/
def ctxText : Str :=
  List.replicate 60 'a' ++ strOf "check out https://example.com/page for details" ++
    List.replicate 60 'b'

set_option maxRecDepth 100000 in
set_option maxHeartbeats 16000000 in
/-- Witness for C9: in `ctxText` the URL is found at position 70, and the
computed context carries both a leading and a trailing ellipsis marker. -/
theorem link_context_bounded_witness :
    strFind (cleanText ctxText) (strOf "https://example.com/page") = some 70 ∧
    (getLinkContext ctxText (strOf "https://example.com/page") 50).take 3 =
      strOf "..." ∧
    ((getLinkContext ctxText (strOf "https://example.com/page") 50).reverse.take 3)
      = strOf "..." := by
  have hfind : strFind (cleanText ctxText) (strOf "https://example.com/page") =
      some 70 := by decide
  have h := link_context_bounded ctxText (strOf "https://example.com/page") 70
    (by decide) hfind
  refine ⟨hfind, ?_, ?_⟩
  · rw [h.1]
    decide
  · rw [h.1]
    decide

/-! ## PII filter idempotence (claim C5)

The key fact is that a substitution pass can neither leave a match of its
own pattern in its output nor create a match of an already-eliminated
pattern: every replaced span starts with a word character right after a
non-word seam and ends right before a non-word seam, and the replacement
tokens `[REDACTED-…]` are inert (no digits; the only keyword occurrences
inside them are immediately followed by `]`, which blocks every rule's
tail).  The development below proves these facts for each matcher and
chains them through the six passes. -/

theorem get?_append_lt (w u : Str) (i : Nat) (h : i < w.length) :
    (w ++ u).get? i = w.get? i := by
  rw [List.get?_eq_getElem?, List.get?_eq_getElem?, List.getElem?_append_left h]

theorem get?_append_ge (w u : Str) (i : Nat) (h : w.length ≤ i) :
    (w ++ u).get? i = u.get? (i - w.length) := by
  rw [List.get?_eq_getElem?, List.get?_eq_getElem?, List.getElem?_append_right h]

theorem get?_append_at (w : Str) (c : Char) (u : Str) :
    (w ++ c :: u).get? w.length = some c := by
  rw [get?_append_ge w _ _ (Nat.le_refl _), Nat.sub_self]
  rfl

theorem get?_drop_add (l : Str) (i j : Nat) : (l.drop i).get? j = l.get? (i + j) := by
  rw [List.get?_eq_getElem?, List.get?_eq_getElem?, List.getElem?_drop]

theorem get?_eq_none_of_le {α : Type} (l : List α) (i : Nat) (h : l.length ≤ i) :
    l.get? i = none := by
  rw [List.get?_eq_getElem?]
  exact List.getElem?_eq_none h

theorem lt_length_of_get?_some {α : Type} (l : List α) (i : Nat) (c : α)
    (h : l.get? i = some c) : i < l.length := by
  by_contra hge
  rw [get?_eq_none_of_le l i (Nat.le_of_not_lt hge)] at h
  exact Option.noConfusion h

theorem takeWhile_length_le (P : Char → Bool) (l : Str) : (l.takeWhile P).length ≤ l.length :=
  (List.takeWhile_sublist P).length_le

theorem takeWhile_append_stop (P : Char → Bool) (a b : Str) (c : Char) (hc : P c = false) :
    (a ++ c :: b).takeWhile P = a.takeWhile P := by
  induction a with
  | nil => simp [List.takeWhile, hc]
  | cons x xs ih =>
    simp only [List.cons_append, List.takeWhile, List.append_eq] at ih ⊢
    cases hx : P x
    · rfl
    · rw [ih]

theorem takeWhile_append_all (P : Char → Bool) (a b : Str) (h : ∀ x ∈ a, P x = true) :
    (a ++ b).takeWhile P = a ++ b.takeWhile P := by
  induction a with
  | nil => simp
  | cons x xs ih =>
    simp only [List.cons_append, List.takeWhile, h x (List.mem_cons_self x xs),
      List.append_eq] at ih ⊢
    rw [ih (fun y hy => h y (List.mem_cons_of_mem _ hy))]

theorem takeWhile_append_of_lt (P : Char → Bool) (a b : Str)
    (h : (a.takeWhile P).length < a.length) :
    (a ++ b).takeWhile P = a.takeWhile P := by
  induction a with
  | nil => simp at h
  | cons x xs ih =>
    cases hx : P x
    · simp only [List.cons_append, List.takeWhile, hx]
    · simp only [List.takeWhile, hx, List.length_cons] at h
      simp only [List.cons_append, List.takeWhile, hx, List.append_eq]
      rw [ih (by omega)]

theorem takeWhile_get?_lt (P : Char → Bool) (l : Str) (j : Nat)
    (h : j < (l.takeWhile P).length) :
    ∃ ch, l.get? j = some ch ∧ P ch = true := by
  induction l generalizing j with
  | nil => simp [List.takeWhile] at h
  | cons x xs ih =>
    cases hx : P x
    · simp [List.takeWhile, hx] at h
    · cases j with
      | zero => exact ⟨x, rfl, hx⟩
      | succ j2 =>
        simp only [List.takeWhile, hx, List.length_cons] at h
        exact ih j2 (by omega)

theorem takeWhile_stop_char (P : Char → Bool) (l : Str) :
    l.get? (l.takeWhile P).length = none ∨
    ∃ ch, l.get? (l.takeWhile P).length = some ch ∧ P ch = false := by
  induction l with
  | nil => left; rfl
  | cons x xs ih =>
    cases hx : P x
    · right; exact ⟨x, by simp [List.takeWhile, hx], hx⟩
    · simp only [List.takeWhile, hx, List.length_cons]
      exact ih

theorem takeWhile_pos_iff (P : Char → Bool) (l : Str) :
    (1 ≤ (l.takeWhile P).length) ↔ ∃ ch, l.get? 0 = some ch ∧ P ch = true := by
  cases l with
  | nil => simp [List.takeWhile]
  | cons x xs =>
    cases hx : P x
    · simp [List.takeWhile, hx]
    · simp [List.takeWhile, hx]

theorem range_findSome?_eq_none_iff {β : Type} (n : Nat) (f : Nat → Option β) :
    (List.range n).findSome? f = none ↔ ∀ d, d < n → f d = none := by
  rw [List.findSome?_eq_none_iff]
  constructor
  · intro h d hd; exact h d (List.mem_range.mpr hd)
  · intro h d hd; exact h d (List.mem_range.mp hd)

theorem range_findSome?_isSome {β : Type} (n : Nat) (f : Nat → Option β)
    (d : Nat) (hd : d < n) (h : (f d).isSome = true) :
    ((List.range n).findSome? f).isSome = true := by
  cases hfs : (List.range n).findSome? f with
  | some b => rfl
  | none =>
    rw [range_findSome?_eq_none_iff] at hfs
    rw [hfs d hd] at h
    exact Bool.noConfusion h

theorem findSome?_first {α β : Type} (l : List α) (f : α → Option β) (b : β)
    (h : l.findSome? f = some b) :
    ∃ i a, l.get? i = some a ∧ f a = some b ∧
      ∀ j, j < i → ∀ a2, l.get? j = some a2 → f a2 = none := by
  induction l with
  | nil => exact absurd h (by simp)
  | cons x xs ih =>
    rw [List.findSome?_cons] at h
    cases hx : f x with
    | some b2 =>
      rw [hx] at h
      exact ⟨0, x, rfl, hx.trans h, fun j hj => absurd hj (Nat.not_lt_zero j)⟩
    | none =>
      rw [hx] at h
      obtain ⟨i, a, h1, h2, h3⟩ := ih h
      refine ⟨i + 1, a, h1, h2, ?_⟩
      intro j hj a2 hga
      cases j with
      | zero =>
        have hax : a2 = x := Option.some.inj hga.symm
        rw [← hax] at hx
        exact hx
      | succ j2 => exact h3 j2 (by omega) a2 hga

theorem range_findSome?_first {β : Type} (n : Nat) (f : Nat → Option β) (b : β)
    (h : (List.range n).findSome? f = some b) :
    ∃ d, d < n ∧ f d = some b ∧ ∀ e, e < d → f e = none := by
  obtain ⟨i, a, h1, h2, h3⟩ := findSome?_first _ f b h
  have hlen : i < n := by
    have := lt_length_of_get?_some _ _ _ h1
    simpa using this
  have hai : a = i := by
    rw [List.get?_eq_getElem?, List.getElem?_range hlen] at h1
    exact Option.some.inj h1.symm
  subst hai
  refine ⟨a, hlen, h2, ?_⟩
  intro e he
  exact h3 e he e (by rw [List.get?_eq_getElem?, List.getElem?_range (by omega)])

/-! ### Character-class facts -/

theorem toLower_eq (c : Char) :
    Char.toLower c = if 65 ≤ c.toNat ∧ c.toNat ≤ 90 then Char.ofNat (c.toNat + 32) else c := rfl

/-- A character whose lowercase image is a word character is itself a word
character (uppercase Latin letters lower to lowercase ones; every other
character is fixed by `toLower`). -/
theorem word_of_toLower (c k : Char) (hk : isWordChar k = true)
    (h : Char.toLower c = k) : isWordChar c = true := by
  by_cases hc : 65 ≤ c.toNat ∧ c.toNat ≤ 90
  · have hup : c.isUpper = true := by
      simp only [Char.isUpper, Bool.and_eq_true, decide_eq_true_eq, ge_iff_le]
      obtain ⟨h1, h2⟩ := hc
      constructor
      · simp only [UInt32.le_def, BitVec.le_def]
        simpa [Char.toNat, UInt32.toNat] using h1
      · simp only [UInt32.le_def, BitVec.le_def]
        simpa [Char.toNat, UInt32.toNat] using h2
    simp [isWordChar, Char.isAlphanum, Char.isAlpha, hup]
  · rw [toLower_eq, if_neg hc] at h
    rw [h]; exact hk

theorem isWordChar_of_digit (c : Char) (h : c.isDigit = true) : isWordChar c = true := by
  simp [isWordChar, Char.isAlphanum, h]

theorem isKeyChar_of_word (c : Char) (h : isWordChar c = true) : isKeyChar c = true := by
  simp only [isWordChar, Bool.or_eq_true] at h
  simp only [isKeyChar, Bool.or_eq_true]
  rcases h with h | h
  · exact Or.inl (Or.inl h)
  · exact Or.inl (Or.inr h)

theorem word_not_space (c : Char) (h : isWordChar c = true) : isPySpace c = false := by
  cases hs : isPySpace c
  · rfl
  · exfalso
    simp only [isPySpace, Bool.or_eq_true, decide_eq_true_eq] at hs
    rcases hs with ((((h1 | h1) | h1) | h1) | h1) | h1 <;>
      (subst h1; exact absurd h (by decide))

theorem word_ne_char (c x : Char) (h : isWordChar c = true) (hx : isWordChar x = false) :
    c ≠ x := by
  intro he
  rw [he, hx] at h
  exact Bool.noConfusion h

/-! ### Reads of the regex primitives across a replacement seam

Throughout, `S = w ++ c :: u` stands for a suffix of the pass input (the
text from some scan position up to a replaced span, the span starting with
`c`), and `O = w ++ d :: v` for the corresponding suffix of the pass
output (`d` being `[`, the head of the replacement token). -/

theorem isWordAt_congr (w : Str) (c : Char) (u : Str) (d : Char) (v : Str) (i : Nat)
    (h : i < w.length) :
    isWordAt (w ++ c :: u) i = isWordAt (w ++ d :: v) i := by
  unfold isWordAt
  rw [get?_append_lt w _ i h, get?_append_lt w _ i h]

theorem isWordAt_append_at (w : Str) (c : Char) (u : Str) :
    isWordAt (w ++ c :: u) w.length = isWordChar c := by
  unfold isWordAt
  rw [get?_append_at]

theorem isDigitAt_congr (w : Str) (c : Char) (u : Str) (d : Char) (v : Str) (i : Nat)
    (h : i < w.length) :
    isDigitAt (w ++ c :: u) i = isDigitAt (w ++ d :: v) i := by
  unfold isDigitAt
  rw [get?_append_lt w _ i h, get?_append_lt w _ i h]

theorem isDigitAt_append_at (w : Str) (c : Char) (u : Str) :
    isDigitAt (w ++ c :: u) w.length = c.isDigit := by
  unfold isDigitAt
  rw [get?_append_at]

theorem chAt_congr (w : Str) (c : Char) (u : Str) (d : Char) (v : Str) (i : Nat) (x : Char)
    (h : i < w.length) :
    chAt (w ++ c :: u) i x = chAt (w ++ d :: v) i x := by
  unfold chAt
  rw [get?_append_lt w _ i h, get?_append_lt w _ i h]

theorem chAt_append_at (w : Str) (c : Char) (u : Str) (x : Char) :
    chAt (w ++ c :: u) w.length x = (c == x) := by
  unfold chAt
  rw [get?_append_at]
  rfl

theorem wordBoundary_congr (w : Str) (c : Char) (u : Str) (d : Char) (v : Str) (i : Nat)
    (h : i < w.length) :
    wordBoundary (w ++ c :: u) i = wordBoundary (w ++ d :: v) i := by
  unfold wordBoundary
  by_cases h0 : i = 0
  · subst h0
    rw [isWordAt_congr w c u d v 0 h]
  · rw [if_neg h0, if_neg h0, isWordAt_congr w c u d v i h,
      isWordAt_congr w c u d v (i - 1) (by omega)]

theorem isWordAt_drop (cs : Str) (i j : Nat) : isWordAt (cs.drop i) j = isWordAt cs (i + j) := by
  unfold isWordAt
  rw [get?_drop_add]

theorem takeWhile_drop_seam (P : Char → Bool) (w : Str) (c : Char) (u : Str)
    (p : Nat) (hp : p ≤ w.length) (hc : P c = false) :
    ((w ++ c :: u).drop p).takeWhile P = (w.drop p).takeWhile P := by
  rw [List.drop_append_of_le_length hp, takeWhile_append_stop P _ _ c hc]

theorem runFrom_fill (P : Char → Bool) (A : Str) (c : Char) (u : Str)
    (hall : ∀ x ∈ A, P x = true) (hc : P c = true) :
    A.length + 1 ≤ ((A ++ c :: u).takeWhile P).length := by
  rw [takeWhile_append_all P A _ hall, List.length_append]
  simp only [List.takeWhile, hc, List.length_cons]
  omega

theorem all_of_takeWhile_full (P : Char → Bool) (A : Str)
    (h : (A.takeWhile P).length = A.length) : ∀ x ∈ A, P x = true := by
  intro x hx
  obtain ⟨n, hn⟩ := List.mem_iff_get?.mp hx
  have hlt : n < A.length := lt_length_of_get?_some _ _ _ hn
  obtain ⟨ch, hc1, hc2⟩ := takeWhile_get?_lt P A n (by omega)
  rw [hn] at hc1
  rw [Option.some.inj hc1]
  exact hc2

/-! ### Keyword reads -/

theorem keywordAt_char (cs : Str) (pos : Nat) (kw : Str) (h : keywordAt cs pos kw = true)
    (i : Nat) (hi : i < kw.length) :
    (cs.get? (pos + i)).map Char.toLower = kw.get? i := by
  have heq : lowerStr ((cs.drop pos).take kw.length) = kw := by
    simpa [keywordAt] using h
  have := congrArg (fun l => l.get? i) heq
  simp only [lowerStr, List.get?_eq_getElem?, List.getElem?_map] at this
  rw [List.getElem?_take_of_lt hi, List.getElem?_drop] at this
  rw [List.get?_eq_getElem?, List.get?_eq_getElem?]
  exact this

theorem keywordAt_length (cs : Str) (pos : Nat) (kw : Str) (hk : 0 < kw.length)
    (h : keywordAt cs pos kw = true) :
    pos + kw.length ≤ cs.length := by
  have heq : lowerStr ((cs.drop pos).take kw.length) = kw := by
    simpa [keywordAt] using h
  have hlen := congrArg List.length heq
  simp only [lowerStr, List.length_map, List.length_take, List.length_drop] at hlen
  omega

theorem keywordAt_congr (w r1 r2 : Str) (pos : Nat) (kw : Str)
    (h : pos + kw.length ≤ w.length) :
    keywordAt (w ++ r1) pos kw = keywordAt (w ++ r2) pos kw := by
  unfold keywordAt
  rw [List.drop_append_of_le_length (by omega), List.drop_append_of_le_length (by omega),
    List.take_append_of_le_length (by rw [List.length_drop]; omega),
    List.take_append_of_le_length (by rw [List.length_drop]; omega)]

/-- A keyword that would have to straddle the seam into the replacement
token fails: the token head `[` is not a keyword character. -/
theorem keywordAt_cross_bracket (w v : Str) (pos : Nat) (kw : Str)
    (hpos : pos ≤ w.length) (hcross : w.length < pos + kw.length)
    (hnb : kw.all (fun ch => ch != '[') = true) :
    keywordAt (w ++ '[' :: v) pos kw = false := by
  cases hkw : keywordAt (w ++ '[' :: v) pos kw
  · rfl
  · exfalso
    have hchar := keywordAt_char _ pos kw hkw (w.length - pos) (by omega)
    rw [show pos + (w.length - pos) = w.length by omega, get?_append_at] at hchar
    have : kw.get? (w.length - pos) = some '[' := by
      rw [← hchar]; decide
    have hmem : '[' ∈ kw := List.get?_mem this
    have := List.all_eq_true.mp hnb '[' hmem
    simp at this

/-- Distinct keywords differ at some common index, so no two of them can
match at the same position. -/
def kwDistinct (a b : Str) : Bool :=
  (List.range (min a.length b.length)).any (fun i => a.get? i != b.get? i)

def kwPairwise : List Str → Bool
  | [] => true
  | a :: rest => rest.all (fun b => kwDistinct a b) && kwPairwise rest

theorem kwDistinct_not_both (s : Str) (pos : Nat) (a b : Str) (hd : kwDistinct a b = true)
    (ha : keywordAt s pos a = true) (hb : keywordAt s pos b = true) : False := by
  obtain ⟨i, hmem, hne⟩ := List.any_eq_true.mp hd
  have hi := List.mem_range.mp hmem
  have hia := keywordAt_char s pos a ha i (by omega)
  have hib := keywordAt_char s pos b hb i (by omega)
  rw [hia] at hib
  exact absurd hib (bne_iff_ne.mp hne)

theorem kwFind_unique (s : Str) (kws : List Str) (hp : kwPairwise kws = true)
    (K : Str) (hmem : K ∈ kws) (hK : keywordAt s 0 K = true) :
    kws.findSome? (fun kw => if keywordAt s 0 kw then some kw.length else none) =
      some K.length := by
  induction kws with
  | nil => exact absurd hmem (List.not_mem_nil K)
  | cons a rest ih =>
    simp only [kwPairwise, Bool.and_eq_true] at hp
    rw [List.findSome?_cons]
    rcases List.mem_cons.mp hmem with hKa | hKrest
    · subst hKa
      rw [if_pos hK]
    · cases hka : keywordAt s 0 a
      · rw [if_neg (by decide)]
        exact ih hp.2 hKrest
      · exfalso
        exact kwDistinct_not_both s 0 a K
          (List.all_eq_true.mp hp.1 K hKrest) hka hK

/-! ### Facts about the SSN matcher -/

theorem isDigitAt_cons (c : Char) (xs : Str) : isDigitAt (c :: xs) 0 = c.isDigit := rfl

theorem isWordAt_cons (c : Char) (xs : Str) : isWordAt (c :: xs) 0 = isWordChar c := rfl

theorem isWordAt_of_isDigitAt (s : Str) (i : Nat) (h : isDigitAt s i = true) :
    isWordAt s i = true := by
  unfold isDigitAt at h
  unfold isWordAt
  cases hg : s.get? i with
  | none => rw [hg] at h; exact Bool.noConfusion h
  | some ch =>
    rw [hg] at h
    exact isWordChar_of_digit ch h

theorem isDigitAt_some (s : Str) (i : Nat) (h : isDigitAt s i = true) :
    ∃ ch, s.get? i = some ch ∧ ch.isDigit = true := by
  unfold isDigitAt at h
  cases hg : s.get? i with
  | none => rw [hg] at h; exact Bool.noConfusion h
  | some ch => rw [hg] at h; exact ⟨ch, rfl, h⟩

theorem ssnF_none_iff (b : Bool) (s : Str) : ssnF b s = none ↔ ssnShaped b s = false := by
  unfold ssnF
  cases h : ssnShaped b s <;> simp [h]

theorem ssnF_empty (b : Bool) : ssnF b [] = none := by
  cases b <;> rfl

theorem ssnF_nonword_head (b : Bool) (c : Char) (xs : Str) (h : isWordChar c = false) :
    ssnF b (c :: xs) = none := by
  rw [ssnF_none_iff]
  have hd : c.isDigit = false := by
    cases hd2 : c.isDigit
    · rfl
    · rw [isWordChar_of_digit c hd2] at h; exact Bool.noConfusion h
  unfold ssnShaped
  rw [isDigitAt_cons, hd]
  simp

theorem ssnF_prev_word (c : Char) (xs : Str) (h : isWordChar c = true) :
    ssnF true (c :: xs) = none := by
  rw [ssnF_none_iff]
  unfold ssnShaped
  rw [isWordAt_cons, h]
  simp

theorem ssnF_some_facts (b : Bool) (s : Str) (len : Nat) (h : ssnF b s = some len) :
    len = 11 ∧ ssnShaped b s = true := by
  unfold ssnF at h
  cases hs : ssnShaped b s
  · rw [hs] at h; simp at h
  · rw [hs] at h
    simp only [if_true] at h
    exact ⟨(Option.some.inj h).symm, rfl⟩

theorem ssnShaped_head (b : Bool) (s : Str) (h : ssnShaped b s = true) :
    ∃ c0 xs, s = c0 :: xs ∧ isWordChar c0 = true ∧ b = false := by
  have h0 : isDigitAt s 0 = true := by
    by_contra h0f
    simp [ssnShaped, Bool.eq_false_iff.mpr h0f] at h
  obtain ⟨c0, hg, hdig⟩ := isDigitAt_some s 0 h0
  cases s with
  | nil => exact Option.noConfusion hg
  | cons x xs =>
    have hx : x = c0 := Option.some.inj hg
    subst hx
    have hw : isWordChar x = true := isWordChar_of_digit x hdig
    refine ⟨x, xs, rfl, hw, ?_⟩
    have hb : (b != isWordAt (x :: xs) 0) = true := by
      by_contra hbf
      simp [ssnShaped, Bool.eq_false_iff.mpr hbf] at h
    rw [isWordAt_cons, hw] at hb
    cases b
    · rfl
    · simp at hb

theorem ssnShaped_len (b : Bool) (s : Str) (h : ssnShaped b s = true) : 11 ≤ s.length := by
  have h10 : isDigitAt s 10 = true := by
    by_contra h10f
    simp [ssnShaped, Bool.eq_false_iff.mpr h10f] at h
  obtain ⟨c10, hg, _⟩ := isDigitAt_some s 10 h10
  have := lt_length_of_get?_some s 10 c10 hg
  omega

theorem ssnShaped_after (b : Bool) (s : Str) (h : ssnShaped b s = true) :
    isWordAt s 11 = false := by
  have h10 : isDigitAt s 10 = true := by
    by_contra h10f
    simp [ssnShaped, Bool.eq_false_iff.mpr h10f] at h
  have hbd : wordBoundary s 11 = true := by
    by_contra hbf
    simp [ssnShaped, Bool.eq_false_iff.mpr hbf] at h
  unfold wordBoundary at hbd
  rw [if_neg (by decide), isWordAt_of_isDigitAt s 10 h10] at hbd
  cases hw : isWordAt s 11
  · rfl
  · rw [hw] at hbd; simp at hbd

/-- Transfer lemma for the SSN rule: if the rule does not match a suffix
`w ++ c :: u` of the pass input (the span replaced by the pass starting at
`c`, right after the non-word character ending `w`), it cannot match the
corresponding suffix `w ++ [REDACTED-…]…` of the pass output either. -/
theorem ssnF_seam (b : Bool) (w : Str) (c : Char) (u v : Str)
    (hn : ssnF b (w ++ c :: u) = none)
    (hlast : ∃ ch, w.get? (w.length - 1) = some ch ∧ isWordChar ch = false) :
    ssnF b (w ++ '[' :: v) = none := by
  obtain ⟨chL, hchL, hchw⟩ := hlast
  have hL : 1 ≤ w.length := by
    cases w with
    | nil => exact Option.noConfusion hchL
    | cons x xs => simp
  rw [ssnF_none_iff] at hn ⊢
  obtain ⟨L, hLdef⟩ : ∃ L, w.length = L := ⟨w.length, rfl⟩
  by_cases h10 : L ≤ 10
  · have hdig : isDigitAt (w ++ '[' :: v) L = false := by
      rw [← hLdef, isDigitAt_append_at]; decide
    have hhy : chAt (w ++ '[' :: v) L '-' = false := by
      rw [← hLdef, chAt_append_at]; decide
    rw [hLdef] at hL
    interval_cases L <;> simp [ssnShaped, hdig, hhy]
  · by_cases h11 : L = 11
    · subst h11
      have hbd : wordBoundary (w ++ '[' :: v) 11 = false := by
        unfold wordBoundary
        rw [if_neg (by decide)]
        have hw10 : isWordAt (w ++ '[' :: v) 10 = false := by
          unfold isWordAt
          rw [get?_append_lt w _ 10 (by omega)]
          rw [show (10 : Nat) = w.length - 1 by omega, hchL]
          exact hchw
        have hw11 : isWordAt (w ++ '[' :: v) 11 = false := by
          rw [show (11 : Nat) = w.length by omega, isWordAt_append_at]
          decide
        rw [hw10, hw11]
        rfl
      simp [ssnShaped, hbd]
    · have h12 : 12 ≤ w.length := by omega
      have hcong : ssnShaped b (w ++ '[' :: v) = ssnShaped b (w ++ c :: u) := by
        unfold ssnShaped
        rw [isWordAt_congr w '[' v c u 0 (by omega),
          isDigitAt_congr w '[' v c u 0 (by omega),
          isDigitAt_congr w '[' v c u 1 (by omega),
          isDigitAt_congr w '[' v c u 2 (by omega),
          chAt_congr w '[' v c u 3 '-' (by omega),
          isDigitAt_congr w '[' v c u 4 (by omega),
          isDigitAt_congr w '[' v c u 5 (by omega),
          chAt_congr w '[' v c u 6 '-' (by omega),
          isDigitAt_congr w '[' v c u 7 (by omega),
          isDigitAt_congr w '[' v c u 8 (by omega),
          isDigitAt_congr w '[' v c u 9 (by omega),
          isDigitAt_congr w '[' v c u 10 (by omega),
          wordBoundary_congr w '[' v c u 11 (by omega)]
      rw [hcong]
      exact hn

/-! ### Facts about `digitsRangeTail` -/

def dRTarm (cs : Str) (pos maxK d : Nat) : Option Nat :=
  if (List.range (maxK - d)).all (fun j => isDigitAt cs (pos + j)) &&
      wordBoundary cs (pos + (maxK - d)) then some (pos + (maxK - d)) else none

theorem digitsRangeTail_eq (cs : Str) (pos minK maxK : Nat) :
    digitsRangeTail cs pos minK maxK =
      (List.range (maxK - minK + 1)).findSome? (dRTarm cs pos maxK) := rfl

theorem dRT_none_iff (cs : Str) (pos minK maxK : Nat) (hm : minK ≤ maxK) :
    digitsRangeTail cs pos minK maxK = none ↔
    ∀ k, minK ≤ k → k ≤ maxK →
      ((List.range k).all (fun j => isDigitAt cs (pos + j)) && wordBoundary cs (pos + k)) =
        false := by
  rw [digitsRangeTail_eq, range_findSome?_eq_none_iff]
  constructor
  · intro h k hk1 hk2
    have hd := h (maxK - k) (by omega)
    unfold dRTarm at hd
    rw [show maxK - (maxK - k) = k by omega] at hd
    cases hc : (List.range k).all (fun j => isDigitAt cs (pos + j)) && wordBoundary cs (pos + k)
    · rfl
    · rw [hc] at hd; simp at hd
  · intro h d hd
    unfold dRTarm
    rw [h (maxK - d) (by omega) (by omega)]
    simp

theorem dRT_some_facts (cs : Str) (pos minK maxK e : Nat) (hm : minK ≤ maxK)
    (h : digitsRangeTail cs pos minK maxK = some e) :
    ∃ k, e = pos + k ∧ minK ≤ k ∧ k ≤ maxK ∧
      (∀ j, j < k → isDigitAt cs (pos + j) = true) ∧ wordBoundary cs (pos + k) = true := by
  rw [digitsRangeTail_eq] at h
  obtain ⟨d, hmem, harm⟩ := List.exists_of_findSome?_eq_some h
  have hd := List.mem_range.mp hmem
  unfold dRTarm at harm
  cases hc : (List.range (maxK - d)).all (fun j => isDigitAt cs (pos + j)) &&
      wordBoundary cs (pos + (maxK - d))
  · rw [hc] at harm; simp at harm
  · rw [hc] at harm
    simp only [if_true] at harm
    have he : e = pos + (maxK - d) := (Option.some.inj harm).symm
    simp only [Bool.and_eq_true, List.all_eq_true] at hc
    refine ⟨maxK - d, he, by omega, by omega, ?_, hc.2⟩
    intro j hj
    exact hc.1 j (List.mem_range.mpr hj)

theorem dRT_isSome_intro (cs : Str) (pos minK maxK k : Nat) (hk1 : minK ≤ k) (hk2 : k ≤ maxK)
    (hd : ∀ j, j < k → isDigitAt cs (pos + j) = true) (hb : wordBoundary cs (pos + k) = true) :
    (digitsRangeTail cs pos minK maxK).isSome = true := by
  rw [digitsRangeTail_eq]
  refine range_findSome?_isSome _ _ (maxK - k) (by omega) ?_
  unfold dRTarm
  rw [show maxK - (maxK - k) = k by omega]
  have hall : (List.range k).all (fun j => isDigitAt cs (pos + j)) = true := by
    rw [List.all_eq_true]
    intro j hj
    exact hd j (List.mem_range.mp hj)
  rw [hall, hb]
  rfl

/-! ### Facts about the labeled-number matchers (bank account / routing) -/

def lnfP2 (s : Str) (p1 : Nat) : Nat := if chAt s p1 '.' then p1 + 1 else p1

def lnfP3 (s : Str) (p1 : Nat) : Nat := lnfP2 s p1 + spaceRunFrom s (lnfP2 s p1)

def lnfP4 (s : Str) (p1 : Nat) : Nat :=
  if chAt s (lnfP3 s p1) '#' then lnfP3 s p1 + 1 else lnfP3 s p1

def lnfP5 (s : Str) (p1 : Nat) : Nat := lnfP4 s p1 + spaceRunFrom s (lnfP4 s p1)

theorem labeledNumberF_eq (kws : List Str) (minK maxK : Nat) (b : Bool) (s : Str) :
    labeledNumberF kws minK maxK b s =
      if b != isWordAt s 0 then
        match kws.findSome? (fun kw => if keywordAt s 0 kw then some kw.length else none) with
        | none => none
        | some p1 => digitsRangeTail s (lnfP5 s p1) minK maxK
      else none := rfl

theorem kwFind_nonword (kws : List Str) (c : Char) (xs : Str)
    (hheads : ∀ kw ∈ kws, ∃ k0, kw.get? 0 = some k0 ∧ isWordChar k0 = true)
    (h : isWordChar c = false) :
    kws.findSome? (fun kw => if keywordAt (c :: xs) 0 kw then some kw.length else none) =
      none := by
  rw [List.findSome?_eq_none_iff]
  intro kw hmem
  cases hkw : keywordAt (c :: xs) 0 kw
  · simp
  · exfalso
    obtain ⟨k0, hk0, hk0w⟩ := hheads kw hmem
    have hch := keywordAt_char _ 0 kw hkw 0 (lt_length_of_get?_some _ _ _ hk0)
    rw [hk0] at hch
    have htl : Char.toLower c = k0 := by simpa using hch
    rw [word_of_toLower c k0 hk0w htl] at h
    exact Bool.noConfusion h

theorem kwFind_empty (kws : List Str) (hne : ∀ kw ∈ kws, 0 < kw.length) :
    kws.findSome? (fun kw => if keywordAt ([] : Str) 0 kw then some kw.length else none) =
      none := by
  rw [List.findSome?_eq_none_iff]
  intro kw hmem
  cases hkw : keywordAt ([] : Str) 0 kw
  · simp
  · exfalso
    have hlen := keywordAt_length ([] : Str) 0 kw (hne kw hmem) hkw
    have h2 := hne kw hmem
    simp only [List.length_nil] at hlen
    omega

theorem lnf_empty (kws : List Str) (minK maxK : Nat) (b : Bool)
    (hne : ∀ kw ∈ kws, 0 < kw.length) :
    labeledNumberF kws minK maxK b [] = none := by
  rw [labeledNumberF_eq, kwFind_empty kws hne]
  split <;> rfl

theorem lnf_nonword_head (kws : List Str) (minK maxK : Nat) (b : Bool) (c : Char) (xs : Str)
    (hheads : ∀ kw ∈ kws, ∃ k0, kw.get? 0 = some k0 ∧ isWordChar k0 = true)
    (h : isWordChar c = false) :
    labeledNumberF kws minK maxK b (c :: xs) = none := by
  rw [labeledNumberF_eq, kwFind_nonword kws c xs hheads h]
  split <;> rfl

theorem lnf_prev_word (kws : List Str) (minK maxK : Nat) (c : Char) (xs : Str)
    (h : isWordChar c = true) :
    labeledNumberF kws minK maxK true (c :: xs) = none := by
  rw [labeledNumberF_eq, if_neg ?_]
  rw [isWordAt_cons, h]
  decide

theorem word_beq_false (c x : Char) (h : isWordChar c = true) (hx : isWordChar x = false) :
    (c == x) = false := by
  rw [beq_eq_false_iff_ne]
  exact word_ne_char c x h hx

theorem kwFind_some_facts (kws : List Str) (s : Str) (p1 : Nat)
    (h : kws.findSome? (fun kw => if keywordAt s 0 kw then some kw.length else none) =
      some p1) :
    ∃ K ∈ kws, keywordAt s 0 K = true ∧ p1 = K.length := by
  obtain ⟨K, hmem, harm⟩ := List.exists_of_findSome?_eq_some h
  cases hkw : keywordAt s 0 K
  · rw [hkw] at harm; simp at harm
  · rw [hkw] at harm
    simp only [if_true] at harm
    exact ⟨K, hmem, hkw, (Option.some.inj harm).symm⟩

theorem lnf_some_head (kws : List Str) (minK maxK : Nat) (b : Bool) (s : Str) (len : Nat)
    (hheads : ∀ kw ∈ kws, ∃ k0, kw.get? 0 = some k0 ∧ isWordChar k0 = true)
    (h : labeledNumberF kws minK maxK b s = some len) :
    ∃ c0 xs, s = c0 :: xs ∧ isWordChar c0 = true ∧ b = false := by
  rw [labeledNumberF_eq] at h
  by_cases hg : (b != isWordAt s 0) = true
  · rw [if_pos hg] at h
    cases hfind : kws.findSome?
        (fun kw => if keywordAt s 0 kw then some kw.length else none) with
    | none => rw [hfind] at h; simp at h
    | some p1 =>
      obtain ⟨K, hmem, hK, hp1⟩ := kwFind_some_facts kws s p1 hfind
      obtain ⟨k0, hk0, hk0w⟩ := hheads K hmem
      have hch := keywordAt_char s 0 K hK 0 (lt_length_of_get?_some _ _ _ hk0)
      rw [hk0] at hch
      cases hs0 : s.get? 0 with
      | none => rw [show (0 : Nat) + 0 = 0 from rfl, hs0] at hch; simp at hch
      | some c0 =>
        rw [show (0 : Nat) + 0 = 0 from rfl, hs0] at hch
        have htl : Char.toLower c0 = k0 := by simpa using hch
        have hw : isWordChar c0 = true := word_of_toLower c0 k0 hk0w htl
        cases s with
        | nil => exact Option.noConfusion hs0
        | cons x xs =>
          have hx : x = c0 := Option.some.inj hs0
          subst hx
          refine ⟨x, xs, rfl, hw, ?_⟩
          rw [isWordAt_cons, hw] at hg
          cases b
          · rfl
          · simp at hg
  · rw [if_neg hg] at h
    simp at h

theorem lnf_some_facts (kws : List Str) (minK maxK : Nat) (b : Bool) (s : Str) (len : Nat)
    (hm1 : 1 ≤ minK) (hm : minK ≤ maxK)
    (h : labeledNumberF kws minK maxK b s = some len) :
    1 ≤ len ∧ len ≤ s.length ∧ isWordAt s len = false := by
  rw [labeledNumberF_eq] at h
  by_cases hg : (b != isWordAt s 0) = true
  · rw [if_pos hg] at h
    cases hfind : kws.findSome?
        (fun kw => if keywordAt s 0 kw then some kw.length else none) with
    | none => rw [hfind] at h; simp at h
    | some p1 =>
      rw [hfind] at h
      obtain ⟨k, he, hk1, hk2, hdig, hbd⟩ := dRT_some_facts s (lnfP5 s p1) minK maxK len hm h
      have hklast := hdig (k - 1) (by omega)
      obtain ⟨ch, hch, hchd⟩ := isDigitAt_some s _ hklast
      have hlt := lt_length_of_get?_some s _ ch hch
      have hword : isWordAt s (lnfP5 s p1 + (k - 1)) = true :=
        isWordAt_of_isDigitAt s _ hklast
      refine ⟨by omega, by omega, ?_⟩
      unfold wordBoundary at hbd
      rw [if_neg (by omega)] at hbd
      rw [show lnfP5 s p1 + k - 1 = lnfP5 s p1 + (k - 1) by omega, hword] at hbd
      rw [he]
      cases hw : isWordAt s (lnfP5 s p1 + k)
      · rfl
      · rw [hw] at hbd; simp at hbd
  · rw [if_neg hg] at h
    simp at h

theorem chAt_seam (w : Str) (c : Char) (u v : Str) (p : Nat) (x : Char)
    (hp : p ≤ w.length) (hcx : (c == x) = false) (hbx : (('[' : Char) == x) = false) :
    chAt (w ++ '[' :: v) p x = chAt (w ++ c :: u) p x := by
  rcases Nat.lt_or_ge p w.length with hlt | hge
  · exact chAt_congr w '[' v c u p x hlt
  · have hpe : p = w.length := by omega
    subst hpe
    rw [chAt_append_at, chAt_append_at, hcx, hbx]

theorem spaceRun_seam (w : Str) (c : Char) (u v : Str) (p : Nat)
    (hp : p ≤ w.length) (hc : isPySpace c = false) :
    spaceRunFrom (w ++ '[' :: v) p = spaceRunFrom (w ++ c :: u) p ∧
    p + spaceRunFrom (w ++ '[' :: v) p ≤ w.length := by
  unfold spaceRunFrom
  rw [takeWhile_drop_seam _ w '[' v p hp (by decide), takeWhile_drop_seam _ w c u p hp hc]
  refine ⟨rfl, ?_⟩
  have := takeWhile_length_le isPySpace (w.drop p)
  rw [List.length_drop] at this
  omega

theorem lnfP2_seam (w : Str) (c : Char) (u v : Str) (p1 : Nat)
    (hp1 : p1 ≤ w.length) (hword : isWordChar c = true) :
    lnfP2 (w ++ '[' :: v) p1 = lnfP2 (w ++ c :: u) p1 ∧ lnfP2 (w ++ '[' :: v) p1 ≤ w.length := by
  unfold lnfP2
  rw [chAt_seam w c u v p1 '.' hp1 (word_beq_false c '.' hword (by decide)) (by decide)]
  refine ⟨rfl, ?_⟩
  split
  · rename_i hcond
    rcases Nat.lt_or_ge p1 w.length with hlt | hge
    · omega
    · exfalso
      have hpe : p1 = w.length := by omega
      rw [hpe, chAt_append_at, word_beq_false c '.' hword (by decide)] at hcond
      exact Bool.noConfusion hcond
  · exact hp1

theorem lnfP3_seam (w : Str) (c : Char) (u v : Str) (p1 : Nat)
    (hp1 : p1 ≤ w.length) (hword : isWordChar c = true) :
    lnfP3 (w ++ '[' :: v) p1 = lnfP3 (w ++ c :: u) p1 ∧ lnfP3 (w ++ '[' :: v) p1 ≤ w.length := by
  obtain ⟨he2, hb2⟩ := lnfP2_seam w c u v p1 hp1 hword
  unfold lnfP3
  rw [he2]
  obtain ⟨hs, hb⟩ := spaceRun_seam w c u v (lnfP2 (w ++ c :: u) p1) (he2 ▸ hb2)
    (word_not_space c hword)
  rw [hs]
  exact ⟨rfl, by rw [← hs]; exact hb⟩

theorem lnfP4_seam (w : Str) (c : Char) (u v : Str) (p1 : Nat)
    (hp1 : p1 ≤ w.length) (hword : isWordChar c = true) :
    lnfP4 (w ++ '[' :: v) p1 = lnfP4 (w ++ c :: u) p1 ∧ lnfP4 (w ++ '[' :: v) p1 ≤ w.length := by
  obtain ⟨he3, hb3⟩ := lnfP3_seam w c u v p1 hp1 hword
  unfold lnfP4
  rw [he3]
  rw [chAt_seam w c u v (lnfP3 (w ++ c :: u) p1) '#' (he3 ▸ hb3)
    (word_beq_false c '#' hword (by decide)) (by decide)]
  refine ⟨rfl, ?_⟩
  split
  · rename_i hcond
    rcases Nat.lt_or_ge (lnfP3 (w ++ c :: u) p1) w.length with hlt | hge
    · omega
    · exfalso
      have hb3e : lnfP3 (w ++ c :: u) p1 ≤ w.length := he3 ▸ hb3
      have hpe : lnfP3 (w ++ c :: u) p1 = w.length := by omega
      rw [hpe, chAt_append_at, word_beq_false c '#' hword (by decide)] at hcond
      exact Bool.noConfusion hcond
  · exact he3 ▸ hb3

theorem lnfP5_seam (w : Str) (c : Char) (u v : Str) (p1 : Nat)
    (hp1 : p1 ≤ w.length) (hword : isWordChar c = true) :
    lnfP5 (w ++ '[' :: v) p1 = lnfP5 (w ++ c :: u) p1 ∧ lnfP5 (w ++ '[' :: v) p1 ≤ w.length := by
  obtain ⟨he4, hb4⟩ := lnfP4_seam w c u v p1 hp1 hword
  unfold lnfP5
  rw [he4]
  obtain ⟨hs, hb⟩ := spaceRun_seam w c u v (lnfP4 (w ++ c :: u) p1) (he4 ▸ hb4)
    (word_not_space c hword)
  rw [hs]
  exact ⟨rfl, by rw [← hs]; exact hb⟩

/-- Transfer lemma for the labeled-number rules (bank account, routing). -/
theorem lnf_seam (kws : List Str) (minK maxK : Nat) (b : Bool) (w : Str) (c : Char) (u v : Str)
    (hm1 : 1 ≤ minK) (hm : minK ≤ maxK)
    (hp : kwPairwise kws = true)
    (hnb : ∀ kw ∈ kws, kw.all (fun ch => ch != '[') = true)
    (hword : isWordChar c = true)
    (hn : labeledNumberF kws minK maxK b (w ++ c :: u) = none)
    (hlast : ∃ ch, w.get? (w.length - 1) = some ch ∧ isWordChar ch = false) :
    labeledNumberF kws minK maxK b (w ++ '[' :: v) = none := by
  obtain ⟨chL, hchL, hchw⟩ := hlast
  have hL : 1 ≤ w.length := by
    cases w with
    | nil => exact Option.noConfusion hchL
    | cons x xs => simp
  cases ho : labeledNumberF kws minK maxK b (w ++ '[' :: v) with
  | none => rfl
  | some e =>
    exfalso
    rw [labeledNumberF_eq] at ho
    by_cases hg : (b != isWordAt (w ++ '[' :: v) 0) = true
    case neg => rw [if_neg hg] at ho; simp at ho
    rw [if_pos hg] at ho
    cases hfind : (kws.findSome?
        (fun kw => if keywordAt (w ++ '[' :: v) 0 kw then some kw.length else none)) with
    | none => rw [hfind] at ho; simp at ho
    | some p1 =>
      rw [hfind] at ho
      dsimp only at ho
      obtain ⟨K, hmem, hK, hp1⟩ := kwFind_some_facts kws _ p1 hfind
      have hfit : K.length ≤ w.length := by
        by_contra hcr
        rw [keywordAt_cross_bracket w v 0 K (by omega) (by omega) (hnb K hmem)] at hK
        exact Bool.noConfusion hK
      have hKS : keywordAt (w ++ c :: u) 0 K = true := by
        rw [← keywordAt_congr w ('[' :: v) (c :: u) 0 K (by omega)]
        exact hK
      have hfindS : kws.findSome?
          (fun kw => if keywordAt (w ++ c :: u) 0 kw then some kw.length else none) =
          some K.length := kwFind_unique _ kws hp K hmem hKS
      have hgS : (b != isWordAt (w ++ c :: u) 0) = true := by
        rw [isWordAt_congr w c u '[' v 0 (by omega)]
        exact hg
      rw [labeledNumberF_eq, if_pos hgS, hfindS] at hn
      dsimp only at hn
      rw [← hp1] at hn
      obtain ⟨he5, hb5⟩ := lnfP5_seam w c u v p1 (by omega) hword
      obtain ⟨k, hek, hk1, hk2, hdig, hbd⟩ := dRT_some_facts _ _ minK maxK e hm ho
      set p5 := lnfP5 (w ++ '[' :: v) p1 with hp5def
      have hdigbound : p5 + k ≤ w.length := by
        by_contra hcr
        have hj := hdig (w.length - p5) (by omega)
        rw [show p5 + (w.length - p5) = w.length by omega, isDigitAt_append_at] at hj
        exact absurd hj (by decide)
      rcases Nat.lt_or_ge (p5 + k) w.length with hlt | hge
      · have hdigS : ∀ j, j < k → isDigitAt (w ++ c :: u) (p5 + j) = true := by
          intro j hj
          rw [isDigitAt_congr w c u '[' v (p5 + j) (by omega)]
          exact hdig j hj
        have hbdS : wordBoundary (w ++ c :: u) (p5 + k) = true := by
          rw [wordBoundary_congr w c u '[' v (p5 + k) hlt]
          exact hbd
        have hsomeS := dRT_isSome_intro (w ++ c :: u) p5 minK maxK k hk1 hk2 hdigS hbdS
        rw [← he5] at hn
        rw [hn] at hsomeS
        exact Bool.noConfusion hsomeS
      · have hpe : p5 + k = w.length := by omega
        unfold wordBoundary at hbd
        rw [if_neg (by omega), hpe] at hbd
        have hwL : isWordAt (w ++ '[' :: v) w.length = false := by
          rw [isWordAt_append_at]; decide
        have hwL1 : isWordAt (w ++ '[' :: v) (w.length - 1) = false := by
          unfold isWordAt
          rw [get?_append_lt w _ _ (by omega), hchL]
          exact hchw
        rw [hwL, hwL1] at hbd
        exact Bool.noConfusion hbd

/-! ### Facts about the password matcher -/

def pwdKws : List Str :=
  [strOf "password", strOf "passwd", strOf "pwd", strOf "pin", strOf "passcode"]

def pwdArm (s : Str) (p1 m d : Nat) : Option Nat :=
  if 1 ≤ nonSpaceRunFrom s (p1 + (m - d)) then
    some (p1 + (m - d) + nonSpaceRunFrom s (p1 + (m - d))) else none

theorem passwordF_eq (b : Bool) (s : Str) :
    passwordF b s =
      if b != isWordAt s 0 then
        match pwdKws.findSome? (fun kw => if keywordAt s 0 kw then some kw.length else none) with
        | none => none
        | some p1 => (List.range (sepRunFrom s p1)).findSome? (pwdArm s p1 (sepRunFrom s p1))
      else none := rfl

theorem pwdKws_heads : ∀ kw ∈ pwdKws, ∃ k0, kw.get? 0 = some k0 ∧ isWordChar k0 = true := by
  intro kw hmem
  fin_cases hmem <;> exact ⟨'p', rfl, by decide⟩

theorem pwdKws_ne : ∀ kw ∈ pwdKws, 0 < kw.length := by decide

theorem pwdKws_nb : ∀ kw ∈ pwdKws, kw.all (fun ch => ch != '[') = true := by decide

theorem pwdKws_pw : kwPairwise pwdKws = true := by decide

theorem space_not_word (ch : Char) (h : isPySpace ch = true) : isWordChar ch = false := by
  cases hw : isWordChar ch
  · rfl
  · rw [word_not_space ch hw] at h
    exact Bool.noConfusion h

theorem pwd_empty (b : Bool) : passwordF b [] = none := by
  rw [passwordF_eq, kwFind_empty pwdKws pwdKws_ne]
  split <;> rfl

theorem pwd_nonword_head (b : Bool) (c : Char) (xs : Str) (h : isWordChar c = false) :
    passwordF b (c :: xs) = none := by
  rw [passwordF_eq, kwFind_nonword pwdKws c xs pwdKws_heads h]
  split <;> rfl

theorem pwd_prev_word (c : Char) (xs : Str) (h : isWordChar c = true) :
    passwordF true (c :: xs) = none := by
  rw [passwordF_eq, if_neg ?_]
  rw [isWordAt_cons, h]
  decide

theorem pwd_some_head (b : Bool) (s : Str) (len : Nat)
    (h : passwordF b s = some len) :
    ∃ c0 xs, s = c0 :: xs ∧ isWordChar c0 = true ∧ b = false := by
  rw [passwordF_eq] at h
  by_cases hg : (b != isWordAt s 0) = true
  · rw [if_pos hg] at h
    cases hfind : pwdKws.findSome?
        (fun kw => if keywordAt s 0 kw then some kw.length else none) with
    | none => rw [hfind] at h; simp at h
    | some p1 =>
      obtain ⟨K, hmem, hK, hp1⟩ := kwFind_some_facts pwdKws s p1 hfind
      obtain ⟨k0, hk0, hk0w⟩ := pwdKws_heads K hmem
      have hch := keywordAt_char s 0 K hK 0 (lt_length_of_get?_some _ _ _ hk0)
      rw [hk0] at hch
      cases hs0 : s.get? 0 with
      | none => rw [show (0 : Nat) + 0 = 0 from rfl, hs0] at hch; simp at hch
      | some c0 =>
        rw [show (0 : Nat) + 0 = 0 from rfl, hs0] at hch
        have htl : Char.toLower c0 = k0 := by simpa using hch
        have hw : isWordChar c0 = true := word_of_toLower c0 k0 hk0w htl
        cases s with
        | nil => exact Option.noConfusion hs0
        | cons x xs =>
          have hx : x = c0 := Option.some.inj hs0
          subst hx
          refine ⟨x, xs, rfl, hw, ?_⟩
          rw [isWordAt_cons, hw] at hg
          cases b
          · rfl
          · simp at hg
  · rw [if_neg hg] at h
    simp at h

theorem pwd_some_facts (b : Bool) (s : Str) (len : Nat) (h : passwordF b s = some len) :
    1 ≤ len ∧ len ≤ s.length ∧ isWordAt s len = false := by
  rw [passwordF_eq] at h
  by_cases hg : (b != isWordAt s 0) = true
  case neg => rw [if_neg hg] at h; simp at h
  rw [if_pos hg] at h
  cases hfind : pwdKws.findSome?
      (fun kw => if keywordAt s 0 kw then some kw.length else none) with
  | none => rw [hfind] at h; simp at h
  | some p1 =>
    rw [hfind] at h
    dsimp only at h
    obtain ⟨d, hmem, harm⟩ := List.exists_of_findSome?_eq_some h
    unfold pwdArm at harm
    by_cases hr : 1 ≤ nonSpaceRunFrom s (p1 + (sepRunFrom s p1 - d))
    case neg => rw [if_neg hr] at harm; exact Option.noConfusion harm
    rw [if_pos hr] at harm
    set q := p1 + (sepRunFrom s p1 - d) with hqdef
    set r := nonSpaceRunFrom s q with hrdef
    have hlen : len = q + r := (Option.some.inj harm).symm
    have hqr : q + r ≤ s.length := by
      obtain ⟨ch, hch, _⟩ := takeWhile_get?_lt (fun ch2 => !isPySpace ch2) (s.drop q) (r - 1)
        (by rw [hrdef] at hr ⊢; unfold nonSpaceRunFrom at hr ⊢; omega)
      rw [get?_drop_add] at hch
      have := lt_length_of_get?_some s _ ch hch
      omega
    refine ⟨by omega, by omega, ?_⟩
    rcases takeWhile_stop_char (fun ch2 => !isPySpace ch2) (s.drop q) with hstop | ⟨ch, hch, hchf⟩
    · rw [get?_drop_add] at hstop
      unfold isWordAt
      rw [hlen]
      have hstop2 : s.get? (q + r) = none := by
        rw [hrdef]
        unfold nonSpaceRunFrom
        exact hstop
      rw [hstop2]
    · rw [get?_drop_add] at hch
      have hch2 : s.get? (q + r) = some ch := by
        rw [hrdef]
        unfold nonSpaceRunFrom
        exact hch
      have hsp : isPySpace ch = true := by
        cases hx : isPySpace ch
        · rw [hx] at hchf; exact Bool.noConfusion hchf
        · rfl
      unfold isWordAt
      rw [hlen, hch2]
      exact space_not_word ch hsp

theorem word_not_sep (c : Char) (h : isWordChar c = true) :
    ((c = ':' : Bool) || isPySpace c) = false := by
  rw [word_not_space c h, decide_eq_false (word_ne_char c ':' h (by decide))]
  rfl

theorem sepRun_seam (w : Str) (c : Char) (u v : Str) (p : Nat)
    (hp : p ≤ w.length) (hword : isWordChar c = true) :
    sepRunFrom (w ++ '[' :: v) p = sepRunFrom (w ++ c :: u) p ∧
    p + sepRunFrom (w ++ '[' :: v) p ≤ w.length := by
  unfold sepRunFrom
  rw [takeWhile_drop_seam _ w '[' v p hp (by decide),
    takeWhile_drop_seam _ w c u p hp (word_not_sep c hword)]
  refine ⟨rfl, ?_⟩
  have := takeWhile_length_le (fun ch => (ch = ':' : Bool) || isPySpace ch) (w.drop p)
  rw [List.length_drop] at this
  omega

/-- Transfer lemma for the password rule. -/
theorem pwd_seam (b : Bool) (w : Str) (c : Char) (u v : Str)
    (hword : isWordChar c = true)
    (hn : passwordF b (w ++ c :: u) = none)
    (hlast : ∃ ch, w.get? (w.length - 1) = some ch ∧ isWordChar ch = false) :
    passwordF b (w ++ '[' :: v) = none := by
  obtain ⟨chL, hchL, hchw⟩ := hlast
  have hL : 1 ≤ w.length := by
    cases w with
    | nil => exact Option.noConfusion hchL
    | cons x xs => simp
  cases ho : passwordF b (w ++ '[' :: v) with
  | none => rfl
  | some e =>
    exfalso
    rw [passwordF_eq] at ho
    by_cases hg : (b != isWordAt (w ++ '[' :: v) 0) = true
    case neg => rw [if_neg hg] at ho; simp at ho
    rw [if_pos hg] at ho
    cases hfind : (pwdKws.findSome?
        (fun kw => if keywordAt (w ++ '[' :: v) 0 kw then some kw.length else none)) with
    | none => rw [hfind] at ho; simp at ho
    | some p1 =>
      rw [hfind] at ho
      dsimp only at ho
      obtain ⟨K, hmem, hK, hp1⟩ := kwFind_some_facts pwdKws _ p1 hfind
      have hfit : K.length ≤ w.length := by
        by_contra hcr
        rw [keywordAt_cross_bracket w v 0 K (by omega) (by omega) (pwdKws_nb K hmem)] at hK
        exact Bool.noConfusion hK
      have hKS : keywordAt (w ++ c :: u) 0 K = true := by
        rw [← keywordAt_congr w ('[' :: v) (c :: u) 0 K (by omega)]
        exact hK
      have hfindS : pwdKws.findSome?
          (fun kw => if keywordAt (w ++ c :: u) 0 kw then some kw.length else none) =
          some K.length := kwFind_unique _ pwdKws pwdKws_pw K hmem hKS
      have hgS : (b != isWordAt (w ++ c :: u) 0) = true := by
        rw [isWordAt_congr w c u '[' v 0 (by omega)]
        exact hg
      rw [passwordF_eq, if_pos hgS, hfindS] at hn
      dsimp only at hn
      rw [← hp1] at hn
      obtain ⟨hme, hmb⟩ := sepRun_seam w c u v p1 (by omega) hword
      rw [hme] at ho
      obtain ⟨d, hdmem, harm⟩ := List.exists_of_findSome?_eq_some ho
      have hdlt := List.mem_range.mp hdmem
      unfold pwdArm at harm
      by_cases hr : 1 ≤ nonSpaceRunFrom (w ++ '[' :: v) (p1 + (sepRunFrom (w ++ c :: u) p1 - d))
      case neg => rw [if_neg hr] at harm; exact Option.noConfusion harm
      set m := sepRunFrom (w ++ c :: u) p1 with hmdef
      set q := p1 + (m - d) with hqdef
      have hq : q ≤ w.length := by
        rw [hme] at hmb
        omega
      unfold nonSpaceRunFrom at hr
      rw [takeWhile_pos_iff] at hr
      obtain ⟨ch, hch, hchns⟩ := hr
      rw [get?_drop_add, Nat.add_zero] at hch
      have hSx : ∃ ch2, (w ++ c :: u).get? q = some ch2 ∧ isPySpace ch2 = false := by
        rcases Nat.lt_or_ge q w.length with hlt | hge
        · refine ⟨ch, ?_, ?_⟩
          · rw [get?_append_lt w _ q hlt] at hch ⊢
            exact hch
          · cases hx : isPySpace ch
            · rfl
            · rw [hx] at hchns; simp at hchns
        · have hqe : q = w.length := by omega
          refine ⟨c, ?_, word_not_space c hword⟩
          rw [hqe]
          exact get?_append_at w c u
      obtain ⟨ch2, hch2, hch2ns⟩ := hSx
      have hrS : (pwdArm (w ++ c :: u) p1 m d).isSome = true := by
        unfold pwdArm
        rw [if_pos ?_]
        · rfl
        · unfold nonSpaceRunFrom
          rw [takeWhile_pos_iff]
          refine ⟨ch2, ?_, by rw [hch2ns]; rfl⟩
          rw [get?_drop_add, Nat.add_zero]
          exact hch2
      have := range_findSome?_isSome m (pwdArm (w ++ c :: u) p1 m) d hdlt hrS
      rw [hn] at this
      exact Bool.noConfusion this

/-! ### Facts about the api-key matcher -/

def keyKws : List Str := [strOf "token", strOf "secret", strOf "bearer"]

def apiP1 (s : Str) : Nat := if chAt s 3 '_' || chAt s 3 '-' then 4 else 3

theorem apiKeyKeyword_eq (s : Str) :
    apiKeyKeyword s =
      if keywordAt s 0 (strOf "api") then
        (if keywordAt s (apiP1 s) (strOf "key") then some (apiP1 s + 3) else none)
      else none := rfl

def keyArm (s : Str) (p2 r d : Nat) : Option Nat :=
  if wordBoundary s (p2 + (r - d)) then some (p2 + (r - d)) else none

def apiKwFind (s : Str) : Option Nat :=
  match apiKeyKeyword s with
  | some p => some p
  | none => keyKws.findSome? (fun kw => if keywordAt s 0 kw then some kw.length else none)

theorem apiKeyF_eq (b : Bool) (s : Str) :
    apiKeyF b s =
      if b != isWordAt s 0 then
        match apiKwFind s with
        | none => none
        | some p1 =>
          if sepRunFrom s p1 = 0 then none
          else if keyRunFrom s (p1 + sepRunFrom s p1) < 20 then none
          else
            (List.range (keyRunFrom s (p1 + sepRunFrom s p1) - 20 + 1)).findSome?
              (keyArm s (p1 + sepRunFrom s p1) (keyRunFrom s (p1 + sepRunFrom s p1)))
      else none := rfl

theorem keyKws_heads : ∀ kw ∈ keyKws, ∃ k0, kw.get? 0 = some k0 ∧ isWordChar k0 = true := by
  intro kw hmem
  fin_cases hmem
  · exact ⟨'t', rfl, by decide⟩
  · exact ⟨'s', rfl, by decide⟩
  · exact ⟨'b', rfl, by decide⟩

theorem keyKws_ne : ∀ kw ∈ keyKws, 0 < kw.length := by decide

theorem keyKws_nb : ∀ kw ∈ keyKws, kw.all (fun ch => ch != '[') = true := by decide

theorem keyKws_pw : kwPairwise keyKws = true := by decide

theorem apiKeyKeyword_none_of_no_api (s : Str) (h : keywordAt s 0 (strOf "api") = false) :
    apiKeyKeyword s = none := by
  rw [apiKeyKeyword_eq, h]
  rfl

theorem apiKwFind_empty : apiKwFind ([] : Str) = none := by
  unfold apiKwFind
  rw [apiKeyKeyword_none_of_no_api _ ?_, kwFind_empty keyKws keyKws_ne]
  cases hkw : keywordAt ([] : Str) 0 (strOf "api")
  · rfl
  · exfalso
    have := keywordAt_length ([] : Str) 0 _ (by decide) hkw
    simp [strOf] at this

theorem apiKwFind_nonword (c : Char) (xs : Str) (h : isWordChar c = false) :
    apiKwFind (c :: xs) = none := by
  unfold apiKwFind
  rw [apiKeyKeyword_none_of_no_api _ ?_, kwFind_nonword keyKws c xs keyKws_heads h]
  cases hkw : keywordAt (c :: xs) 0 (strOf "api")
  · rfl
  · exfalso
    have hch := keywordAt_char _ 0 _ hkw 0 (by decide)
    have htl : Char.toLower c = 'a' := by simpa [strOf] using hch
    rw [word_of_toLower c 'a' (by decide) htl] at h
    exact Bool.noConfusion h

theorem apiKey_empty (b : Bool) : apiKeyF b [] = none := by
  rw [apiKeyF_eq, apiKwFind_empty]
  split <;> rfl

theorem apiKey_nonword_head (b : Bool) (c : Char) (xs : Str) (h : isWordChar c = false) :
    apiKeyF b (c :: xs) = none := by
  rw [apiKeyF_eq, apiKwFind_nonword c xs h]
  split <;> rfl

theorem apiKey_prev_word (c : Char) (xs : Str) (h : isWordChar c = true) :
    apiKeyF true (c :: xs) = none := by
  rw [apiKeyF_eq, if_neg ?_]
  rw [isWordAt_cons, h]
  decide

theorem apiKwFind_some_head (s : Str) (p1 : Nat) (h : apiKwFind s = some p1) :
    ∃ c0 xs, s = c0 :: xs ∧ isWordChar c0 = true := by
  unfold apiKwFind at h
  cases hak : apiKeyKeyword s with
  | some p =>
    rw [apiKeyKeyword_eq] at hak
    by_cases hapi : keywordAt s 0 (strOf "api") = true
    · have hch := keywordAt_char s 0 _ hapi 0 (by decide)
      cases hs0 : s.get? 0 with
      | none => rw [show (0 : Nat) + 0 = 0 from rfl, hs0] at hch; simp [strOf] at hch
      | some c0 =>
        rw [show (0 : Nat) + 0 = 0 from rfl, hs0] at hch
        have htl : Char.toLower c0 = 'a' := by simpa [strOf] using hch
        have hw : isWordChar c0 = true := word_of_toLower c0 'a' (by decide) htl
        cases s with
        | nil => exact Option.noConfusion hs0
        | cons x xs => exact ⟨x, xs, rfl, Option.some.inj hs0 ▸ hw⟩
    · rw [if_neg hapi] at hak
      exact Option.noConfusion hak
  | none =>
    rw [hak] at h
    dsimp only at h
    obtain ⟨K, hmem, hK, hp1⟩ := kwFind_some_facts keyKws s p1 h
    obtain ⟨k0, hk0, hk0w⟩ := keyKws_heads K hmem
    have hch := keywordAt_char s 0 K hK 0 (lt_length_of_get?_some _ _ _ hk0)
    rw [hk0] at hch
    cases hs0 : s.get? 0 with
    | none => rw [show (0 : Nat) + 0 = 0 from rfl, hs0] at hch; simp at hch
    | some c0 =>
      rw [show (0 : Nat) + 0 = 0 from rfl, hs0] at hch
      have htl : Char.toLower c0 = k0 := by simpa using hch
      have hw : isWordChar c0 = true := word_of_toLower c0 k0 hk0w htl
      cases s with
      | nil => exact Option.noConfusion hs0
      | cons x xs => exact ⟨x, xs, rfl, Option.some.inj hs0 ▸ hw⟩

theorem apiKey_some_head (b : Bool) (s : Str) (len : Nat) (h : apiKeyF b s = some len) :
    ∃ c0 xs, s = c0 :: xs ∧ isWordChar c0 = true ∧ b = false := by
  rw [apiKeyF_eq] at h
  by_cases hg : (b != isWordAt s 0) = true
  · rw [if_pos hg] at h
    cases hfind : apiKwFind s with
    | none => rw [hfind] at h; simp at h
    | some p1 =>
      obtain ⟨c0, xs, hs, hw⟩ := apiKwFind_some_head s p1 hfind
      subst hs
      refine ⟨c0, xs, rfl, hw, ?_⟩
      rw [isWordAt_cons, hw] at hg
      cases b
      · rfl
      · simp at hg
  · rw [if_neg hg] at h
    simp at h

/-- The api-key rule's greedy `{20,}`-with-`\b` backtracking always ends the
match on a word character (if the backtracking stopped at an end whose last
character were non-word, the boundary would force a word character right
after it, which extends the value-class run, and the first boundary inside
that word run would have been found earlier by the descending search). -/
theorem apiKey_some_facts (b : Bool) (s : Str) (len : Nat) (h : apiKeyF b s = some len) :
    1 ≤ len ∧ len ≤ s.length ∧ isWordAt s len = false := by
  rw [apiKeyF_eq] at h
  by_cases hg : (b != isWordAt s 0) = true
  case neg => rw [if_neg hg] at h; simp at h
  rw [if_pos hg] at h
  cases hfind : apiKwFind s with
  | none => rw [hfind] at h; simp at h
  | some p1 =>
    rw [hfind] at h
    dsimp only at h
    by_cases hm0 : sepRunFrom s p1 = 0
    case pos => rw [if_pos hm0] at h; exact Option.noConfusion h
    rw [if_neg hm0] at h
    set p2 := p1 + sepRunFrom s p1 with hp2def
    set r := keyRunFrom s p2 with hrdef
    by_cases hr20 : r < 20
    case pos => rw [if_pos hr20] at h; exact Option.noConfusion h
    rw [if_neg hr20] at h
    obtain ⟨d, hdlt, harm, hfirst⟩ := range_findSome?_first _ _ len h
    unfold keyArm at harm
    by_cases hbd : wordBoundary s (p2 + (r - d)) = true
    case neg => rw [if_neg hbd] at harm; exact Option.noConfusion harm
    rw [if_pos hbd] at harm
    have hlen : len = p2 + (r - d) := (Option.some.inj harm).symm
    set k := r - d with hkdef
    have hk20 : 20 ≤ k := by omega
    have hkr : k ≤ r := by omega
    -- the matched characters exist in the string
    have hrun : ∀ j, j < r → ∃ ch, s.get? (p2 + j) = some ch ∧ isKeyChar ch = true := by
      intro j hj
      obtain ⟨ch, hch, hchk⟩ := takeWhile_get?_lt isKeyChar (s.drop p2) j
        (by rw [hrdef] at hj; unfold keyRunFrom at hj; exact hj)
      rw [get?_drop_add] at hch
      exact ⟨ch, hch, hchk⟩
    have hle : p2 + k ≤ s.length := by
      obtain ⟨ch, hch, _⟩ := hrun (k - 1) (by omega)
      have := lt_length_of_get?_some s _ ch hch
      omega
    refine ⟨by omega, by omega, ?_⟩
    -- last matched character is a word character
    have hword1 : isWordAt s (p2 + k - 1) = true := by
      by_contra hnw
      have hnwf : isWordAt s (p2 + k - 1) = false := Bool.eq_false_iff.mpr hnw
      have hnext : isWordAt s (p2 + k) = true := by
        unfold wordBoundary at hbd
        rw [if_neg (by omega), hnwf] at hbd
        simpa using hbd
      -- every later position inside the class run stays a word character
      have hup : ∀ j, k + j ≤ r → isWordAt s (p2 + (k + j)) = true := by
        intro j
        induction j with
        | zero => intro _; simpa using hnext
        | succ j2 ih =>
          intro hj2
          have hprev := ih (by omega)
          have harm2 := hfirst (r - (k + j2 + 1)) (by omega)
          unfold keyArm at harm2
          have hnb : wordBoundary s (p2 + (r - (r - (k + j2 + 1)))) = false := by
            cases hx : wordBoundary s (p2 + (r - (r - (k + j2 + 1))))
            · rfl
            · rw [hx] at harm2; simp at harm2
          rw [show r - (r - (k + j2 + 1)) = k + j2 + 1 by omega] at hnb
          unfold wordBoundary at hnb
          rw [if_neg (by omega), show p2 + (k + j2 + 1) - 1 = p2 + (k + j2) by omega,
            hprev] at hnb
          simpa using hnb
      have hend := hup (r - k) (by omega)
      rw [show k + (r - k) = r by omega] at hend
      -- but the class run stops at r
      unfold isWordAt at hend
      rcases takeWhile_stop_char isKeyChar (s.drop p2) with hstop | ⟨ch, hch, hchf⟩
      · rw [get?_drop_add] at hstop
        have : s.get? (p2 + r) = none := by
          rw [hrdef]; unfold keyRunFrom; exact hstop
        rw [this] at hend
        exact Bool.noConfusion hend
      · rw [get?_drop_add] at hch
        have hch2 : s.get? (p2 + r) = some ch := by
          rw [hrdef]; unfold keyRunFrom; exact hch
        rw [hch2] at hend
        rw [isKeyChar_of_word ch hend] at hchf
        exact Bool.noConfusion hchf
    -- hence the character after the match is non-word
    unfold wordBoundary at hbd
    rw [if_neg (by omega), hword1] at hbd
    rw [hlen]
    simpa using hbd

theorem keyRun_seam (w : Str) (c : Char) (u v : Str) (p2 : Nat)
    (hp : p2 ≤ w.length) (hword : isWordChar c = true) :
    (keyRunFrom (w ++ '[' :: v) p2 = keyRunFrom (w ++ c :: u) p2 ∧
      p2 + keyRunFrom (w ++ '[' :: v) p2 < w.length) ∨
    (p2 + keyRunFrom (w ++ '[' :: v) p2 = w.length ∧
      keyRunFrom (w ++ '[' :: v) p2 + 1 ≤ keyRunFrom (w ++ c :: u) p2) := by
  unfold keyRunFrom
  rw [List.drop_append_of_le_length hp, List.drop_append_of_le_length hp,
    takeWhile_append_stop isKeyChar (w.drop p2) v '[' (by decide)]
  set A := w.drop p2 with hAdef
  have hAlen : A.length = w.length - p2 := by rw [hAdef, List.length_drop]
  rcases Nat.lt_or_ge (A.takeWhile isKeyChar).length A.length with hlt | hge
  · left
    rw [takeWhile_append_of_lt isKeyChar A (c :: u) hlt]
    exact ⟨rfl, by omega⟩
  · right
    have heq : (A.takeWhile isKeyChar).length = A.length :=
      Nat.le_antisymm (takeWhile_length_le _ _) hge
    have hall := all_of_takeWhile_full isKeyChar A heq
    have hfill := runFrom_fill isKeyChar A c u hall (isKeyChar_of_word c hword)
    exact ⟨by omega, by omega⟩

/-- Transfer lemma for the api-key rule. -/
theorem apiKey_seam (b : Bool) (w : Str) (c : Char) (u v : Str)
    (hword : isWordChar c = true)
    (hn : apiKeyF b (w ++ c :: u) = none)
    (hlast : ∃ ch, w.get? (w.length - 1) = some ch ∧ isWordChar ch = false) :
    apiKeyF b (w ++ '[' :: v) = none := by
  obtain ⟨chL, hchL, hchw⟩ := hlast
  have hL : 1 ≤ w.length := by
    cases w with
    | nil => exact Option.noConfusion hchL
    | cons x xs => simp
  cases ho : apiKeyF b (w ++ '[' :: v) with
  | none => rfl
  | some e =>
    exfalso
    rw [apiKeyF_eq] at ho
    by_cases hg : (b != isWordAt (w ++ '[' :: v) 0) = true
    case neg => rw [if_neg hg] at ho; simp at ho
    rw [if_pos hg] at ho
    cases hfind : apiKwFind (w ++ '[' :: v) with
    | none => rw [hfind] at ho; simp at ho
    | some p1 =>
      rw [hfind] at ho
      dsimp only at ho
      -- transfer the keyword part and bound it inside w
      have hkwS : apiKwFind (w ++ c :: u) = some p1 ∧ p1 ≤ w.length := by
        unfold apiKwFind at hfind ⊢
        cases hak : apiKeyKeyword (w ++ '[' :: v) with
        | some p =>
          rw [hak] at hfind
          dsimp only at hfind
          have hp1p : p1 = p := (Option.some.inj hfind).symm
          rw [apiKeyKeyword_eq] at hak
          by_cases hapi : keywordAt (w ++ '[' :: v) 0 (strOf "api") = true
          case neg => rw [if_neg hapi] at hak; exact Option.noConfusion hak
          rw [if_pos hapi] at hak
          by_cases hkey : keywordAt (w ++ '[' :: v) (apiP1 (w ++ '[' :: v)) (strOf "key") = true
          case neg => rw [if_neg hkey] at hak; exact Option.noConfusion hak
          rw [if_pos hkey] at hak
          have hp : p = apiP1 (w ++ '[' :: v) + 3 := (Option.some.inj hak).symm
          have h3L : 3 ≤ w.length := by
            by_contra hcr
            rw [keywordAt_cross_bracket w v 0 (strOf "api") (by omega)
              (by simp [strOf]; omega) (by decide)] at hapi
            exact Bool.noConfusion hapi
          rcases Nat.lt_or_ge 3 w.length with h3lt | h3ge
          · have hP1e : apiP1 (w ++ '[' :: v) = apiP1 (w ++ c :: u) := by
              unfold apiP1
              rw [chAt_congr w '[' v c u 3 '_' h3lt, chAt_congr w '[' v c u 3 '-' h3lt]
            have hpk4 : apiP1 (w ++ '[' :: v) ≤ 4 := by
              unfold apiP1
              split <;> omega
            have hkfit : apiP1 (w ++ '[' :: v) + 3 ≤ w.length := by
              by_contra hcr
              rw [keywordAt_cross_bracket w v (apiP1 (w ++ '[' :: v)) (strOf "key")
                (by omega) (by simp [strOf]; omega) (by decide)] at hkey
              exact Bool.noConfusion hkey
            have hapiS : keywordAt (w ++ c :: u) 0 (strOf "api") = true := by
              rw [← keywordAt_congr w ('[' :: v) (c :: u) 0 (strOf "api")
                (by simp [strOf]; omega)]
              exact hapi
            have hkeyS : keywordAt (w ++ c :: u) (apiP1 (w ++ c :: u)) (strOf "key") =
                true := by
              rw [← hP1e, ← keywordAt_congr w ('[' :: v) (c :: u) (apiP1 (w ++ '[' :: v))
                (strOf "key") (by simp [strOf]; omega)]
              exact hkey
            rw [apiKeyKeyword_eq, if_pos hapiS, if_pos hkeyS]
            dsimp only
            constructor
            · rw [hp1p, hp, hP1e]
            · rw [hp1p, hp]
              omega
          · exfalso
            have h3e : 3 = w.length := by omega
            have hP13 : apiP1 (w ++ '[' :: v) = 3 := by
              unfold apiP1
              have hch1 : chAt (w ++ '[' :: v) 3 '_' = false := by
                rw [show (3 : Nat) = w.length by omega, chAt_append_at]; decide
              have hch2 : chAt (w ++ '[' :: v) 3 '-' = false := by
                rw [show (3 : Nat) = w.length by omega, chAt_append_at]; decide
              rw [hch1, hch2]
              rfl
            rw [hP13, keywordAt_cross_bracket w v 3 (strOf "key") (by omega)
              (by simp [strOf]; omega) (by decide)] at hkey
            exact Bool.noConfusion hkey
        | none =>
          rw [hak] at hfind
          dsimp only at hfind
          obtain ⟨K, hmem, hK, hp1⟩ := kwFind_some_facts keyKws _ p1 hfind
          have hfit : K.length ≤ w.length := by
            by_contra hcr
            rw [keywordAt_cross_bracket w v 0 K (by omega) (by omega)
              (keyKws_nb K hmem)] at hK
            exact Bool.noConfusion hK
          have hKS : keywordAt (w ++ c :: u) 0 K = true := by
            rw [← keywordAt_congr w ('[' :: v) (c :: u) 0 K (by omega)]
            exact hK
          have hakS : apiKeyKeyword (w ++ c :: u) = none := by
            apply apiKeyKeyword_none_of_no_api
            cases hapiS : keywordAt (w ++ c :: u) 0 (strOf "api")
            · rfl
            · exfalso
              have hchS := keywordAt_char _ 0 _ hapiS 0 (by decide)
              have hchO := keywordAt_char _ 0 K hK 0 (by
                obtain ⟨k0, hk0, _⟩ := keyKws_heads K hmem
                exact lt_length_of_get?_some _ _ _ hk0)
              have h00 : (w ++ '[' :: v).get? 0 = (w ++ c :: u).get? 0 := by
                rw [get?_append_lt w _ 0 (by omega), get?_append_lt w _ 0 (by omega)]
              rw [show (0 : Nat) + 0 = 0 from rfl] at hchS hchO
              rw [h00, hchS] at hchO
              fin_cases hmem <;> simp [strOf] at hchO
          rw [hakS]
          dsimp only
          rw [kwFind_unique _ keyKws keyKws_pw K hmem hKS, hp1]
          exact ⟨rfl, by omega⟩
      obtain ⟨hkwSe, hp1L⟩ := hkwS
      have hgS : (b != isWordAt (w ++ c :: u) 0) = true := by
        rw [isWordAt_congr w c u '[' v 0 (by omega)]
        exact hg
      rw [apiKeyF_eq, if_pos hgS, hkwSe] at hn
      dsimp only at hn
      obtain ⟨hme, hmb⟩ := sepRun_seam w c u v p1 hp1L hword
      rw [hme] at ho hmb
      by_cases hm0 : sepRunFrom (w ++ c :: u) p1 = 0
      case pos => rw [if_pos hm0] at ho; exact Option.noConfusion ho
      rw [if_neg hm0] at ho hn
      set p2 := p1 + sepRunFrom (w ++ c :: u) p1 with hp2def
      rcases keyRun_seam w c u v p2 hmb hword with ⟨hre, hrb⟩ | ⟨hrL, hrS⟩
      · rw [hre] at ho
        by_cases hr20 : keyRunFrom (w ++ c :: u) p2 < 20
        case pos => rw [if_pos hr20] at ho; exact Option.noConfusion ho
        rw [if_neg hr20] at ho hn
        obtain ⟨d, hdmem, harm⟩ := List.exists_of_findSome?_eq_some ho
        have hdlt := List.mem_range.mp hdmem
        unfold keyArm at harm
        by_cases hbd : wordBoundary (w ++ '[' :: v)
            (p2 + (keyRunFrom (w ++ c :: u) p2 - d)) = true
        case neg => rw [if_neg hbd] at harm; exact Option.noConfusion harm
        have hbdS : wordBoundary (w ++ c :: u)
            (p2 + (keyRunFrom (w ++ c :: u) p2 - d)) = true := by
          rw [wordBoundary_congr w c u '[' v _ (by rw [hre] at hrb; omega)]
          exact hbd
        have hsomeS : (keyArm (w ++ c :: u) p2 (keyRunFrom (w ++ c :: u) p2) d).isSome =
            true := by
          unfold keyArm
          rw [if_pos hbdS]
          rfl
        have := range_findSome?_isSome _ _ d hdlt hsomeS
        rw [hn] at this
        exact Bool.noConfusion this
      · by_cases hr20 : keyRunFrom (w ++ '[' :: v) p2 < 20
        case pos => rw [if_pos hr20] at ho; exact Option.noConfusion ho
        rw [if_neg hr20] at ho
        rw [if_neg (by omega)] at hn
        obtain ⟨d, hdmem, harm⟩ := List.exists_of_findSome?_eq_some ho
        have hdlt := List.mem_range.mp hdmem
        unfold keyArm at harm
        by_cases hbd : wordBoundary (w ++ '[' :: v)
            (p2 + (keyRunFrom (w ++ '[' :: v) p2 - d)) = true
        case neg => rw [if_neg hbd] at harm; exact Option.noConfusion harm
        set rO := keyRunFrom (w ++ '[' :: v) p2 with hrOdef
        set rS := keyRunFrom (w ++ c :: u) p2 with hrSdef
        set k := rO - d with hkdef
        rcases Nat.lt_or_ge k rO with hklt | hkge
        · -- the boundary lies strictly inside `w`: transfer it
          have hbdS : wordBoundary (w ++ c :: u) (p2 + k) = true := by
            rw [wordBoundary_congr w c u '[' v _ (by omega)]
            exact hbd
          have hsomeS : (keyArm (w ++ c :: u) p2 rS (rS - k)).isSome = true := by
            unfold keyArm
            rw [show rS - (rS - k) = k by omega, if_pos hbdS]
            rfl
          have := range_findSome?_isSome (rS - 20 + 1) (keyArm (w ++ c :: u) p2 rS)
            (rS - k) (by omega) hsomeS
          rw [hn] at this
          exact Bool.noConfusion this
        · -- the boundary would sit exactly on the seam: the last character of
          -- `w` is non-word and `[` is non-word, so there is no boundary
          have hke : k = rO := by omega
          have hpk : p2 + k = w.length := by omega
          unfold wordBoundary at hbd
          rw [hpk] at hbd
          rw [if_neg (by omega)] at hbd
          have hwL : isWordAt (w ++ '[' :: v) w.length = false := by
            rw [isWordAt_append_at]; decide
          have hwL1 : isWordAt (w ++ '[' :: v) (w.length - 1) = false := by
            unfold isWordAt
            rw [get?_append_lt w _ _ (by omega), hchL]
            exact hchw
          rw [hwL, hwL1] at hbd
          exact Bool.noConfusion hbd

/-! ### Facts about the credit-card matcher -/

def ccTailOk (s : Str) (p : Nat) : Prop := (digitsRangeTail s p 1 4).isSome = true

def fourDigitsAt (s : Str) (p : Nat) : Bool :=
  isDigitAt s p && isDigitAt s (p + 1) && isDigitAt s (p + 2) && isDigitAt s (p + 3)

def ccSepAt (s : Str) (p : Nat) : Bool := chAt s p '-' || chAt s p ' '

/-- Propositional mirror of the backtracking search of `ccReps`: either
extend with one more group (with or without its optional separator) or, if
at most one group remains optional, stop and match the final digit tail. -/
def ccOk (s : Str) : Nat → Nat → Prop
  | 0, p => ccTailOk s p
  | rem + 1, p =>
    (fourDigitsAt s p = true ∧
      (ccOk s rem (p + 4) ∨ (ccSepAt s (p + 4) = true ∧ ccOk s rem (p + 5)))) ∨
    (rem + 1 ≤ 1 ∧ ccTailOk s p)

theorem ccGroup_isSome_iff (s : Str) (pos : Nat) (cont : Nat → Option Nat) :
    (ccGroup s pos cont).isSome = true ↔
    fourDigitsAt s pos = true ∧
      ((cont (pos + 4)).isSome = true ∨
        (ccSepAt s (pos + 4) = true ∧ (cont (pos + 5)).isSome = true)) := by
  unfold ccGroup fourDigitsAt ccSepAt
  by_cases hd : (isDigitAt s pos && isDigitAt s (pos + 1) && isDigitAt s (pos + 2) &&
      isDigitAt s (pos + 3)) = true
  · rw [if_pos hd]
    by_cases hs : (chAt s (pos + 4) '-' || chAt s (pos + 4) ' ') = true
    · rw [if_pos hs]
      cases h5 : cont (pos + 5) <;> cases h4 : cont (pos + 4) <;>
        simp [Option.orElse, hd, hs]
    · rw [if_neg hs]
      simp only [hd, true_and]
      constructor
      · intro h; exact Or.inl h
      · intro h
        rcases h with h | ⟨hsep, _⟩
        · exact h
        · rw [hsep] at hs; exact absurd rfl hs
  · rw [if_neg hd]
    simp only [Option.isSome_none]
    constructor
    · intro h; exact Bool.noConfusion h
    · intro h
      rw [h.1] at hd
      exact absurd rfl hd

theorem ccReps_isSome_iff (s : Str) : ∀ rem p,
    ((ccReps s (fun pos => digitsRangeTail s pos 1 4) rem p).isSome = true) ↔
      ccOk s rem p := by
  intro rem
  induction rem with
  | zero => intro p; exact Iff.rfl
  | succ rem ih =>
    intro p
    show ((match ccGroup s p (fun p2 => ccReps s (fun pos => digitsRangeTail s pos 1 4)
        rem p2) with
      | some e => some e
      | none => if rem + 1 ≤ 1 then digitsRangeTail s p 1 4 else none).isSome = true) ↔
      ccOk s (rem + 1) p
    cases hg : ccGroup s p (fun p2 => ccReps s (fun pos => digitsRangeTail s pos 1 4)
        rem p2) with
    | some e =>
      have hgs : (ccGroup s p (fun p2 => ccReps s (fun pos => digitsRangeTail s pos 1 4)
          rem p2)).isSome = true := by rw [hg]; rfl
      rw [ccGroup_isSome_iff] at hgs
      simp only [Option.isSome_some, true_iff]
      unfold ccOk
      left
      refine ⟨hgs.1, ?_⟩
      rcases hgs.2 with h4 | ⟨hsep, h5⟩
      · exact Or.inl ((ih (p + 4)).mp h4)
      · exact Or.inr ⟨hsep, (ih (p + 5)).mp h5⟩
    | none =>
      have hgn : ¬ (fourDigitsAt s p = true ∧
          (ccOk s rem (p + 4) ∨ (ccSepAt s (p + 4) = true ∧ ccOk s rem (p + 5)))) := by
        intro hcon
        have : (ccGroup s p (fun p2 => ccReps s (fun pos => digitsRangeTail s pos 1 4)
            rem p2)).isSome = true := by
          rw [ccGroup_isSome_iff]
          refine ⟨hcon.1, ?_⟩
          rcases hcon.2 with h4 | ⟨hsep, h5⟩
          · exact Or.inl ((ih (p + 4)).mpr h4)
          · exact Or.inr ⟨hsep, (ih (p + 5)).mpr h5⟩
        rw [hg] at this
        exact Bool.noConfusion this
      by_cases hr : rem + 1 ≤ 1
      · rw [if_pos hr]
        unfold ccOk
        constructor
        · intro h; exact Or.inr ⟨hr, h⟩
        · intro h
          rcases h with h | ⟨_, h⟩
          · exact absurd h hgn
          · exact h
      · rw [if_neg hr]
        simp only [Option.isSome_none]
        constructor
        · intro h; exact Bool.noConfusion h
        · intro h
          unfold ccOk at h
          rcases h with h | ⟨h1, _⟩
          · exact absurd h hgn
          · exact absurd h1 hr

theorem dRT14_some_facts (s : Str) (p e : Nat) (h : digitsRangeTail s p 1 4 = some e) :
    p < e ∧ e ≤ s.length ∧ isDigitAt s (e - 1) = true ∧ isWordAt s e = false := by
  obtain ⟨k, he, hk1, hk2, hdig, hbd⟩ := dRT_some_facts s p 1 4 e (by omega) h
  have hlast := hdig (k - 1) (by omega)
  obtain ⟨ch, hch, _⟩ := isDigitAt_some s _ hlast
  have hlt := lt_length_of_get?_some s _ ch hch
  have hword1 : isWordAt s (p + (k - 1)) = true := isWordAt_of_isDigitAt s _ hlast
  refine ⟨by omega, by omega, ?_, ?_⟩
  · rw [he, show p + k - 1 = p + (k - 1) by omega]
    exact hlast
  · unfold wordBoundary at hbd
    rw [if_neg (by omega), show p + k - 1 = p + (k - 1) by omega, hword1] at hbd
    rw [he]
    simpa using hbd

theorem ccReps_some_facts (s : Str) : ∀ rem p e,
    ccReps s (fun pos => digitsRangeTail s pos 1 4) rem p = some e →
    p < e ∧ e ≤ s.length ∧ isWordAt s e = false := by
  intro rem
  induction rem with
  | zero =>
    intro p e h
    obtain ⟨h1, h2, _, h4⟩ := dRT14_some_facts s p e h
    exact ⟨h1, h2, h4⟩
  | succ rem ih =>
    intro p e h
    have hstep : ccReps s (fun pos => digitsRangeTail s pos 1 4) (rem + 1) p =
        match ccGroup s p (fun p2 => ccReps s (fun pos => digitsRangeTail s pos 1 4)
          rem p2) with
        | some e2 => some e2
        | none => if rem + 1 ≤ 1 then digitsRangeTail s p 1 4 else none := rfl
    rw [hstep] at h
    cases hg : ccGroup s p (fun p2 => ccReps s (fun pos => digitsRangeTail s pos 1 4)
        rem p2) with
    | some e2 =>
      rw [hg] at h
      have he2 : e2 = e := Option.some.inj h
      subst he2
      unfold ccGroup at hg
      by_cases hd : (isDigitAt s p && isDigitAt s (p + 1) && isDigitAt s (p + 2) &&
          isDigitAt s (p + 3)) = true
      · rw [if_pos hd] at hg
        by_cases hs : (chAt s (p + 4) '-' || chAt s (p + 4) ' ') = true
        · rw [if_pos hs] at hg
          dsimp only at hg
          cases h5 : ccReps s (fun pos => digitsRangeTail s pos 1 4) rem (p + 5) with
          | some e5 =>
            rw [h5] at hg
            simp only [Option.orElse] at hg
            have he5 : e5 = e2 := Option.some.inj hg
            obtain ⟨ha, hb, hc⟩ := ih (p + 5) e5 h5
            rw [← he5]
            exact ⟨by omega, hb, hc⟩
          | none =>
            rw [h5] at hg
            simp only [Option.orElse] at hg
            obtain ⟨ha, hb, hc⟩ := ih (p + 4) e2 hg
            exact ⟨by omega, hb, hc⟩
        · rw [if_neg hs] at hg
          dsimp only at hg
          obtain ⟨ha, hb, hc⟩ := ih (p + 4) e2 hg
          exact ⟨by omega, hb, hc⟩
      · rw [if_neg hd] at hg
        exact Option.noConfusion hg
    | none =>
      rw [hg] at h
      by_cases hr : rem + 1 ≤ 1
      · rw [if_pos hr] at h
        obtain ⟨h1, h2, _, h4⟩ := dRT14_some_facts s p e h
        exact ⟨h1, h2, h4⟩
      · rw [if_neg hr] at h
        exact Option.noConfusion h

theorem ccF_eq (b : Bool) (s : Str) :
    ccF b s =
      if b != isWordAt s 0 then ccReps s (fun pos => digitsRangeTail s pos 1 4) 4 0
      else none := rfl

theorem ccReps4_none_of_nondigit (s : Str) (h : isDigitAt s 0 = false) :
    ccReps s (fun pos => digitsRangeTail s pos 1 4) 4 0 = none := by
  have hg : ccGroup s 0 (fun p2 => ccReps s (fun pos => digitsRangeTail s pos 1 4) 3 p2) =
      none := by
    unfold ccGroup
    rw [show (0 : Nat) + 1 = 1 from rfl, show (0 : Nat) + 2 = 2 from rfl,
      show (0 : Nat) + 3 = 3 from rfl, h]
    simp
  show (match ccGroup s 0 (fun p2 => ccReps s (fun pos => digitsRangeTail s pos 1 4) 3 p2)
      with
    | some e => some e
    | none => if (3 : Nat) + 1 ≤ 1 then digitsRangeTail s 0 1 4 else none) = none
  rw [hg]
  rfl

theorem ccF_empty (b : Bool) : ccF b [] = none := by
  rw [ccF_eq]
  rw [ccReps4_none_of_nondigit [] rfl]
  split <;> rfl

theorem ccF_nonword_head (b : Bool) (c : Char) (xs : Str) (h : isWordChar c = false) :
    ccF b (c :: xs) = none := by
  have hd : c.isDigit = false := by
    cases hd2 : c.isDigit
    · rfl
    · rw [isWordChar_of_digit c hd2] at h; exact Bool.noConfusion h
  rw [ccF_eq, ccReps4_none_of_nondigit (c :: xs) (by rw [isDigitAt_cons, hd])]
  split <;> rfl

theorem ccF_prev_word (c : Char) (xs : Str) (h : isWordChar c = true) :
    ccF true (c :: xs) = none := by
  rw [ccF_eq, if_neg ?_]
  rw [isWordAt_cons, h]
  decide

theorem ccF_some_head (b : Bool) (s : Str) (len : Nat) (h : ccF b s = some len) :
    ∃ c0 xs, s = c0 :: xs ∧ isWordChar c0 = true ∧ b = false := by
  rw [ccF_eq] at h
  by_cases hg : (b != isWordAt s 0) = true
  case neg => rw [if_neg hg] at h; simp at h
  rw [if_pos hg] at h
  have hsome : (ccReps s (fun pos => digitsRangeTail s pos 1 4) 4 0).isSome = true := by
    rw [h]; rfl
  rw [ccReps_isSome_iff] at hsome
  have hfour : fourDigitsAt s 0 = true := by
    have hsome2 : (fourDigitsAt s 0 = true ∧
        (ccOk s 3 (0 + 4) ∨ (ccSepAt s (0 + 4) = true ∧ ccOk s 3 (0 + 5)))) ∨
        (3 + 1 ≤ 1 ∧ ccTailOk s 0) := hsome
    rcases hsome2 with hl | ⟨hr, _⟩
    · exact hl.1
    · omega
  have h0 : isDigitAt s 0 = true := by
    simp only [fourDigitsAt, Bool.and_eq_true] at hfour
    exact hfour.1.1.1
  obtain ⟨c0, hg0, hdig⟩ := isDigitAt_some s 0 h0
  cases s with
  | nil => exact Option.noConfusion hg0
  | cons x xs =>
    have hx : x = c0 := Option.some.inj hg0
    subst hx
    have hw : isWordChar x = true := isWordChar_of_digit x hdig
    refine ⟨x, xs, rfl, hw, ?_⟩
    rw [isWordAt_cons, hw] at hg
    cases b
    · rfl
    · simp at hg

theorem ccF_some_facts (b : Bool) (s : Str) (len : Nat) (h : ccF b s = some len) :
    1 ≤ len ∧ len ≤ s.length ∧ isWordAt s len = false := by
  rw [ccF_eq] at h
  by_cases hg : (b != isWordAt s 0) = true
  case neg => rw [if_neg hg] at h; simp at h
  rw [if_pos hg] at h
  obtain ⟨h1, h2, h3⟩ := ccReps_some_facts s 4 0 len h
  exact ⟨by omega, h2, h3⟩

theorem ccTailOk_seam (w : Str) (c : Char) (u v : Str) (p : Nat)
    (hp : p ≤ w.length)
    (hlast : ∃ ch, w.get? (w.length - 1) = some ch ∧ isWordChar ch = false)
    (h : ccTailOk (w ++ '[' :: v) p) : ccTailOk (w ++ c :: u) p := by
  obtain ⟨chL, hchL, hchw⟩ := hlast
  have hL : 1 ≤ w.length := by
    cases w with
    | nil => exact Option.noConfusion hchL
    | cons x xs => simp
  unfold ccTailOk at h ⊢
  obtain ⟨e, he⟩ := Option.isSome_iff_exists.mp h
  obtain ⟨k, hek, hk1, hk2, hdig, hbd⟩ := dRT_some_facts _ p 1 4 e (by omega) he
  have hdigbound : p + k ≤ w.length := by
    by_contra hcr
    have hj := hdig (w.length - p) (by omega)
    rw [show p + (w.length - p) = w.length by omega, isDigitAt_append_at] at hj
    exact absurd hj (by decide)
  rcases Nat.lt_or_ge (p + k) w.length with hlt | hge
  · have hdigS : ∀ j, j < k → isDigitAt (w ++ c :: u) (p + j) = true := by
      intro j hj
      rw [isDigitAt_congr w c u '[' v (p + j) (by omega)]
      exact hdig j hj
    have hbdS : wordBoundary (w ++ c :: u) (p + k) = true := by
      rw [wordBoundary_congr w c u '[' v (p + k) hlt]
      exact hbd
    exact dRT_isSome_intro (w ++ c :: u) p 1 4 k hk1 hk2 hdigS hbdS
  · exfalso
    have hpe : p + k = w.length := by omega
    unfold wordBoundary at hbd
    rw [if_neg (by omega), hpe] at hbd
    have hwL : isWordAt (w ++ '[' :: v) w.length = false := by
      rw [isWordAt_append_at]; decide
    have hwL1 : isWordAt (w ++ '[' :: v) (w.length - 1) = false := by
      unfold isWordAt
      rw [get?_append_lt w _ _ (by omega), hchL]
      exact hchw
    rw [hwL, hwL1] at hbd
    exact Bool.noConfusion hbd

theorem ccOk_seam (w : Str) (c : Char) (u v : Str)
    (hlast : ∃ ch, w.get? (w.length - 1) = some ch ∧ isWordChar ch = false) :
    ∀ rem p, p ≤ w.length → ccOk (w ++ '[' :: v) rem p → ccOk (w ++ c :: u) rem p := by
  intro rem
  induction rem with
  | zero => intro p hp h; exact ccTailOk_seam w c u v p hp hlast h
  | succ rem ih =>
    intro p hp h
    rcases h with ⟨hfour, hrest⟩ | ⟨hr1, htail⟩
    · have hfb : p + 4 ≤ w.length := by
        by_contra hcr
        have hj : isDigitAt (w ++ '[' :: v) w.length = false := by
          rw [isDigitAt_append_at]; decide
        simp only [fourDigitsAt, Bool.and_eq_true] at hfour
        obtain ⟨⟨⟨h0, h1⟩, h2⟩, h3⟩ := hfour
        rcases Nat.lt_or_ge w.length (p + 1) with hc1 | hc1
        · rw [show (w.length : Nat) = p by omega] at hj
          rw [h0] at hj; exact Bool.noConfusion hj
        · rcases Nat.lt_or_ge w.length (p + 2) with hc2 | hc2
          · rw [show (w.length : Nat) = p + 1 by omega] at hj
            rw [h1] at hj; exact Bool.noConfusion hj
          · rcases Nat.lt_or_ge w.length (p + 3) with hc3 | hc3
            · rw [show (w.length : Nat) = p + 2 by omega] at hj
              rw [h2] at hj; exact Bool.noConfusion hj
            · rw [show (w.length : Nat) = p + 3 by omega] at hj
              rw [h3] at hj; exact Bool.noConfusion hj
      have hfourS : fourDigitsAt (w ++ c :: u) p = true := by
        simp only [fourDigitsAt, Bool.and_eq_true] at hfour ⊢
        obtain ⟨⟨⟨h0, h1⟩, h2⟩, h3⟩ := hfour
        rw [isDigitAt_congr w c u '[' v p (by omega),
          isDigitAt_congr w c u '[' v (p + 1) (by omega),
          isDigitAt_congr w c u '[' v (p + 2) (by omega),
          isDigitAt_congr w c u '[' v (p + 3) (by omega)]
        exact ⟨⟨⟨h0, h1⟩, h2⟩, h3⟩
      left
      refine ⟨hfourS, ?_⟩
      rcases hrest with hcc | ⟨hsep, hcc5⟩
      · exact Or.inl (ih (p + 4) (by omega) hcc)
      · have hseplt : p + 4 < w.length := by
          rcases Nat.lt_or_ge (p + 4) w.length with hlt | hge
          · exact hlt
          · exfalso
            have hpe : p + 4 = w.length := by omega
            simp only [ccSepAt, Bool.or_eq_true] at hsep
            rcases hsep with hx | hx <;>
              (rw [hpe, chAt_append_at] at hx; exact absurd hx (by decide))
        have hsepS : ccSepAt (w ++ c :: u) (p + 4) = true := by
          simp only [ccSepAt] at hsep ⊢
          rw [chAt_congr w c u '[' v (p + 4) '-' hseplt,
            chAt_congr w c u '[' v (p + 4) ' ' hseplt]
          exact hsep
        exact Or.inr ⟨hsepS, ih (p + 5) (by omega) hcc5⟩
    · exact Or.inr ⟨hr1, ccTailOk_seam w c u v p hp hlast htail⟩

/-- Transfer lemma for the credit-card rule. -/
theorem ccF_seam (b : Bool) (w : Str) (c : Char) (u v : Str)
    (hn : ccF b (w ++ c :: u) = none)
    (hlast : ∃ ch, w.get? (w.length - 1) = some ch ∧ isWordChar ch = false) :
    ccF b (w ++ '[' :: v) = none := by
  obtain ⟨chL, hchL, hchw⟩ := hlast
  have hL : 1 ≤ w.length := by
    cases w with
    | nil => exact Option.noConfusion hchL
    | cons x xs => simp
  cases ho : ccF b (w ++ '[' :: v) with
  | none => rfl
  | some e =>
    exfalso
    rw [ccF_eq] at ho
    by_cases hg : (b != isWordAt (w ++ '[' :: v) 0) = true
    case neg => rw [if_neg hg] at ho; simp at ho
    rw [if_pos hg] at ho
    have hsome : (ccReps (w ++ '[' :: v) (fun pos => digitsRangeTail (w ++ '[' :: v) pos 1 4)
        4 0).isSome = true := by rw [ho]; rfl
    rw [ccReps_isSome_iff] at hsome
    have hokS := ccOk_seam w c u v ⟨chL, hchL, hchw⟩ 4 0 (by omega) hsome
    rw [← ccReps_isSome_iff] at hokS
    have hgS : (b != isWordAt (w ++ c :: u) 0) = true := by
      rw [isWordAt_congr w c u '[' v 0 (by omega)]
      exact hg
    rw [ccF_eq, if_pos hgS] at hn
    rw [hn] at hokS
    exact Bool.noConfusion hokS

/-! ### The account / routing instances of the labeled-number matcher -/

def acctKws : List Str := [strOf "account", strOf "acct"]

def routKws : List Str := [strOf "routing", strOf "aba"]

theorem accountF_eq (b : Bool) (s : Str) : accountF b s = labeledNumberF acctKws 8 17 b s := rfl

theorem routingF_eq (b : Bool) (s : Str) : routingF b s = labeledNumberF routKws 9 9 b s := rfl

theorem acctKws_heads : ∀ kw ∈ acctKws, ∃ k0, kw.get? 0 = some k0 ∧ isWordChar k0 = true := by
  intro kw hmem
  fin_cases hmem <;> exact ⟨'a', rfl, by decide⟩

theorem acctKws_ne : ∀ kw ∈ acctKws, 0 < kw.length := by decide

theorem acctKws_nb : ∀ kw ∈ acctKws, kw.all (fun ch => ch != '[') = true := by decide

theorem acctKws_pw : kwPairwise acctKws = true := by decide

theorem routKws_heads : ∀ kw ∈ routKws, ∃ k0, kw.get? 0 = some k0 ∧ isWordChar k0 = true := by
  intro kw hmem
  fin_cases hmem
  · exact ⟨'r', rfl, by decide⟩
  · exact ⟨'a', rfl, by decide⟩

theorem routKws_ne : ∀ kw ∈ routKws, 0 < kw.length := by decide

theorem routKws_nb : ∀ kw ∈ routKws, kw.all (fun ch => ch != '[') = true := by decide

theorem routKws_pw : kwPairwise routKws = true := by decide

/-! ### The replacement tokens are inert

A matcher evaluated anywhere inside a replacement token fails: tokens
contain no digits, and the only keyword occurrences inside them
(`ACCOUNT`, `ROUTING`, `PASSWORD`) are immediately followed by `]`, which
is not a separator, `.`, `#`, or digit, so every rule's tail fails before
reading past the token. -/

def TokH (G : Bool → Str → Option Nat) (tok : Str) : Prop :=
  ∀ off, off < tok.length → ∀ b rest, G b (tok.drop off ++ rest) = none

def headNonDigit (t : Str) : Bool :=
  match t with
  | [] => false
  | ch :: _ => !ch.isDigit

def kwMismatchIn (t kw : Str) : Bool :=
  (List.range (min t.length kw.length)).any (fun i =>
    ((t.get? i).map Char.toLower != kw.get? i))

def oneBlockCharAt (t : Str) (p : Nat) : Bool :=
  match t.get? p with
  | some ch => !(ch = '.') && !isPySpace ch && !(ch = '#') && !ch.isDigit
  | none => false

def sepBlockedAt (t : Str) (p : Nat) : Bool :=
  match t.get? p with
  | some ch => !(ch = ':') && !isPySpace ch
  | none => false

def lnfTokBlocked (kws : List Str) (t : Str) : Bool :=
  kws.all (fun kw => kwMismatchIn t kw || oneBlockCharAt t kw.length)

def pwdTokBlocked (t : Str) : Bool :=
  pwdKws.all (fun kw => kwMismatchIn t kw || sepBlockedAt t kw.length)

def keyTokBlocked (t : Str) : Bool :=
  kwMismatchIn t (strOf "api") && keyKws.all (fun kw => kwMismatchIn t kw)

theorem ssnF_nondigit_head (b : Bool) (c : Char) (xs : Str) (h : c.isDigit = false) :
    ssnF b (c :: xs) = none := by
  rw [ssnF_none_iff]
  unfold ssnShaped
  rw [isDigitAt_cons, h]
  simp

theorem kwMismatchIn_sound (t kw : Str) (h : kwMismatchIn t kw = true) (rest : Str) :
    keywordAt (t ++ rest) 0 kw = false := by
  obtain ⟨i, hmem, hne⟩ := List.any_eq_true.mp h
  have hi := List.mem_range.mp hmem
  cases hkw : keywordAt (t ++ rest) 0 kw
  · rfl
  · exfalso
    have hch := keywordAt_char _ 0 kw hkw i (by omega)
    rw [show (0 : Nat) + i = i from by omega, get?_append_lt t rest i (by omega)] at hch
    exact absurd hch (bne_iff_ne.mp hne)

theorem chAt_of_get? (s : Str) (i : Nat) (c ch : Char) (h : s.get? i = some ch) :
    chAt s i c = (ch == c) := by
  unfold chAt
  rw [h]
  rfl

theorem runFrom_zero (P : Char → Bool) (s : Str) (p : Nat) (ch : Char)
    (h : s.get? p = some ch) (hch : P ch = false) :
    ((s.drop p).takeWhile P).length = 0 := by
  cases hd : s.drop p with
  | nil => simp [hd]
  | cons x tail =>
    have hx : x = ch := by
      have := get?_drop_add s p 0
      rw [hd] at this
      simp only [List.get?] at this
      rw [Nat.add_zero, h] at this
      exact (Option.some.inj this.symm).symm
    subst hx
    simp [List.takeWhile, hch]

theorem tokH_headNonDigit (G : Bool → Str → Option Nat) (tok : Str)
    (hG : ∀ b c xs, c.isDigit = false → G b (c :: xs) = none)
    (h : (List.range tok.length).all (fun off => headNonDigit (tok.drop off)) = true) :
    TokH G tok := by
  intro off hoff b rest
  have hh := List.all_eq_true.mp h off (List.mem_range.mpr hoff)
  cases hd : tok.drop off with
  | nil =>
    rw [hd] at hh
    exact absurd hh (by decide)
  | cons ch tail =>
    rw [hd] at hh
    have hchd : ch.isDigit = false := by
      simpa [headNonDigit] using hh
    exact hG b ch (tail ++ rest) hchd

theorem lnf_tok_none (kws : List Str) (minK maxK : Nat) (hm1 : 1 ≤ minK) (hm : minK ≤ maxK)
    (t : Str) (hb : lnfTokBlocked kws t = true) (b : Bool) (rest : Str) :
    labeledNumberF kws minK maxK b (t ++ rest) = none := by
  rw [labeledNumberF_eq]
  cases hfind : kws.findSome?
      (fun kw => if keywordAt (t ++ rest) 0 kw then some kw.length else none) with
  | none => split <;> rfl
  | some p1 =>
    obtain ⟨K, hmem, hK, hp1⟩ := kwFind_some_facts kws _ p1 hfind
    have hblockK := List.all_eq_true.mp hb K hmem
    have hmm : kwMismatchIn t K = false := by
      cases hx : kwMismatchIn t K
      · rfl
      · rw [kwMismatchIn_sound t K hx rest] at hK
        exact Bool.noConfusion hK
    rw [hmm] at hblockK
    simp only [Bool.false_or] at hblockK
    unfold oneBlockCharAt at hblockK
    cases hgp : t.get? K.length with
    | none => rw [hgp] at hblockK; exact Bool.noConfusion hblockK
    | some ch =>
      rw [hgp] at hblockK
      simp only [Bool.and_eq_true, Bool.not_eq_true', decide_eq_false_iff_not] at hblockK
      obtain ⟨⟨⟨hdot, hsp⟩, hhash⟩, hdig⟩ := hblockK
      have hplt : K.length < t.length := lt_length_of_get?_some t _ ch hgp
      have hsg : (t ++ rest).get? K.length = some ch := by
        rw [get?_append_lt t rest _ hplt]
        exact hgp
      have hdotf : chAt (t ++ rest) K.length '.' = false := by
        rw [chAt_of_get? _ _ _ ch hsg]
        exact beq_eq_false_iff_ne.mpr hdot
      have hhashf : chAt (t ++ rest) K.length '#' = false := by
        rw [chAt_of_get? _ _ _ ch hsg]
        exact beq_eq_false_iff_ne.mpr hhash
      have hrun0 : spaceRunFrom (t ++ rest) K.length = 0 := by
        unfold spaceRunFrom
        exact runFrom_zero isPySpace _ _ ch hsg hsp
      have h2 : lnfP2 (t ++ rest) K.length = K.length := by
        unfold lnfP2
        rw [hdotf]
        rfl
      have h3 : lnfP3 (t ++ rest) K.length = K.length := by
        unfold lnfP3
        rw [h2, hrun0]
        omega
      have h4 : lnfP4 (t ++ rest) K.length = K.length := by
        unfold lnfP4
        rw [h3, hhashf]
        rfl
      have h5 : lnfP5 (t ++ rest) K.length = K.length := by
        unfold lnfP5
        rw [h4, hrun0]
        omega
      dsimp only
      rw [hp1, h5]
      split
      · rw [dRT_none_iff _ _ _ _ hm]
        intro k hk1 hk2
        cases hall : (List.range k).all (fun j => isDigitAt (t ++ rest) (K.length + j)) with
        | false => simp [hall]
        | true =>
          exfalso
          have h0 := List.all_eq_true.mp hall 0 (List.mem_range.mpr (by omega))
          rw [Nat.add_zero] at h0
          unfold isDigitAt at h0
          rw [hsg] at h0
          have h0b : ch.isDigit = true := h0
          rw [hdig] at h0b
          exact Bool.noConfusion h0b
      · rfl

theorem pwd_tok_none (t : Str) (hb : pwdTokBlocked t = true) (b : Bool) (rest : Str) :
    passwordF b (t ++ rest) = none := by
  rw [passwordF_eq]
  cases hfind : pwdKws.findSome?
      (fun kw => if keywordAt (t ++ rest) 0 kw then some kw.length else none) with
  | none => split <;> rfl
  | some p1 =>
    obtain ⟨K, hmem, hK, hp1⟩ := kwFind_some_facts pwdKws _ p1 hfind
    have hblockK := List.all_eq_true.mp hb K hmem
    have hmm : kwMismatchIn t K = false := by
      cases hx : kwMismatchIn t K
      · rfl
      · rw [kwMismatchIn_sound t K hx rest] at hK
        exact Bool.noConfusion hK
    rw [hmm] at hblockK
    simp only [Bool.false_or] at hblockK
    unfold sepBlockedAt at hblockK
    cases hgp : t.get? K.length with
    | none => rw [hgp] at hblockK; exact Bool.noConfusion hblockK
    | some ch =>
      rw [hgp] at hblockK
      simp only [Bool.and_eq_true, Bool.not_eq_true', decide_eq_false_iff_not] at hblockK
      obtain ⟨hcolon, hsp⟩ := hblockK
      have hplt : K.length < t.length := lt_length_of_get?_some t _ ch hgp
      have hsg : (t ++ rest).get? K.length = some ch := by
        rw [get?_append_lt t rest _ hplt]
        exact hgp
      have hrun0 : sepRunFrom (t ++ rest) K.length = 0 := by
        unfold sepRunFrom
        refine runFrom_zero _ _ _ ch hsg ?_
        rw [hsp, decide_eq_false hcolon]
        rfl
      dsimp only
      rw [hp1, hrun0]
      split <;> rfl

theorem apiKey_tok_none (t : Str) (hb : keyTokBlocked t = true) (b : Bool) (rest : Str) :
    apiKeyF b (t ++ rest) = none := by
  unfold keyTokBlocked at hb
  simp only [Bool.and_eq_true] at hb
  obtain ⟨hapi, hkws⟩ := hb
  have hfind : apiKwFind (t ++ rest) = none := by
    unfold apiKwFind
    rw [apiKeyKeyword_none_of_no_api _ (kwMismatchIn_sound t _ hapi rest)]
    rw [List.findSome?_eq_none_iff]
    intro kw hmem
    rw [kwMismatchIn_sound t kw (List.all_eq_true.mp hkws kw hmem) rest]
    rfl
  rw [apiKeyF_eq, hfind]
  split <;> rfl

/-! ### The six tokens block the six matchers at every interior offset -/

def piiToks : List Str :=
  [strOf "[REDACTED-SSN]", strOf "[REDACTED-CC]", strOf "[REDACTED-ACCOUNT]",
   strOf "[REDACTED-ROUTING]", strOf "[REDACTED-PASSWORD]", strOf "[REDACTED-KEY]"]

theorem tokH_of_all (G : Bool → Str → Option Nat) (tok : Str) (B : Str → Bool)
    (hsound : ∀ t, B t = true → ∀ b rest, G b (t ++ rest) = none)
    (h : (List.range tok.length).all (fun off => B (tok.drop off)) = true) :
    TokH G tok := by
  intro off hoff b rest
  exact hsound _ (List.all_eq_true.mp h off (List.mem_range.mpr hoff)) b rest

theorem tokH_ssn : ∀ tok ∈ piiToks, TokH ssnF tok := by
  intro tok hmem
  refine tokH_of_all ssnF tok headNonDigit ?_ ?_
  · intro t hbt b rest
    cases t with
    | nil => exact absurd hbt (by decide)
    | cons ch tail =>
      have hchd : ch.isDigit = false := by simpa [headNonDigit] using hbt
      exact ssnF_nondigit_head b ch (tail ++ rest) hchd
  · fin_cases hmem <;> decide

theorem tokH_cc : ∀ tok ∈ piiToks, TokH ccF tok := by
  intro tok hmem
  refine tokH_of_all ccF tok headNonDigit ?_ ?_
  · intro t hbt b rest
    cases t with
    | nil => exact absurd hbt (by decide)
    | cons ch tail =>
      have hchd : ch.isDigit = false := by simpa [headNonDigit] using hbt
      rw [List.cons_append, ccF_eq, ccReps4_none_of_nondigit (ch :: (tail ++ rest))
        (by rw [isDigitAt_cons, hchd])]
      split <;> rfl
  · fin_cases hmem <;> decide

theorem tokH_acct : ∀ tok ∈ piiToks, TokH accountF tok := by
  intro tok hmem
  refine tokH_of_all accountF tok (lnfTokBlocked acctKws) ?_ ?_
  · intro t hbt b rest
    rw [accountF_eq]
    exact lnf_tok_none acctKws 8 17 (by omega) (by omega) t hbt b rest
  · fin_cases hmem <;> decide

theorem tokH_rout : ∀ tok ∈ piiToks, TokH routingF tok := by
  intro tok hmem
  refine tokH_of_all routingF tok (lnfTokBlocked routKws) ?_ ?_
  · intro t hbt b rest
    rw [routingF_eq]
    exact lnf_tok_none routKws 9 9 (by omega) (by omega) t hbt b rest
  · fin_cases hmem <;> decide

theorem tokH_pwd : ∀ tok ∈ piiToks, TokH passwordF tok := by
  intro tok hmem
  refine tokH_of_all passwordF tok pwdTokBlocked ?_ ?_
  · intro t hbt b rest
    exact pwd_tok_none t hbt b rest
  · fin_cases hmem <;> decide

theorem tokH_key : ∀ tok ∈ piiToks, TokH apiKeyF tok := by
  intro tok hmem
  refine tokH_of_all apiKeyF tok keyTokBlocked ?_ ?_
  · intro t hbt b rest
    exact apiKey_tok_none t hbt b rest
  · fin_cases hmem <;> decide

/-! ### Structure of a substitution pass -/

def pwAt (cs : Str) (i : Nat) : Bool := decide (0 < i) && isWordAt cs (i - 1)

theorem matchAtIx_eq_pwAt (F : Bool → Str → Option Nat) (cs : Str) (i : Nat) :
    matchAtIx F cs i = F (pwAt cs i) (cs.drop i) := rfl

theorem pwAt_succ (cs : Str) (i : Nat) (c : Char) (h : cs.get? i = some c) :
    pwAt cs (i + 1) = isWordChar c := by
  unfold pwAt
  rw [Nat.add_sub_cancel]
  unfold isWordAt
  rw [h]
  simp

/-- A substitution pass either changes nothing after position `i` (no more
matches) or consists of an untouched segment, the replacement token, and a
recursive tail starting right after the first matched span. -/
theorem subF_struct (F : Bool → Str → Option Nat) (tok cs : Str)
    (hM3 : ∀ b s len, F b s = some len → 1 ≤ len ∧ len ≤ s.length)
    (hE : ∀ b, F b [] = none) :
    ∀ fuel i, cs.length ≤ fuel + i →
      (subF F tok fuel (pwAt cs i) (cs.drop i) = cs.drop i ∧
        ∀ p, i ≤ p → matchAtIx F cs p = none) ∨
      (∃ j len fuel2,
        i ≤ j ∧ matchAtIx F cs j = some len ∧
        (∀ p, i ≤ p → p < j → matchAtIx F cs p = none) ∧
        1 ≤ len ∧ j + len ≤ cs.length ∧
        cs.length ≤ fuel2 + (j + len) ∧ fuel2 < fuel ∧
        subF F tok fuel (pwAt cs i) (cs.drop i) =
          (cs.drop i).take (j - i) ++ tok ++
            subF F tok fuel2 (pwAt cs (j + len)) (cs.drop (j + len))) := by
  intro fuel
  induction fuel with
  | zero =>
    intro i hle
    left
    have hnil : cs.drop i = [] := List.drop_eq_nil_of_le (by omega)
    constructor
    · rfl
    · intro p hp
      rw [matchAtIx_eq_pwAt, List.drop_eq_nil_of_le (by omega)]
      exact hE _
  | succ fuel ih =>
    intro i hle
    cases hdrop : cs.drop i with
    | nil =>
      left
      have hlen : cs.length ≤ i := by
        have := List.drop_eq_nil_iff_le.mp hdrop
        omega
      constructor
      · rfl
      · intro p hp
        rw [matchAtIx_eq_pwAt, List.drop_eq_nil_of_le (by omega)]
        exact hE _
    | cons c rest =>
      have hi : i < cs.length := by
        by_contra hcr
        rw [List.drop_eq_nil_of_le (by omega)] at hdrop
        exact List.noConfusion hdrop
      have hgi : cs.get? i = some c := by
        have := get?_drop_add cs i 0
        rw [hdrop, Nat.add_zero] at this
        exact this.symm
      have hrest : rest = cs.drop (i + 1) := by
        have : cs.drop (i + 1) = (cs.drop i).drop 1 := by
          rw [List.drop_drop]
        rw [this, hdrop]
        rfl
      cases hF : F (pwAt cs i) (c :: rest) with
      | some len =>
        right
        have hm : matchAtIx F cs i = some len := by
          rw [matchAtIx_eq_pwAt, hdrop]
          exact hF
        obtain ⟨hl1, hl2⟩ := hM3 _ _ _ hF
        have hlen2 : i + len ≤ cs.length := by
          have : (c :: rest).length = cs.length - i := by
            rw [← hdrop, List.length_drop]
          omega
        refine ⟨i, len, fuel, Nat.le_refl i, hm, ?_, hl1, hlen2, by omega, by omega, ?_⟩
        · intro p hp1 hp2
          omega
        · show (match F (pwAt cs i) (c :: rest) with
            | some len => tok ++ subF F tok fuel (isWordAt (c :: rest) (len - 1))
                ((c :: rest).drop len)
            | none => c :: subF F tok fuel (isWordChar c) rest) = _
          rw [hF]
          dsimp only
          have hdd : (c :: rest).drop len = cs.drop (i + len) := by
            rw [← hdrop, List.drop_drop]
          have hpw : isWordAt (c :: rest) (len - 1) = pwAt cs (i + len) := by
            rw [← hdrop, isWordAt_drop]
            unfold pwAt
            have hd1 : decide (0 < i + len) = true := by
              rw [decide_eq_true_eq]
              omega
            rw [hd1, Bool.true_and, show i + len - 1 = i + (len - 1) by omega]
          rw [hdd, hpw]
          rw [show i - i = 0 by omega]
          rfl
      | none =>
        have hstep := ih (i + 1) (by omega)
        have hpw : pwAt cs (i + 1) = isWordChar c := pwAt_succ cs i c hgi
        rcases hstep with ⟨hsub, hall⟩ | ⟨j, len, fuel2, hij, hm, hnone, h1, h2, h3, h4, hsub⟩
        · left
          constructor
          · show (match F (pwAt cs i) (c :: rest) with
              | some len => tok ++ subF F tok fuel (isWordAt (c :: rest) (len - 1))
                  ((c :: rest).drop len)
              | none => c :: subF F tok fuel (isWordChar c) rest) = c :: rest
            rw [hF]
            rw [hrest, ← hpw, hsub]
          · intro p hp
            rcases Nat.eq_or_lt_of_le hp with hpe | hpl
            · rw [← hpe, matchAtIx_eq_pwAt, hdrop]
              exact hF
            · exact hall p (by omega)
        · right
          refine ⟨j, len, fuel2, by omega, hm, ?_, h1, h2, h3, by omega, ?_⟩
          · intro p hp1 hp2
            rcases Nat.eq_or_lt_of_le hp1 with hpe | hpl
            · rw [← hpe, matchAtIx_eq_pwAt, hdrop]
              exact hF
            · exact hnone p (by omega) hp2
          · show (match F (pwAt cs i) (c :: rest) with
              | some len => tok ++ subF F tok fuel (isWordAt (c :: rest) (len - 1))
                  ((c :: rest).drop len)
              | none => c :: subF F tok fuel (isWordChar c) rest) = _
            rw [hF, hrest, ← hpw, hsub]
            have htake : (c :: cs.drop (i + 1)).take (j - i) =
                c :: (cs.drop (i + 1)).take (j - (i + 1)) := by
              rw [show j - i = (j - (i + 1)) + 1 by omega]
              rw [List.take_succ_cons]
            rw [htake]
            rfl

theorem drop_append_ge (X Y : Str) (q : Nat) (h : X.length ≤ q) :
    (X ++ Y).drop q = Y.drop (q - X.length) := by
  nth_rewrite 1 [show q = X.length + (q - X.length) by omega]
  rw [List.drop_append]

theorem get?_take_lt (a : Str) (m n : Nat) (h : n < m) : (a.take m).get? n = a.get? n := by
  rw [List.get?_eq_getElem?, List.get?_eq_getElem?, List.getElem?_take_of_lt h]

theorem get?_some_of_lt (l : Str) (i : Nat) (h : i < l.length) :
    ∃ ch, l.get? i = some ch := by
  rw [List.get?_eq_getElem?, List.getElem?_eq_getElem h]
  exact ⟨l.get ⟨i, h⟩, rfl⟩

/-- Master lemma: a substitution pass with matcher `F` produces an output in
which the checked matcher `G` matches nowhere, provided `G` did not match
the pass input anywhere `F` failed (for `G = F` this is trivial; for an
earlier-pass `G` it follows from the input being `G`-free). -/
theorem walk_noMatch (F G : Bool → Str → Option Nat) (tokrest : Str) (cs : Str)
    (hM1 : ∀ b s len, F b s = some len →
      ∃ c0 xs, s = c0 :: xs ∧ isWordChar c0 = true ∧ b = false)
    (hM3 : ∀ b s len, F b s = some len → 1 ≤ len ∧ len ≤ s.length)
    (hM4 : ∀ b s len, F b s = some len → isWordAt s len = false)
    (hEF : ∀ b, F b [] = none)
    (hTR : ∀ b w c u v, G b (w ++ c :: u) = none → isWordChar c = true →
      (∃ ch, w.get? (w.length - 1) = some ch ∧ isWordChar ch = false) →
      G b (w ++ '[' :: v) = none)
    (hTok : TokH G ('[' :: tokrest))
    (hN1 : ∀ b c xs, isWordChar c = false → G b (c :: xs) = none)
    (hN2 : ∀ c xs, isWordChar c = true → G true (c :: xs) = none)
    (hEG : ∀ b, G b [] = none)
    (HS : ∀ p, matchAtIx F cs p = none → matchAtIx G cs p = none) :
    ∀ fuel i, cs.length ≤ fuel + i → (pwAt cs i = false ∨ isWordAt cs i = false) →
      (∀ b, G b (subF F ('[' :: tokrest) fuel (pwAt cs i) (cs.drop i)) = none) ∧
      (∀ q, 1 ≤ q →
        G (isWordAt (subF F ('[' :: tokrest) fuel (pwAt cs i) (cs.drop i)) (q - 1))
          ((subF F ('[' :: tokrest) fuel (pwAt cs i) (cs.drop i)).drop q) = none) := by
  intro fuel
  induction fuel using Nat.strong_induction_on with
  | _ fuel ih =>
    intro i hfuel hprev
    rcases subF_struct F ('[' :: tokrest) cs hM3 hEF fuel i hfuel with
      ⟨hsub, hall⟩ | ⟨j, len, fuel2, hij, hm, hnone, hlen1, hlen2, hfuel2, hflt, hsub⟩
    · -- case A: no match left; the output is the untouched input suffix
      rw [hsub]
      constructor
      · intro b
        cases hdrop : cs.drop i with
        | nil => exact hEG b
        | cons c rest =>
          have hgi : cs.get? i = some c := by
            have := get?_drop_add cs i 0
            rw [hdrop, Nat.add_zero] at this
            exact this.symm
          cases hw : isWordChar c with
          | false => exact hN1 b c rest hw
          | true =>
            have hwi : isWordAt cs i = true := by
              unfold isWordAt
              rw [hgi]
              exact hw
            have hpw : pwAt cs i = false := by
              rcases hprev with h | h
              · exact h
              · rw [hwi] at h; exact Bool.noConfusion h
            cases b with
            | true => exact hN2 c rest hw
            | false =>
              have := HS i (hall i (Nat.le_refl i))
              rw [matchAtIx_eq_pwAt, hpw, hdrop] at this
              exact this
      · intro q hq
        have hdd : (cs.drop i).drop q = cs.drop (i + q) := by
          rw [List.drop_drop, Nat.add_comm]
        have hpw : isWordAt (cs.drop i) (q - 1) = pwAt cs (i + q) := by
          rw [isWordAt_drop]
          unfold pwAt
          have hd1 : decide (0 < i + q) = true := by
            rw [decide_eq_true_eq]; omega
          rw [hd1, Bool.true_and, show i + q - 1 = i + (q - 1) by omega]
        rw [hdd, hpw]
        have := HS (i + q) (hall (i + q) (by omega))
        rw [matchAtIx_eq_pwAt] at this
        exact this
    · -- case B: untouched segment, token, recursive tail
      set A := (cs.drop i).take (j - i) with hAdef
      set R := subF F ('[' :: tokrest) fuel2 (pwAt cs (j + len)) (cs.drop (j + len))
        with hRdef
      have hjlt : j < cs.length := by omega
      have hAlen : A.length = j - i := by
        rw [hAdef, List.length_take, List.length_drop]
        omega
      obtain ⟨c0, xs, hdropj, hc0w, hb0⟩ := hM1 _ _ _ hm
      have hpwj : pwAt cs j = false := hb0
      have hafter : isWordAt cs (j + len) = false := by
        have := hM4 _ _ _ hm
        rw [isWordAt_drop] at this
        exact this
      have ihR := ih fuel2 hflt (j + len) hfuel2 (Or.inr hafter)
      rw [← hRdef] at ihR
      -- the token-suffix of the output, seen by the transfer lemma
      have hO : subF F ('[' :: tokrest) fuel (pwAt cs i) (cs.drop i) =
          A ++ ('[' :: (tokrest ++ R)) := by
        rw [hsub, List.append_assoc]
        rfl
      -- the segment position machinery: for every untouched position p in
      -- [i, j) the transfer lemma kills G on the output suffix
      have hseg : ∀ p, i ≤ p → p < j →
          G (pwAt cs p) ((cs.drop p).take (j - p) ++ ('[' :: (tokrest ++ R))) = none := by
        intro p hp1 hp2
        have hj1 : 1 ≤ j := by omega
        have hchj : ∃ ch, cs.get? (j - 1) = some ch ∧ isWordChar ch = false := by
          have hwj : isWordAt cs (j - 1) = false := by
            unfold pwAt at hpwj
            have hd1 : decide (0 < j) = true := by
              rw [decide_eq_true_eq]; omega
            rw [hd1, Bool.true_and] at hpwj
            exact hpwj
          obtain ⟨ch, hch⟩ := get?_some_of_lt cs (j - 1) (by omega)
          refine ⟨ch, hch, ?_⟩
          unfold isWordAt at hwj
          rw [hch] at hwj
          exact hwj
        obtain ⟨ch, hch, hchw⟩ := hchj
        set w := (cs.drop p).take (j - p) with hwdef
        have hwlen : w.length = j - p := by
          rw [hwdef, List.length_take, List.length_drop]
          omega
        have hwsplit : w ++ c0 :: xs = cs.drop p := by
          rw [hwdef, ← hdropj]
          have : cs.drop j = (cs.drop p).drop (j - p) := by
            rw [List.drop_drop]
            congr 1
            omega
          rw [this]
          exact List.take_append_drop (j - p) (cs.drop p)
        have hnonep : G (pwAt cs p) (w ++ c0 :: xs) = none := by
          rw [hwsplit]
          exact HS p (hnone p hp1 hp2)
        refine hTR (pwAt cs p) w c0 xs (tokrest ++ R) hnonep hc0w ⟨ch, ?_, hchw⟩
        rw [hwlen, hwdef, get?_take_lt _ _ _ (by omega), get?_drop_add,
          show p + (j - p - 1) = j - 1 by omega]
        exact hch
      rw [hO]
      have htlen : ('[' :: tokrest).length = tokrest.length + 1 := by
        simp
      constructor
      · intro b
        rcases Nat.eq_or_lt_of_le hij with hje | hjlt2
        · -- the match starts at i itself: the output suffix begins with the token
          have hA0 : A = [] := by
            rw [hAdef, ← hje, Nat.sub_self]
            rfl
          rw [hA0, List.nil_append]
          have := hTok 0 (by simp) b R
          rw [List.drop_zero] at this
          exact this
        · -- the segment is non-empty and starts with the untouched character cs[i]
          cases hdrop : cs.drop i with
          | nil =>
            exfalso
            have := List.drop_eq_nil_iff.mp hdrop
            omega
          | cons c rest =>
            have hgi : cs.get? i = some c := by
              have := get?_drop_add cs i 0
              rw [hdrop, Nat.add_zero] at this
              exact this.symm
            have hAcons : A = c :: rest.take (j - i - 1) := by
              rw [hAdef, hdrop, show j - i = (j - i - 1) + 1 by omega]
              rfl
            rw [hAcons, List.cons_append]
            cases hw : isWordChar c with
            | false => exact hN1 b c _ hw
            | true =>
              have hwi : isWordAt cs i = true := by
                unfold isWordAt
                rw [hgi]
                exact hw
              have hpw : pwAt cs i = false := by
                rcases hprev with h | h
                · exact h
                · rw [hwi] at h; exact Bool.noConfusion h
              cases b with
              | true => exact hN2 c _ hw
              | false =>
                have := hseg i (Nat.le_refl i) hjlt2
                rw [hpw] at this
                have hAeq : (cs.drop i).take (j - i) = c :: rest.take (j - i - 1) := by
                  rw [← hAdef]
                  exact hAcons
                rw [hAeq, List.cons_append] at this
                exact this
      · intro q hq
        rcases Nat.lt_or_ge q (j - i) with hqlt | hqge
        · -- inside the untouched segment
          have hdropq : (A ++ ('[' :: (tokrest ++ R))).drop q =
              (cs.drop (i + q)).take (j - (i + q)) ++ ('[' :: (tokrest ++ R)) := by
            rw [List.drop_append_of_le_length (by omega), hAdef, List.drop_take,
              List.drop_drop]
            have h1 : j - i - q = j - (i + q) := by omega
            rw [h1]
            try rw [Nat.add_comm q i]
          have hpwq : isWordAt (A ++ ('[' :: (tokrest ++ R))) (q - 1) = pwAt cs (i + q) := by
            unfold isWordAt pwAt
            rw [get?_append_lt _ _ _ (by omega), hAdef, get?_take_lt _ _ _ (by omega),
              get?_drop_add, show i + (q - 1) = i + q - 1 by omega]
            have hd1 : decide (0 < i + q) = true := by
              rw [decide_eq_true_eq]; omega
            rw [hd1, Bool.true_and]
            rfl
          rw [hdropq, hpwq]
          exact hseg (i + q) (by omega) (by omega)
        · rcases Nat.lt_or_ge q (j - i + (tokrest.length + 1)) with hqtok | hqrest
          · -- inside the token
            have hdropq : (A ++ ('[' :: (tokrest ++ R))).drop q =
                ('[' :: tokrest).drop (q - (j - i)) ++ R := by
              rw [drop_append_ge _ _ q (by omega), hAlen]
              have : ('[' :: (tokrest ++ R)) = ('[' :: tokrest) ++ R := by
                rw [List.cons_append]
              rw [this, List.drop_append_of_le_length (by rw [htlen]; omega)]
            rw [hdropq]
            exact hTok (q - (j - i)) (by rw [htlen]; omega) _ R
          · -- inside the recursive tail
            have hdropq : (A ++ ('[' :: (tokrest ++ R))).drop q =
                R.drop (q - (j - i) - (tokrest.length + 1)) := by
              rw [drop_append_ge _ _ q (by omega), hAlen]
              have hsplit : ('[' :: (tokrest ++ R)) = ('[' :: tokrest) ++ R := by
                rw [List.cons_append]
              rw [hsplit, drop_append_ge _ _ _ (by rw [htlen]; omega), htlen]
            rw [hdropq]
            rcases Nat.eq_or_lt_of_le hqrest with hqe | hql
            · -- the first position of the tail: any previous-character flag works
              have hq0 : q - (j - i) - (tokrest.length + 1) = 0 := by omega
              rw [hq0, List.drop_zero]
              exact ihR.1 _
            · -- deeper in the tail: the flag is the tail's own previous character
              have hpwq : isWordAt (A ++ ('[' :: (tokrest ++ R))) (q - 1) =
                  isWordAt R (q - (j - i) - (tokrest.length + 1) - 1) := by
                unfold isWordAt
                rw [get?_append_ge _ _ _ (by omega), hAlen]
                have hsplit : ('[' :: (tokrest ++ R)) = ('[' :: tokrest) ++ R := by
                  rw [List.cons_append]
                rw [hsplit, get?_append_ge _ _ _ (by rw [htlen]; omega), htlen,
                  show q - 1 - (j - i) - (tokrest.length + 1) =
                    q - (j - i) - (tokrest.length + 1) - 1 by omega]
              rw [hpwq]
              exact ihR.2 _ (by omega)

/-! Bundled matcher kit: the facts about one matcher needed on either side of a
substitution pass (as the matcher being run, or as a later matcher checked
against the pass output). -/

structure MKit (F : Bool → Str → Option Nat) : Prop where
  m1 : ∀ b s len, F b s = some len →
    ∃ c0 xs, s = c0 :: xs ∧ isWordChar c0 = true ∧ b = false
  m3 : ∀ b s len, F b s = some len → 1 ≤ len ∧ len ≤ s.length
  m4 : ∀ b s len, F b s = some len → isWordAt s len = false
  emp : ∀ b, F b [] = none
  seam : ∀ b w c u v, F b (w ++ c :: u) = none → isWordChar c = true →
    (∃ ch, w.get? (w.length - 1) = some ch ∧ isWordChar ch = false) →
    F b (w ++ '[' :: v) = none
  n1 : ∀ b c xs, isWordChar c = false → F b (c :: xs) = none
  n2 : ∀ c xs, isWordChar c = true → F true (c :: xs) = none
  tokh : ∀ tok ∈ piiToks, TokH F tok

theorem kit_ssn : MKit ssnF := by
  refine ⟨?_, ?_, ?_, ssnF_empty, ?_, ssnF_nonword_head, ssnF_prev_word, tokH_ssn⟩
  · intro b s len h
    exact ssnShaped_head b s (ssnF_some_facts b s len h).2
  · intro b s len h
    obtain ⟨h11, hs⟩ := ssnF_some_facts b s len h
    subst h11
    exact ⟨by omega, ssnShaped_len b s hs⟩
  · intro b s len h
    obtain ⟨h11, hs⟩ := ssnF_some_facts b s len h
    subst h11
    exact ssnShaped_after b s hs
  · intro b w c u v hn _ hlast
    exact ssnF_seam b w c u v hn hlast

theorem kit_cc : MKit ccF := by
  refine ⟨ccF_some_head, ?_, ?_, ccF_empty, ?_, ccF_nonword_head, ccF_prev_word, tokH_cc⟩
  · intro b s len h
    exact ⟨(ccF_some_facts b s len h).1, (ccF_some_facts b s len h).2.1⟩
  · intro b s len h
    exact (ccF_some_facts b s len h).2.2
  · intro b w c u v hn _ hlast
    exact ccF_seam b w c u v hn hlast

theorem kit_acct : MKit accountF := by
  refine ⟨?_, ?_, ?_, ?_, ?_, ?_, ?_, tokH_acct⟩
  · intro b s len h
    rw [accountF_eq] at h
    exact lnf_some_head acctKws 8 17 b s len acctKws_heads h
  · intro b s len h
    rw [accountF_eq] at h
    exact ⟨(lnf_some_facts acctKws 8 17 b s len (by omega) (by omega) h).1,
      (lnf_some_facts acctKws 8 17 b s len (by omega) (by omega) h).2.1⟩
  · intro b s len h
    rw [accountF_eq] at h
    exact (lnf_some_facts acctKws 8 17 b s len (by omega) (by omega) h).2.2
  · intro b
    rw [accountF_eq]
    exact lnf_empty acctKws 8 17 b acctKws_ne
  · intro b w c u v hn hword hlast
    rw [accountF_eq] at hn ⊢
    exact lnf_seam acctKws 8 17 b w c u v (by omega) (by omega) acctKws_pw acctKws_nb
      hword hn hlast
  · intro b c xs h
    rw [accountF_eq]
    exact lnf_nonword_head acctKws 8 17 b c xs acctKws_heads h
  · intro c xs h
    rw [accountF_eq]
    exact lnf_prev_word acctKws 8 17 c xs h

theorem kit_rout : MKit routingF := by
  refine ⟨?_, ?_, ?_, ?_, ?_, ?_, ?_, tokH_rout⟩
  · intro b s len h
    rw [routingF_eq] at h
    exact lnf_some_head routKws 9 9 b s len routKws_heads h
  · intro b s len h
    rw [routingF_eq] at h
    exact ⟨(lnf_some_facts routKws 9 9 b s len (by omega) (by omega) h).1,
      (lnf_some_facts routKws 9 9 b s len (by omega) (by omega) h).2.1⟩
  · intro b s len h
    rw [routingF_eq] at h
    exact (lnf_some_facts routKws 9 9 b s len (by omega) (by omega) h).2.2
  · intro b
    rw [routingF_eq]
    exact lnf_empty routKws 9 9 b routKws_ne
  · intro b w c u v hn hword hlast
    rw [routingF_eq] at hn ⊢
    exact lnf_seam routKws 9 9 b w c u v (by omega) (by omega) routKws_pw routKws_nb
      hword hn hlast
  · intro b c xs h
    rw [routingF_eq]
    exact lnf_nonword_head routKws 9 9 b c xs routKws_heads h
  · intro c xs h
    rw [routingF_eq]
    exact lnf_prev_word routKws 9 9 c xs h

theorem kit_pwd : MKit passwordF := by
  refine ⟨pwd_some_head, ?_, ?_, pwd_empty, ?_, pwd_nonword_head, pwd_prev_word, tokH_pwd⟩
  · intro b s len h
    exact ⟨(pwd_some_facts b s len h).1, (pwd_some_facts b s len h).2.1⟩
  · intro b s len h
    exact (pwd_some_facts b s len h).2.2
  · intro b w c u v hn hword hlast
    exact pwd_seam b w c u v hword hn hlast

theorem kit_key : MKit apiKeyF := by
  refine ⟨apiKey_some_head, ?_, ?_, apiKey_empty, ?_,
    apiKey_nonword_head, apiKey_prev_word, tokH_key⟩
  · intro b s len h
    exact ⟨(apiKey_some_facts b s len h).1, (apiKey_some_facts b s len h).2.1⟩
  · intro b s len h
    exact (apiKey_some_facts b s len h).2.2
  · intro b w c u v hn hword hlast
    exact apiKey_seam b w c u v hword hn hlast

/-- A full substitution pass for `F` leaves no match for `G`, provided every
`F`-non-match position of the input is also a `G`-non-match position. -/
theorem pass_noMatch (F G : Bool → Str → Option Nat) (kF : MKit F) (kG : MKit G)
    (tokrest : Str) (hmem : ('[' :: tokrest) ∈ piiToks) (cs : Str)
    (HS : ∀ p, matchAtIx F cs p = none → matchAtIx G cs p = none) :
    ∀ p, matchAtIx G (subAllF F ('[' :: tokrest) cs) p = none := by
  have hw := walk_noMatch F G tokrest cs kF.m1 kF.m3 kF.m4 kF.emp kG.seam
    (kG.tokh _ hmem) kG.n1 kG.n2 kG.emp HS (cs.length + 1) 0 (by omega) (Or.inl rfl)
  have hsub : subF F ('[' :: tokrest) (cs.length + 1) (pwAt cs 0) (cs.drop 0) =
      subAllF F ('[' :: tokrest) cs := by
    unfold subAllF
    rw [List.drop_zero]
    congr 1
  rw [hsub] at hw
  intro p
  rw [matchAtIx_eq_pwAt]
  cases p with
  | zero =>
    have hp0 : pwAt (subAllF F ('[' :: tokrest) cs) 0 = false := by simp [pwAt]
    rw [hp0, List.drop_zero]
    exact hw.1 false
  | succ q =>
    have hps : pwAt (subAllF F ('[' :: tokrest) cs) (q + 1) =
        isWordAt (subAllF F ('[' :: tokrest) cs) q := by simp [pwAt]
    rw [hps]
    simpa using hw.2 (q + 1) (by omega)

theorem tokSSN_cons : strOf "[REDACTED-SSN]" = '[' :: strOf "REDACTED-SSN]" := rfl

theorem tokCC_cons : strOf "[REDACTED-CC]" = '[' :: strOf "REDACTED-CC]" := rfl

theorem tokACCT_cons : strOf "[REDACTED-ACCOUNT]" = '[' :: strOf "REDACTED-ACCOUNT]" := rfl

theorem tokROUT_cons : strOf "[REDACTED-ROUTING]" = '[' :: strOf "REDACTED-ROUTING]" := rfl

theorem tokPWD_cons : strOf "[REDACTED-PASSWORD]" = '[' :: strOf "REDACTED-PASSWORD]" := rfl

theorem tokKEY_cons : strOf "[REDACTED-KEY]" = '[' :: strOf "REDACTED-KEY]" := rfl

theorem filterRegex_eq (t : Str) :
    filterRegex t =
      subAllF apiKeyF (strOf "[REDACTED-KEY]")
        (subAllF passwordF (strOf "[REDACTED-PASSWORD]")
          (subAllF routingF (strOf "[REDACTED-ROUTING]")
            (subAllF accountF (strOf "[REDACTED-ACCOUNT]")
              (subAllF ccF (strOf "[REDACTED-CC]")
                (subAllF ssnF (strOf "[REDACTED-SSN]") t))))) := rfl

/-- After the full six-pass filter, no pattern matches anywhere in the output. -/
theorem filterRegex_noMatch (t : Str) :
    (∀ p, matchAtIx ssnF (filterRegex t) p = none) ∧
    (∀ p, matchAtIx ccF (filterRegex t) p = none) ∧
    (∀ p, matchAtIx accountF (filterRegex t) p = none) ∧
    (∀ p, matchAtIx routingF (filterRegex t) p = none) ∧
    (∀ p, matchAtIx passwordF (filterRegex t) p = none) ∧
    (∀ p, matchAtIx apiKeyF (filterRegex t) p = none) := by
  set t1 := subAllF ssnF (strOf "[REDACTED-SSN]") t with ht1
  set t2 := subAllF ccF (strOf "[REDACTED-CC]") t1 with ht2
  set t3 := subAllF accountF (strOf "[REDACTED-ACCOUNT]") t2 with ht3
  set t4 := subAllF routingF (strOf "[REDACTED-ROUTING]") t3 with ht4
  set t5 := subAllF passwordF (strOf "[REDACTED-PASSWORD]") t4 with ht5
  set t6 := subAllF apiKeyF (strOf "[REDACTED-KEY]") t5 with ht6
  have hfr : filterRegex t = t6 := by
    rw [filterRegex_eq, ← ht1, ← ht2, ← ht3, ← ht4, ← ht5, ← ht6]
  have nm11 : ∀ p, matchAtIx ssnF t1 p = none := by
    rw [ht1, tokSSN_cons]
    exact pass_noMatch ssnF ssnF kit_ssn kit_ssn (strOf "REDACTED-SSN]") (by decide) t
      (fun p hp => hp)
  have nm12 : ∀ p, matchAtIx ssnF t2 p = none := by
    rw [ht2, tokCC_cons]
    exact pass_noMatch ccF ssnF kit_cc kit_ssn (strOf "REDACTED-CC]") (by decide) t1
      (fun p _ => nm11 p)
  have nm13 : ∀ p, matchAtIx ssnF t3 p = none := by
    rw [ht3, tokACCT_cons]
    exact pass_noMatch accountF ssnF kit_acct kit_ssn (strOf "REDACTED-ACCOUNT]") (by decide) t2
      (fun p _ => nm12 p)
  have nm14 : ∀ p, matchAtIx ssnF t4 p = none := by
    rw [ht4, tokROUT_cons]
    exact pass_noMatch routingF ssnF kit_rout kit_ssn (strOf "REDACTED-ROUTING]") (by decide) t3
      (fun p _ => nm13 p)
  have nm15 : ∀ p, matchAtIx ssnF t5 p = none := by
    rw [ht5, tokPWD_cons]
    exact pass_noMatch passwordF ssnF kit_pwd kit_ssn (strOf "REDACTED-PASSWORD]") (by decide) t4
      (fun p _ => nm14 p)
  have nm16 : ∀ p, matchAtIx ssnF t6 p = none := by
    rw [ht6, tokKEY_cons]
    exact pass_noMatch apiKeyF ssnF kit_key kit_ssn (strOf "REDACTED-KEY]") (by decide) t5
      (fun p _ => nm15 p)
  have nm22 : ∀ p, matchAtIx ccF t2 p = none := by
    rw [ht2, tokCC_cons]
    exact pass_noMatch ccF ccF kit_cc kit_cc (strOf "REDACTED-CC]") (by decide) t1
      (fun p hp => hp)
  have nm23 : ∀ p, matchAtIx ccF t3 p = none := by
    rw [ht3, tokACCT_cons]
    exact pass_noMatch accountF ccF kit_acct kit_cc (strOf "REDACTED-ACCOUNT]") (by decide) t2
      (fun p _ => nm22 p)
  have nm24 : ∀ p, matchAtIx ccF t4 p = none := by
    rw [ht4, tokROUT_cons]
    exact pass_noMatch routingF ccF kit_rout kit_cc (strOf "REDACTED-ROUTING]") (by decide) t3
      (fun p _ => nm23 p)
  have nm25 : ∀ p, matchAtIx ccF t5 p = none := by
    rw [ht5, tokPWD_cons]
    exact pass_noMatch passwordF ccF kit_pwd kit_cc (strOf "REDACTED-PASSWORD]") (by decide) t4
      (fun p _ => nm24 p)
  have nm26 : ∀ p, matchAtIx ccF t6 p = none := by
    rw [ht6, tokKEY_cons]
    exact pass_noMatch apiKeyF ccF kit_key kit_cc (strOf "REDACTED-KEY]") (by decide) t5
      (fun p _ => nm25 p)
  have nm33 : ∀ p, matchAtIx accountF t3 p = none := by
    rw [ht3, tokACCT_cons]
    exact pass_noMatch accountF accountF kit_acct kit_acct (strOf "REDACTED-ACCOUNT]")
      (by decide) t2 (fun p hp => hp)
  have nm34 : ∀ p, matchAtIx accountF t4 p = none := by
    rw [ht4, tokROUT_cons]
    exact pass_noMatch routingF accountF kit_rout kit_acct (strOf "REDACTED-ROUTING]")
      (by decide) t3 (fun p _ => nm33 p)
  have nm35 : ∀ p, matchAtIx accountF t5 p = none := by
    rw [ht5, tokPWD_cons]
    exact pass_noMatch passwordF accountF kit_pwd kit_acct (strOf "REDACTED-PASSWORD]")
      (by decide) t4 (fun p _ => nm34 p)
  have nm36 : ∀ p, matchAtIx accountF t6 p = none := by
    rw [ht6, tokKEY_cons]
    exact pass_noMatch apiKeyF accountF kit_key kit_acct (strOf "REDACTED-KEY]")
      (by decide) t5 (fun p _ => nm35 p)
  have nm44 : ∀ p, matchAtIx routingF t4 p = none := by
    rw [ht4, tokROUT_cons]
    exact pass_noMatch routingF routingF kit_rout kit_rout (strOf "REDACTED-ROUTING]")
      (by decide) t3 (fun p hp => hp)
  have nm45 : ∀ p, matchAtIx routingF t5 p = none := by
    rw [ht5, tokPWD_cons]
    exact pass_noMatch passwordF routingF kit_pwd kit_rout (strOf "REDACTED-PASSWORD]")
      (by decide) t4 (fun p _ => nm44 p)
  have nm46 : ∀ p, matchAtIx routingF t6 p = none := by
    rw [ht6, tokKEY_cons]
    exact pass_noMatch apiKeyF routingF kit_key kit_rout (strOf "REDACTED-KEY]")
      (by decide) t5 (fun p _ => nm45 p)
  have nm55 : ∀ p, matchAtIx passwordF t5 p = none := by
    rw [ht5, tokPWD_cons]
    exact pass_noMatch passwordF passwordF kit_pwd kit_pwd (strOf "REDACTED-PASSWORD]")
      (by decide) t4 (fun p hp => hp)
  have nm56 : ∀ p, matchAtIx passwordF t6 p = none := by
    rw [ht6, tokKEY_cons]
    exact pass_noMatch apiKeyF passwordF kit_key kit_pwd (strOf "REDACTED-KEY]")
      (by decide) t5 (fun p _ => nm55 p)
  have nm66 : ∀ p, matchAtIx apiKeyF t6 p = none := by
    rw [ht6, tokKEY_cons]
    exact pass_noMatch apiKeyF apiKeyF kit_key kit_key (strOf "REDACTED-KEY]")
      (by decide) t5 (fun p hp => hp)
  rw [hfr]
  exact ⟨nm16, nm26, nm36, nm46, nm56, nm66⟩

/-- The regex filter is idempotent on every input. -/
theorem filterRegex_idempotent (t : Str) :
    filterRegex (filterRegex t) = filterRegex t := by
  obtain ⟨n1, n2, n3, n4, n5, n6⟩ := filterRegex_noMatch t
  rw [filterRegex_eq (filterRegex t),
    subAllF_id_of_no_match ssnF _ _ n1,
    subAllF_id_of_no_match ccF _ _ n2,
    subAllF_id_of_no_match accountF _ _ n3,
    subAllF_id_of_no_match routingF _ _ n4,
    subAllF_id_of_no_match passwordF _ _ n5,
    subAllF_id_of_no_match apiKeyF _ _ n6]

/-- Decidable check: no pattern of the filter matches anywhere in `t`. -/
def noMatchB (t : Str) : Bool :=
  piiPatterns.all (fun pat => (List.range t.length).all (fun p => matchAtIx pat.1 t p == none))

theorem piiPatterns_empty_none :
    ∀ pat ∈ piiPatterns, ∀ b, pat.1 b [] = none := by
  intro pat hmem b
  fin_cases hmem
  · exact kit_ssn.emp b
  · exact kit_cc.emp b
  · exact kit_acct.emp b
  · exact kit_rout.emp b
  · exact kit_pwd.emp b
  · exact kit_key.emp b

theorem noMatchB_sound (t : Str) (h : noMatchB t = true) :
    ∀ pat ∈ piiPatterns, ∀ p, matchAtIx pat.1 t p = none := by
  intro pat hmem p
  rcases Nat.lt_or_ge p t.length with hlt | hge
  · have h1 := List.all_eq_true.mp h pat hmem
    have h2 := List.all_eq_true.mp h1 p (List.mem_range.mpr hlt)
    simpa using h2
  · unfold matchAtIx
    rw [List.drop_eq_nil_of_le hge]
    exact piiPatterns_empty_none pat hmem _

theorem filterRegex_id_of_clean (t : Str)
    (h : ∀ pat ∈ piiPatterns, ∀ p, matchAtIx pat.1 t p = none) :
    filterRegex t = t := by
  rw [filterRegex_eq,
    subAllF_id_of_no_match ssnF _ t
      (h (ssnF, strOf "[REDACTED-SSN]") (by simp [piiPatterns])),
    subAllF_id_of_no_match ccF _ t
      (h (ccF, strOf "[REDACTED-CC]") (by simp [piiPatterns])),
    subAllF_id_of_no_match accountF _ t
      (h (accountF, strOf "[REDACTED-ACCOUNT]") (by simp [piiPatterns])),
    subAllF_id_of_no_match routingF _ t
      (h (routingF, strOf "[REDACTED-ROUTING]") (by simp [piiPatterns])),
    subAllF_id_of_no_match passwordF _ t
      (h (passwordF, strOf "[REDACTED-PASSWORD]") (by simp [piiPatterns])),
    subAllF_id_of_no_match apiKeyF _ t
      (h (apiKeyF, strOf "[REDACTED-KEY]") (by simp [piiPatterns]))]

theorem filterPii_regex_some (s : Str) :
    filterPii (strOf "regex") (some s) = some (filterRegex s) := by
  simp only [filterPii]
  rw [if_neg (by decide)]
  simp

theorem filterRegex_nil : filterRegex [] = [] := rfl

/-- C5: the PII filter maps a missing text to a missing text and the empty
string to the empty string in every mode; in regex mode, a text in which no
redaction pattern matches at any position is returned byte-identical; and the
regex filter is idempotent — filtering an already-filtered text returns it
unchanged, for every input (in particular for inputs free of redaction
tokens). -/
theorem pii_filter_identity_and_idempotence :
    (∀ mode, filterPii mode none = none) ∧
    (∀ mode, filterPii mode (some []) = some []) ∧
    (∀ t, noMatchB t = true → filterPii (strOf "regex") (some t) = some t) ∧
    (∀ t, filterPii (strOf "regex") (filterPii (strOf "regex") (some t)) =
      filterPii (strOf "regex") (some t)) := by
  refine ⟨fun mode => rfl, ?_, ?_, ?_⟩
  · intro mode
    simp only [filterPii]
    by_cases h1 : mode = []
    · rw [if_pos h1]
    · rw [if_neg h1]
      by_cases h2 : mode = strOf "regex"
      · rw [if_pos h2, filterRegex_nil]
      · rw [if_neg h2]
  · intro t h
    rw [filterPii_regex_some, filterRegex_id_of_clean t (noMatchB_sound t h)]
  · intro t
    rw [filterPii_regex_some, filterPii_regex_some, filterRegex_idempotent]

theorem pii_filter_identity_and_idempotence_witness :
    noMatchB (strOf "hello") = true ∧
    filterPii (strOf "regex") (some (strOf "hello")) = some (strOf "hello") :=
  ⟨by decide, pii_filter_identity_and_idempotence.2.2.1 (strOf "hello") (by decide)⟩
